import Mathlib

/-!
# A heap model of `SingleLinkedList<Type>` (single-linked-list.h)

The C++ class keeps a sentinel node `head_` inside the list object and a chain of
nodes created by `new`.  The embedding below makes the memory explicit:

* `NodePtr` is a `Node*`: null, the address of the sentinel `head_` of a list object,
  or the address of a node created by `new`;
* `Memory` holds the node cells (index = address, `none` = released by `delete`)
  and the list objects (index = address of the object);
* every member function is a function `Memory → Option ...`; `none` stands for
  undefined behaviour (a null or dangling pointer is dereferenced) or for a loop
  that never ends;
* `size_t` arithmetic is arithmetic modulo `2 ^ 64`;
* an exception thrown by the construction of a node is modelled by separate functions
  (`operatorAssignThrow`) that return the memory at the moment the exception leaves.
-/

namespace SLL

/-- A `Node*`. -/
inductive NodePtr where
  | null : NodePtr
  | head (l : Nat) : NodePtr
  | heap (a : Nat) : NodePtr
deriving DecidableEq, Repr

/-- The struct `Node`: a value and the link to the next node. -/
structure Node (α : Type) where
  value : α
  next_node : NodePtr
deriving DecidableEq, Repr

/-- The data members of a `SingleLinkedList` object: `head_.next_node` and `size_`.
The `value` member of the sentinel is never read or written by the class. -/
structure SingleLinkedList where
  head_next : NodePtr
  size_ : Nat
deriving DecidableEq, Repr

/-- The memory: node cells created by `new` and the list objects. -/
structure Memory (α : Type) where
  heap : List (Option (Node α))
  lists : List SingleLinkedList
deriving DecidableEq, Repr

/-- The class `BasicIterator`: its only data member is `node_`. -/
structure BasicIterator where
  node_ : NodePtr
deriving DecidableEq, Repr

/-- The modulus of `size_t`. -/
def SIZE_MOD : Nat := 2 ^ 64

/-- The operator `++` on a `size_t`. -/
def incSize (n : Nat) : Nat := (n + 1) % SIZE_MOD

/-- The operator `--` on a `size_t`. -/
def decSize (n : Nat) : Nat := (n + (SIZE_MOD - 1)) % SIZE_MOD

/-! ## Memory primitives -/

/-- Read of `p->next_node`. -/
def nextOf {α : Type} (m : Memory α) : NodePtr → Option NodePtr
  | .null => none
  | .head l => (m.lists[l]?).map (fun o => o.head_next)
  | .heap a => (m.heap[a]?).join.map (fun n => n.next_node)

/-- Read of `p->value`.  Reading the value of a sentinel is undefined. -/
def valueOf {α : Type} (m : Memory α) : NodePtr → Option α
  | .null => none
  | .head _ => none
  | .heap a => (m.heap[a]?).join.map (fun n => n.value)

/-- Write `p->next_node = q`. -/
def setNext {α : Type} (m : Memory α) (p q : NodePtr) : Option (Memory α) :=
  match p with
  | .null => none
  | .head l =>
    match m.lists[l]? with
    | some o => some { m with lists := m.lists.set l { o with head_next := q } }
    | none => none
  | .heap a =>
    match (m.heap[a]?).join with
    | some n => some { m with heap := m.heap.set a (some { n with next_node := q }) }
    | none => none

/-- Write of a value through an iterator: `p->value = v`. -/
def setValue {α : Type} (m : Memory α) (p : NodePtr) (v : α) : Option (Memory α) :=
  match p with
  | .null => none
  | .head _ => none
  | .heap a =>
    match (m.heap[a]?).join with
    | some n => some { m with heap := m.heap.set a (some { n with value := v }) }
    | none => none

/-- Read of the member `size_` of the list object at address `l`. -/
def getSize {α : Type} (m : Memory α) (l : Nat) : Option Nat :=
  (m.lists[l]?).map (fun o => o.size_)

/-- Write of the member `size_` of the list object at address `l`. -/
def setSize {α : Type} (m : Memory α) (l : Nat) (n : Nat) : Option (Memory α) :=
  match m.lists[l]? with
  | some o => some { m with lists := m.lists.set l { o with size_ := n } }
  | none => none

/-- The expression `new Node(v, q)`: a fresh cell, at an address never used before. -/
def newNode {α : Type} (m : Memory α) (v : α) (q : NodePtr) : NodePtr × Memory α :=
  (.heap m.heap.length, { m with heap := m.heap ++ [some ⟨v, q⟩] })

/-- The statement `delete p`: deleting null does nothing; deleting anything that is
not a live node created by `new` is undefined. -/
def deleteNode {α : Type} (m : Memory α) : NodePtr → Option (Memory α)
  | .null => some m
  | .head _ => none
  | .heap a =>
    match (m.heap[a]?).join with
    | some _ => some { m with heap := m.heap.set a none }
    | none => none

/-! ## Iterators -/

namespace BasicIterator

/-- The operator `++` (pre-increment): `node_ = node_->next_node`. -/
def inc {α : Type} (m : Memory α) (it : BasicIterator) : Option BasicIterator :=
  (nextOf m it.node_).map BasicIterator.mk

/-- The operator `*`: `node_->value`. -/
def deref {α : Type} (m : Memory α) (it : BasicIterator) : Option α :=
  valueOf m it.node_

/-- The operator `==` of iterators: both reference the same node. -/
def eq (a b : BasicIterator) : Bool := decide (a.node_ = b.node_)

/-- The operator `!=` of iterators. -/
def ne (a b : BasicIterator) : Bool := decide (a.node_ ≠ b.node_)

end BasicIterator

/-! ## Member functions of `SingleLinkedList`

The first arguments are the memory and `this`, the address of the list object. -/

namespace SingleLinkedList

/-- The default constructor `SingleLinkedList() = default`, in fresh storage:
`head_ = Node()` and `size_ = 0`.  Returns the address of the new object. -/
def construct {α : Type} (m : Memory α) : Nat × Memory α :=
  (m.lists.length, { m with lists := m.lists ++ [⟨.null, 0⟩] })

/-- The body shared by the three building loops of the source (lines 159-167,
174-182, 247-255): create a node holding `v`, link it after `last` (or after the
sentinel when the list is empty), count it.  Returns the new `last`. -/
def appendNode {α : Type} (m : Memory α) (this : Nat) (last : NodePtr) (v : α) :
    Option (NodePtr × Memory α) := do
  let (node, m1) := newNode m v .null
  let h ← nextOf m1 (.head this)
  let m2 ← if h = .null then setNext m1 (.head this) node else setNext m1 last node
  let s ← getSize m2 this
  let m3 ← setSize m2 this (incSize s)
  some (node, m3)

/-- The loop of the constructor from an initializer list. -/
def constructLoop {α : Type} (this : Nat) : List α → NodePtr → Memory α → Option (Memory α)
  | [], _, m => some m
  | v :: vs, last, m =>
    match appendNode m this last v with
    | some (last1, m1) => constructLoop this vs last1 m1
    | none => none

/-- The constructor `SingleLinkedList(std::initializer_list<Type> values)`. -/
def constructFrom {α : Type} (m : Memory α) (values : List α) : Option (Nat × Memory α) :=
  let (this, m0) := construct m
  (constructLoop this values .null m0).map (fun m1 => (this, m1))

/-- The loop of the copy constructor:
`for (Node* n = other.head_.next_node; n != nullptr; n = n->next_node)`. -/
def copyLoop {α : Type} (this : Nat) : Nat → NodePtr → NodePtr → Memory α → Option (Memory α)
  | 0, _, _, _ => none
  | fuel + 1, n, last, m =>
    if n = .null then some m
    else
      match valueOf m n with
      | none => none
      | some v =>
        match appendNode m this last v with
        | none => none
        | some (last1, m1) =>
          match nextOf m1 n with
          | none => none
          | some n1 => copyLoop this fuel n1 last1 m1

/-- The copy constructor `SingleLinkedList(const SingleLinkedList& other)`.  The loop
visits cells that exist on entry, each at most once, so it ends within
`heap.length + 1` tests of its condition or never. -/
def copyConstruct {α : Type} (m : Memory α) (other : Nat) : Option (Nat × Memory α) :=
  let (this, m0) := construct m
  match nextOf m0 (.head other) with
  | none => none
  | some n => (copyLoop this (m0.heap.length + 1) n .null m0).map (fun m1 => (this, m1))

/-- The member `before_begin()`: an iterator at the sentinel. -/
def before_begin (this : Nat) : BasicIterator := ⟨.head this⟩

/-- The member `begin()` (and `cbegin()`). -/
def begin {α : Type} (m : Memory α) (this : Nat) : Option BasicIterator :=
  match nextOf m (.head this) with
  | none => none
  | some h => if h ≠ .null then some ⟨h⟩ else some ⟨.null⟩

/-- The loop of `end()`: `while (temp != nullptr) temp = temp->next_node;`. -/
def endLoop {α : Type} (m : Memory α) : Nat → NodePtr → Option NodePtr
  | 0, _ => none
  | fuel + 1, temp =>
    if temp ≠ .null then
      match nextOf m temp with
      | none => none
      | some t => endLoop m fuel t
    else some temp

/-- The member `end()` (and `cend()`): walks the chain to its null link.  The walk
ends within `heap.length + 1` tests or never. -/
def end_ {α : Type} (m : Memory α) (this : Nat) : Option BasicIterator :=
  match nextOf m (.head this) with
  | none => none
  | some h =>
    if h ≠ .null then (endLoop m (m.heap.length + 1) h).map BasicIterator.mk
    else some ⟨.null⟩

/-- The member `GetSize()`. -/
def GetSize {α : Type} (m : Memory α) (this : Nat) : Option Nat :=
  getSize m this

/-- The member `IsEmpty()`: `!GetSize()`. -/
def IsEmpty {α : Type} (m : Memory α) (this : Nat) : Option Bool :=
  (GetSize m this).map (fun s => decide (s = 0))

/-- The member `PushFront(value)`. -/
def PushFront {α : Type} (m : Memory α) (this : Nat) (value : α) : Option (Memory α) := do
  let h ← nextOf m (.head this)
  let (node, m1) := newNode m value h
  let m2 ← setNext m1 (.head this) node
  let s ← getSize m2 this
  setSize m2 this (incSize s)

/-- The member `PopFront()`: a duplicate of the first node is created, the sentinel is
linked to the second node, the size is decremented and the duplicate is deleted. -/
def PopFront {α : Type} (m : Memory α) (this : Nat) : Option (Memory α) := do
  let h ← nextOf m (.head this)
  let v ← valueOf m h
  let (node, m1) := newNode m v h
  let h1 ← nextOf m1 (.head this)
  let n1 ← nextOf m1 h1
  let m2 ← setNext m1 (.head this) n1
  let s ← getSize m2 this
  let m3 ← setSize m2 this (decSize s)
  deleteNode m3 node

/-- The member `InsertAfter(pos, value)`. -/
def InsertAfter {α : Type} (m : Memory α) (this : Nat) (pos : BasicIterator) (value : α) :
    Option (BasicIterator × Memory α) := do
  let temp := pos
  let pos ← BasicIterator.inc m pos
  let (node, m1) := newNode m value pos.node_
  let m2 ← setNext m1 temp.node_ node
  let s ← getSize m2 this
  let m3 ← setSize m2 this (incSize s)
  some (⟨node⟩, m3)

/-- The member `EraseAfter(pos)`. -/
def EraseAfter {α : Type} (m : Memory α) (this : Nat) (pos : BasicIterator) :
    Option (BasicIterator × Memory α) := do
  let nx ← nextOf m pos.node_
  if nx = .null then some (⟨.null⟩, m)
  else
    let temp := nx
    let nn ← nextOf m nx
    let m1 ← setNext m pos.node_ nn
    let m2 ← deleteNode m1 temp
    let s ← getSize m2 this
    let m3 ← setSize m2 this (decSize s)
    let r ← nextOf m3 pos.node_
    some (⟨r⟩, m3)

/-- The loop of `Clear()`: `while (size_ != 0) { ... }`.  Every round decrements a
non-zero `size_`, so `size_` rounds are enough; the first argument counts them. -/
def clearLoop {α : Type} (this : Nat) : Nat → Memory α → Option (Memory α)
  | 0, m =>
    match getSize m this with
    | some s => if s ≠ 0 then none else some m
    | none => none
  | fuel + 1, m =>
    match getSize m this with
    | none => none
    | some s =>
      if s ≠ 0 then
        (do
          let p ← nextOf m (.head this)
          let n1 ← nextOf m p
          let m1 ← setNext m (.head this) n1
          let m2 ← deleteNode m1 p
          let s1 ← getSize m2 this
          let m3 ← setSize m2 this (decSize s1)
          clearLoop this fuel m3)
      else some m

/-- The member `Clear()`. -/
def Clear {α : Type} (m : Memory α) (this : Nat) : Option (Memory α) :=
  match getSize m this with
  | none => none
  | some s => clearLoop this s m

/-- The member `swap(other)`. -/
def swap {α : Type} (m : Memory α) (this other : Nat) : Option (Memory α) := do
  let size ← getSize m this
  let node ← nextOf m (.head this)
  let oh ← nextOf m (.head other)
  let m1 ← setNext m (.head this) oh
  let os ← getSize m1 other
  let m2 ← setSize m1 this os
  let m3 ← setNext m2 (.head other) node
  setSize m3 other size

/-- The loop of `operator=`: `for (auto i = rhs.begin(); i != rhs.end(); i++)`. -/
def assignLoop {α : Type} (this rhs : Nat) :
    Nat → BasicIterator → NodePtr → Memory α → Option (Memory α)
  | 0, _, _, _ => none
  | fuel + 1, i, last, m =>
    match end_ m rhs with
    | none => none
    | some e =>
      if BasicIterator.ne i e then
        match BasicIterator.deref m i with
        | none => none
        | some v =>
          match appendNode m this last v with
          | none => none
          | some (last1, m1) =>
            match BasicIterator.inc m1 i with
            | none => none
            | some i1 => assignLoop this rhs fuel i1 last1 m1
      else some m

/-- The copy assignment `operator=(rhs)`; `this` is the address of an existing list
object.  The local object `ths_copy` is built in fresh storage and destroyed (its
destructor calls `Clear`, then its storage is given back) at the end of the block. -/
def operatorAssign {α : Type} (m : Memory α) (this rhs : Nat) : Option (Memory α) :=
  match m.lists[this]? with
  | none => none
  | some _ =>
    if this ≠ rhs then do
      let (ths_copy, m1) ← copyConstruct m rhs
      let m2 ← Clear m1 this
      let b ← begin m2 rhs
      let m3 ← assignLoop this rhs (m2.heap.length + 1) b .null m2
      let m4 ← Clear m3 ths_copy
      some { m4 with lists := m4.lists.take ths_copy }
    else some m

end SingleLinkedList

/-! ## Free functions -/

/-- The non-member `swap(lhs, rhs)`: `lhs.swap(rhs)`. -/
def swap {α : Type} (m : Memory α) (lhs rhs : Nat) : Option (Memory α) :=
  SingleLinkedList.swap m lhs rhs

/-- The loop of `operator==`. -/
def eqLoop {α : Type} (ne : α → α → Bool) (m : Memory α) (it_l_end it_r_end : BasicIterator) :
    Nat → BasicIterator → BasicIterator → Option Bool
  | 0, _, _ => none
  | fuel + 1, it_l, it_r =>
    if BasicIterator.ne it_l it_l_end && BasicIterator.ne it_r it_r_end then
      match BasicIterator.deref m it_l, BasicIterator.deref m it_r with
      | some a, some b =>
        if ne a b then some false
        else
          match BasicIterator.inc m it_l, BasicIterator.inc m it_r with
          | some l1, some r1 => eqLoop ne m it_l_end it_r_end fuel l1 r1
          | _, _ => none
      | _, _ => none
    else some true

/-- The free `operator==(lhs, rhs)`; `ne` is `operator!=` of the element type. -/
def operatorEq {α : Type} (ne : α → α → Bool) (m : Memory α) (lhs rhs : Nat) : Option Bool := do
  let sl ← SingleLinkedList.GetSize m lhs
  let sr ← SingleLinkedList.GetSize m rhs
  if sl ≠ sr then some false
  else
    let it_l_begin ← SingleLinkedList.begin m lhs
    let it_r_begin ← SingleLinkedList.begin m rhs
    let it_l_end ← SingleLinkedList.end_ m lhs
    let it_r_end ← SingleLinkedList.end_ m rhs
    eqLoop ne m it_l_end it_r_end (m.heap.length + 1) it_l_begin it_r_begin

/-- The free `operator!=(lhs, rhs)`: `!(lhs == rhs)`. -/
def operatorNe {α : Type} (ne : α → α → Bool) (m : Memory α) (lhs rhs : Nat) : Option Bool :=
  (operatorEq ne m lhs rhs).map (fun b => !b)

/-- The loop of `operator<` together with the final `return`. -/
def ltLoop {α : Type} (lt : α → α → Bool) (m : Memory α) (it_l_end it_r_end : BasicIterator) :
    Nat → BasicIterator → BasicIterator → Option Bool
  | 0, _, _ => none
  | fuel + 1, it_l, it_r =>
    if BasicIterator.ne it_l it_l_end && BasicIterator.ne it_r it_r_end then
      match BasicIterator.deref m it_l, BasicIterator.deref m it_r with
      | some a, some b =>
        if lt a b then some true
        else if lt b a then some false
        else
          match BasicIterator.inc m it_l, BasicIterator.inc m it_r with
          | some l1, some r1 => ltLoop lt m it_l_end it_r_end fuel l1 r1
          | _, _ => none
      | _, _ => none
    else some (BasicIterator.eq it_l it_l_end && BasicIterator.ne it_r it_r_end)

/-- The free `operator<(lhs, rhs)`; `lt` is `operator<` of the element type. -/
def operatorLt {α : Type} (lt : α → α → Bool) (m : Memory α) (lhs rhs : Nat) : Option Bool := do
  let it_l_begin ← SingleLinkedList.begin m lhs
  let it_r_begin ← SingleLinkedList.begin m rhs
  let it_l_end ← SingleLinkedList.end_ m lhs
  let it_r_end ← SingleLinkedList.end_ m rhs
  ltLoop lt m it_l_end it_r_end (m.heap.length + 1) it_l_begin it_r_begin

/-- The free `operator<=(lhs, rhs)`: true when `lhs == rhs`, else true when `lhs < rhs`,
else false. -/
def operatorLe {α : Type} (ne lt : α → α → Bool) (m : Memory α) (lhs rhs : Nat) :
    Option Bool :=
  match operatorEq ne m lhs rhs with
  | none => none
  | some true => some true
  | some false =>
    match operatorLt lt m lhs rhs with
    | none => none
    | some true => some true
    | some false => some false

/-- The free `operator>(lhs, rhs)`: `rhs < lhs`. -/
def operatorGt {α : Type} (lt : α → α → Bool) (m : Memory α) (lhs rhs : Nat) : Option Bool :=
  operatorLt lt m rhs lhs

/-- The free `operator>=(lhs, rhs)`: true when `lhs == rhs`, else true when `rhs < lhs`,
else false. -/
def operatorGe {α : Type} (ne lt : α → α → Bool) (m : Memory α) (lhs rhs : Nat) :
    Option Bool :=
  match operatorEq ne m lhs rhs with
  | none => none
  | some true => some true
  | some false =>
    match operatorLt lt m rhs lhs with
    | none => none
    | some true => some true
    | some false => some false

/-! ## Exceptions thrown by the construction of a node

`new Node(value, nullptr)` is the first statement of the body of the building loops, so
when it throws in round `k` the memory is the one left by the rounds before. -/

/-- The loop of the copy constructor when the construction of the node of round `k` throws:
the memory at the throw (`none` when the loop ends before round `k`). -/
def copyLoopThrow {α : Type} (this : Nat) :
    Nat → Nat → NodePtr → NodePtr → Memory α → Option (Memory α)
  | 0, _, _, _, _ => none
  | fuel + 1, k, n, last, m =>
    if n = .null then none
    else
      match valueOf m n with
      | none => none
      | some v =>
        match k with
        | 0 => some m
        | k1 + 1 =>
          match SingleLinkedList.appendNode m this last v with
          | none => none
          | some (last1, m1) =>
            match nextOf m1 n with
            | none => none
            | some n1 => copyLoopThrow this fuel k1 n1 last1 m1

/-- The loop of `operator=` when the construction of the node of round `k` throws: the
memory at the throw (`none` when the loop ends before round `k`). -/
def assignLoopThrow {α : Type} (this rhs : Nat) :
    Nat → Nat → BasicIterator → NodePtr → Memory α → Option (Memory α)
  | 0, _, _, _, _ => none
  | fuel + 1, k, i, last, m =>
    match SingleLinkedList.end_ m rhs with
    | none => none
    | some e =>
      if BasicIterator.ne i e then
        match BasicIterator.deref m i with
        | none => none
        | some v =>
          match k with
          | 0 => some m
          | k1 + 1 =>
            match SingleLinkedList.appendNode m this last v with
            | none => none
            | some (last1, m1) =>
              match BasicIterator.inc m1 i with
              | none => none
              | some i1 => assignLoopThrow this rhs fuel k1 i1 last1 m1
      else none

/-- The place where the construction of a node throws during `operator=`: in round `k` of
the copy constructor that builds `ths_copy`, or in round `k` of the loop of `operator=`. -/
inductive FailurePoint where
  | inCopy (k : Nat) : FailurePoint
  | inLoop (k : Nat) : FailurePoint
deriving DecidableEq, Repr

/-- The memory when the exception leaves `operator=(rhs)`.  A throw inside the copy
constructor leaves `ths_copy` unfinished: its storage is given back and its destructor does
not run.  A throw inside the loop of `operator=` unwinds through the destructor of
`ths_copy`. -/
def operatorAssignThrow {α : Type} (m : Memory α) (this rhs : Nat) :
    FailurePoint → Option (Memory α)
  | .inCopy k =>
    match m.lists[this]? with
    | none => none
    | some _ =>
      if this ≠ rhs then
        let (ths_copy, m0) := SingleLinkedList.construct m
        match nextOf m0 (.head rhs) with
        | none => none
        | some n =>
          (copyLoopThrow ths_copy (m0.heap.length + 1) k n .null m0).map
            (fun m1 => { m1 with lists := m1.lists.take ths_copy })
      else none
  | .inLoop k =>
    match m.lists[this]? with
    | none => none
    | some _ =>
      if this ≠ rhs then do
        let (ths_copy, m1) ← SingleLinkedList.copyConstruct m rhs
        let m2 ← SingleLinkedList.Clear m1 this
        let b ← SingleLinkedList.begin m2 rhs
        let m3 ← assignLoopThrow this rhs (m2.heap.length + 1) k b .null m2
        let m4 ← SingleLinkedList.Clear m3 ths_copy
        some { m4 with lists := m4.lists.take ths_copy }
      else none

/-- A client loop over the list:
`for (auto it = l.begin(); it != l.end(); ++it) out.push_back(*it);`. -/
def traverseLoop {α : Type} (m : Memory α) (e : BasicIterator) :
    Nat → BasicIterator → Option (List α)
  | 0, _ => none
  | fuel + 1, it =>
    if BasicIterator.ne it e then
      match BasicIterator.deref m it with
      | none => none
      | some v =>
        match BasicIterator.inc m it with
        | none => none
        | some it1 => (traverseLoop m e fuel it1).map (fun vs => v :: vs)
    else some []

/-- The elements met from `begin()` by repeated `*` and `++` until `end()`. -/
def traverse {α : Type} (m : Memory α) (l : Nat) : Option (List α) :=
  match SingleLinkedList.begin m l, SingleLinkedList.end_ m l with
  | some b, some e => traverseLoop m e (m.heap.length + 1) b
  | _, _ => none

/-- The memory before any object exists. -/
def Memory.empty (α : Type) : Memory α := ⟨[], []⟩

/-- A memory with one list object, built from `{1, 2, 3}`. -/
def mem123 : Memory Int :=
  { heap := [some ⟨1, .heap 1⟩, some ⟨2, .heap 2⟩, some ⟨3, .null⟩],
    lists := [⟨.heap 0, 3⟩] }

/-- The memory after constructing a list from `{10, 20, 30}` in the empty memory. -/
def memA : Memory Int :=
  { heap := [some ⟨10, .heap 1⟩, some ⟨20, .heap 2⟩, some ⟨30, .null⟩],
    lists := [⟨.heap 0, 3⟩] }

/-- The memory `memA` after `InsertAfter` of 25 at the iterator at 20. -/
def memB : Memory Int :=
  { heap := [some ⟨10, .heap 1⟩, some ⟨20, .heap 3⟩, some ⟨30, .null⟩, some ⟨25, .heap 2⟩],
    lists := [⟨.heap 0, 4⟩] }

/-- The memory `memB` after `EraseAfter` at the iterator at 10. -/
def memC : Memory Int :=
  { heap := [some ⟨10, .heap 3⟩, none, some ⟨30, .null⟩, some ⟨25, .heap 2⟩],
    lists := [⟨.heap 0, 3⟩] }

/-- The memory `mem123` after `PopFront()`. -/
def memPopped : Memory Int :=
  { heap := [some ⟨1, .heap 1⟩, some ⟨2, .heap 2⟩, some ⟨3, .null⟩, none],
    lists := [⟨.heap 1, 2⟩] }

/-- The memory `mem123` after `EraseAfter(before_begin())`. -/
def memErased : Memory Int :=
  { heap := [none, some ⟨2, .heap 2⟩, some ⟨3, .null⟩],
    lists := [⟨.heap 1, 2⟩] }

/-- The memory `mem123` after `Clear()`. -/
def memCleared : Memory Int :=
  { heap := [none, none, none],
    lists := [⟨.null, 0⟩] }

/-- A memory with two list objects, built from `{1, 2}` and `{2, 1}`. -/
def memSwapped : Memory Int :=
  { heap := [some ⟨1, .heap 1⟩, some ⟨2, .null⟩, some ⟨2, .heap 3⟩, some ⟨1, .null⟩],
    lists := [⟨.heap 0, 2⟩, ⟨.heap 2, 2⟩] }

/-- The memory after constructing a list from `{1, 2}` in the empty memory. -/
def memOne : Memory Int :=
  { heap := [some ⟨1, .heap 1⟩, some ⟨2, .null⟩],
    lists := [⟨.heap 0, 2⟩] }

/-- A memory with two list objects, built from `{1, 2}` and `{1, 2, 3}`. -/
def memTwo : Memory Int :=
  { heap := [some ⟨1, .heap 1⟩, some ⟨2, .null⟩,
             some ⟨1, .heap 3⟩, some ⟨2, .heap 4⟩, some ⟨3, .null⟩],
    lists := [⟨.heap 0, 2⟩, ⟨.heap 2, 3⟩] }

/-- The outcome of the loop of `operator==` on two element sequences: false at the first
pair that satisfies the element `!=`, true when either sequence is exhausted. -/
def pairsAgree {α : Type} (ne : α → α → Bool) : List α → List α → Bool
  | x :: xs, y :: ys => if ne x y then false else pairsAgree ne xs ys
  | _, _ => true

/-- Standard lexicographic comparison of two sequences under the element `<`, as the
specification words it (the algorithm of `std::lexicographical_compare`). -/
def lexicographicalCompare {α : Type} (lt : α → α → Bool) : List α → List α → Bool
  | _, [] => false
  | [], _ :: _ => true
  | x :: xs, y :: ys =>
    if lt x y then true
    else if lt y x then false
    else lexicographicalCompare lt xs ys

/-- The specification of `<` in words: at the first index where the elements are not
equivalent the element of the left sequence is smaller, or the left sequence is a proper
prefix of the right one (up to equivalence of elements). -/
def LexLess {α : Type} (lt : α → α → Bool) (xs ys : List α) : Prop :=
  (∃ i x y, xs[i]? = some x ∧ ys[i]? = some y ∧ lt x y = true ∧
    ∀ (j : Nat), j < i → ∀ (u w : α), xs[j]? = some u → ys[j]? = some w →
      lt u w = false ∧ lt w u = false) ∨
  (xs.length < ys.length ∧
    ∀ (j : Nat) (u w : α), xs[j]? = some u → ys[j]? = some w →
      lt u w = false ∧ lt w u = false)

/-- The memory after constructing a list from `xs` and then a list from `ys`, starting
from the empty memory. -/
def twoLists {α : Type} (xs ys : List α) : Option (Memory α) :=
  match SingleLinkedList.constructFrom (Memory.empty α) xs with
  | none => none
  | some (_, m1) => (SingleLinkedList.constructFrom m1 ys).map Prod.snd

/-- The operator `!=` of `int`. -/
def intNe (a b : Int) : Bool := decide (a ≠ b)

/-- The operator `<` of `int`. -/
def intLt (a b : Int) : Bool := decide (a < b)

/-- The operator `!=` of an element type that has a value different from itself, as the
NaN of `double` is: `none` stands for that value, `some x` for an ordinary value. -/
def nanNe (a b : Option Int) : Bool :=
  match a, b with
  | some x, some y => decide (x ≠ y)
  | _, _ => true

/-- The memory after constructing a list from the one element `none` in the empty memory. -/
def memNaN : Memory (Option Int) :=
  { heap := [some ⟨none, .null⟩],
    lists := [⟨.heap 0, 1⟩] }

/-- The memory `memNaN` after copy-constructing a second list from its list. -/
def memNaNCopy : Memory (Option Int) :=
  { heap := [some ⟨none, .null⟩, some ⟨none, .null⟩],
    lists := [⟨.heap 0, 1⟩, ⟨.heap 1, 1⟩] }

/-- The memory `memTwo` after copy-constructing a third list from the list `{1, 2, 3}`. -/
def memCopy : Memory Int :=
  { heap := [some ⟨1, .heap 1⟩, some ⟨2, .null⟩,
             some ⟨1, .heap 3⟩, some ⟨2, .heap 4⟩, some ⟨3, .null⟩,
             some ⟨1, .heap 6⟩, some ⟨2, .heap 7⟩, some ⟨3, .null⟩],
    lists := [⟨.heap 0, 2⟩, ⟨.heap 2, 3⟩, ⟨.heap 5, 3⟩] }

/-- The memory `memCopy` after writing 9 through `begin()` of the copy. -/
def memCopyWritten : Memory Int :=
  { heap := [some ⟨1, .heap 1⟩, some ⟨2, .null⟩,
             some ⟨1, .heap 3⟩, some ⟨2, .heap 4⟩, some ⟨3, .null⟩,
             some ⟨9, .heap 6⟩, some ⟨2, .heap 7⟩, some ⟨3, .null⟩],
    lists := [⟨.heap 0, 2⟩, ⟨.heap 2, 3⟩, ⟨.heap 5, 3⟩] }

/-- The memory `memCopyWritten` after `Clear()` of the copy. -/
def memCopyCleared : Memory Int :=
  { heap := [some ⟨1, .heap 1⟩, some ⟨2, .null⟩,
             some ⟨1, .heap 3⟩, some ⟨2, .heap 4⟩, some ⟨3, .null⟩,
             none, none, none],
    lists := [⟨.heap 0, 2⟩, ⟨.heap 2, 3⟩, ⟨.null, 0⟩] }

/-- The memory when the exception leaves `operator=` on `memTwo` (the list `{1, 2}` is
assigned the list `{1, 2, 3}`) and the construction of the second node in the loop of
`operator=` throws. -/
def memThrown : Memory Int :=
  { heap := [none, none,
             some ⟨1, .heap 3⟩, some ⟨2, .heap 4⟩, some ⟨3, .null⟩,
             none, none, none,
             some ⟨1, .null⟩],
    lists := [⟨.heap 8, 1⟩, ⟨.heap 2, 3⟩] }

/-! ## Chains of nodes -/

/-- The cells `cs` (address and value, in order) lead from the pointer `p` to the
pointer `q` through the links `next_node` of the heap `h`. -/
def IsSeg {α : Type} (h : List (Option (Node α))) : NodePtr → List (Nat × α) → NodePtr → Prop
  | p, [], q => p = q
  | p, c :: cs, q => p = .heap c.1 ∧ ∃ r, h[c.1]? = some (some ⟨c.2, r⟩) ∧ IsSeg h r cs q

/-- The addresses of a sequence of cells. -/
def addrs {α : Type} (cs : List (Nat × α)) : List Nat := cs.map Prod.fst

/-- The values of a sequence of cells. -/
def vals {α : Type} (cs : List (Nat × α)) : List α := cs.map Prod.snd

/-- The list object at `l` exists and its chain of cells is `cs`, ending with null. -/
def Chain {α : Type} (m : Memory α) (l : Nat) (cs : List (Nat × α)) : Prop :=
  ∃ o, m.lists[l]? = some o ∧ IsSeg m.heap o.head_next cs .null

/-- The pointer `last` of the building loops references the last cell of `cs`, when
there is one. -/
def LastOf {α : Type} (cs : List (Nat × α)) (last : NodePtr) : Prop :=
  ∀ pre c, cs = pre ++ [c] → last = .heap c.1

/-- The loop that counts the nodes reachable from a pointer by `next_node` links. -/
def countFrom {α : Type} (m : Memory α) : Nat → NodePtr → Option Nat
  | 0, _ => none
  | fuel + 1, p =>
    if p = .null then some 0
    else
      match nextOf m p with
      | none => none
      | some q => (countFrom m fuel q).map (fun n => n + 1)

/-- The number of nodes reachable from the next link of the sentinel of the list `l`. -/
def reachableNodes {α : Type} (m : Memory α) (l : Nat) : Option Nat :=
  match nextOf m (.head l) with
  | none => none
  | some p => countFrom m (m.heap.length + 1) p

/-- The addresses of the live nodes: created by `new` and not yet deleted. -/
def liveNodes {α : Type} (m : Memory α) : List Nat :=
  (List.range m.heap.length).filter (fun a => ((m.heap[a]?).join).isSome)

/-- The loop that collects the addresses of the nodes reachable from a pointer. -/
def reachFrom {α : Type} (m : Memory α) : Nat → NodePtr → Option (List Nat)
  | 0, _ => none
  | fuel + 1, p =>
    match p with
    | .null => some []
    | .head _ => none
    | .heap a =>
      match nextOf m p with
      | none => none
      | some q => (reachFrom m fuel q).map (fun rest => a :: rest)

/-- The addresses of the nodes reachable from the sentinel of the list `l`. -/
def reachableAddrs {α : Type} (m : Memory α) (l : Nat) : Option (List Nat) :=
  match nextOf m (.head l) with
  | none => none
  | some p => reachFrom m (m.heap.length + 1) p

/-- The iterator reached from `it` by `k` increments. -/
def advance {α : Type} (m : Memory α) : Nat → BasicIterator → Option BasicIterator
  | 0, it => some it
  | k + 1, it =>
    match BasicIterator.inc m it with
    | none => none
    | some it1 => advance m k it1

/-- A valid position of the list `l` other than its end: `before_begin()` advanced a
number of times, not null. -/
def ValidPos {α : Type} (m : Memory α) (l : Nat) (pos : BasicIterator) : Prop :=
  pos.node_ ≠ .null ∧ ∃ k, advance m k (SingleLinkedList.before_begin l) = some pos

/-- The node addresses handed out so far fit in 64 bits. -/
def Fits {α : Type} (m : Memory α) : Prop := m.heap.length < SIZE_MOD

/-- The memories reachable from the constructors through the mutating member functions.
A step that lengthens a list is taken only when the addresses still fit in 64 bits. -/
inductive Reachable {α : Type} : Memory α → Prop where
  | empty : Reachable (Memory.empty α)
  | construct {m : Memory α} : Reachable m → Reachable (SingleLinkedList.construct m).2
  | constructFrom {m m1 : Memory α} {values : List α} {l : Nat} :
      Reachable m → SingleLinkedList.constructFrom m values = some (l, m1) → Fits m1 →
      Reachable m1
  | copyConstruct {m m1 : Memory α} {other l : Nat} :
      Reachable m → SingleLinkedList.copyConstruct m other = some (l, m1) → Reachable m1
  | pushFront {m m1 : Memory α} {l : Nat} {v : α} :
      Reachable m → SingleLinkedList.PushFront m l v = some m1 → Fits m1 → Reachable m1
  | popFront {m m1 : Memory α} {l : Nat} :
      Reachable m → SingleLinkedList.PopFront m l = some m1 → Reachable m1
  | insertAfter {m m1 : Memory α} {l : Nat} {pos it : BasicIterator} {v : α} :
      Reachable m → ValidPos m l pos →
      SingleLinkedList.InsertAfter m l pos v = some (it, m1) → Fits m1 → Reachable m1
  | eraseAfter {m m1 : Memory α} {l : Nat} {pos it : BasicIterator} :
      Reachable m → ValidPos m l pos →
      SingleLinkedList.EraseAfter m l pos = some (it, m1) → Reachable m1
  | clear {m m1 : Memory α} {l : Nat} :
      Reachable m → SingleLinkedList.Clear m l = some m1 → Reachable m1
  | assign {m m1 : Memory α} {l rhs : Nat} :
      Reachable m → SingleLinkedList.operatorAssign m l rhs = some m1 → Reachable m1
  | swap {m m1 : Memory α} {a b : Nat} :
      Reachable m → SingleLinkedList.swap m a b = some m1 → Reachable m1

/-- Every list object owns a chain that ends with null, its `size_` is the length of the
chain, and the chains of different list objects share no cell. -/
def WF {α : Type} (m : Memory α) (own : Nat → List (Nat × α)) : Prop :=
  (∀ l o, m.lists[l]? = some o →
    IsSeg m.heap o.head_next (own l) .null ∧ o.size_ = (own l).length ∧
      (own l).length < SIZE_MOD) ∧
  (∀ l k, l < m.lists.length → k < m.lists.length → l ≠ k →
    ∀ a, a ∈ addrs (own l) → a ∉ addrs (own k))

/-- The memory is well formed: the ownership invariant holds for some assignment of
chains to the list objects. -/
def WellFormed {α : Type} (m : Memory α) : Prop := ∃ own, WF m own

/-- One mutating operation applied to the list `c`: `PushFront`, `PopFront`, `InsertAfter`
or `EraseAfter` at a valid position of `c`, `Clear`, or a write `*pos = v` through an
iterator of `c`.  As in `Reachable`, a step that lengthens the list is taken only when the
addresses still fit in 64 bits. -/
inductive Mutates {α : Type} (c : Nat) : Memory α → Memory α → Prop where
  | pushFront {m m1 : Memory α} {v : α} :
      SingleLinkedList.PushFront m c v = some m1 → Fits m1 → Mutates c m m1
  | popFront {m m1 : Memory α} :
      SingleLinkedList.PopFront m c = some m1 → Mutates c m m1
  | insertAfter {m m1 : Memory α} {pos it : BasicIterator} {v : α} :
      ValidPos m c pos → SingleLinkedList.InsertAfter m c pos v = some (it, m1) → Fits m1 →
      Mutates c m m1
  | eraseAfter {m m1 : Memory α} {pos it : BasicIterator} :
      ValidPos m c pos → SingleLinkedList.EraseAfter m c pos = some (it, m1) → Mutates c m m1
  | clear {m m1 : Memory α} :
      SingleLinkedList.Clear m c = some m1 → Mutates c m m1
  | write {m m1 : Memory α} {pos : BasicIterator} {v : α} :
      ValidPos m c pos → setValue m pos.node_ v = some m1 → Mutates c m m1

/-- A sequence of mutating operations applied to the list `c`. -/
inductive MutatesSeq {α : Type} (c : Nat) : Memory α → Memory α → Prop where
  | done {m : Memory α} : MutatesSeq c m m
  | step {m m1 m2 : Memory α} : Mutates c m m1 → MutatesSeq c m1 m2 → MutatesSeq c m m2

/-! ## Lemmas on chains -/

section ChainLemmas

variable {α : Type}

@[simp] theorem addrs_nil : addrs ([] : List (Nat × α)) = [] := rfl

@[simp] theorem addrs_cons (c : Nat × α) (cs : List (Nat × α)) :
    addrs (c :: cs) = c.1 :: addrs cs := rfl

@[simp] theorem vals_nil : vals ([] : List (Nat × α)) = [] := rfl

@[simp] theorem vals_cons (c : Nat × α) (cs : List (Nat × α)) :
    vals (c :: cs) = c.2 :: vals cs := rfl

@[simp] theorem addrs_append (cs ds : List (Nat × α)) :
    addrs (cs ++ ds) = addrs cs ++ addrs ds := by
  simp [addrs]

@[simp] theorem vals_append (cs ds : List (Nat × α)) :
    vals (cs ++ ds) = vals cs ++ vals ds := by
  simp [vals]

@[simp] theorem addrs_length (cs : List (Nat × α)) : (addrs cs).length = cs.length := by
  simp [addrs]

@[simp] theorem vals_length (cs : List (Nat × α)) : (vals cs).length = cs.length := by
  simp [vals]

theorem isSeg_append {h : List (Option (Node α))} {cs ds : List (Nat × α)} {p q : NodePtr} :
    IsSeg h p (cs ++ ds) q ↔ ∃ r, IsSeg h p cs r ∧ IsSeg h r ds q := by
  induction cs generalizing p with
  | nil => simp [IsSeg]
  | cons c cs ih =>
    rw [List.cons_append]
    simp only [IsSeg]
    constructor
    · rintro ⟨hp, r, hr, h0⟩
      obtain ⟨t, h1, h2⟩ := ih.1 h0
      exact ⟨t, ⟨hp, r, hr, h1⟩, h2⟩
    · rintro ⟨t, ⟨hp, r, hr, h1⟩, h2⟩
      exact ⟨hp, r, hr, ih.2 ⟨t, h1, h2⟩⟩

/-- A chain that reaches null is determined by its first pointer. -/
theorem isSeg_null_unique {h : List (Option (Node α))} {cs ds : List (Nat × α)} {p : NodePtr}
    (h1 : IsSeg h p cs .null) (h2 : IsSeg h p ds .null) : cs = ds := by
  induction cs generalizing p ds with
  | nil =>
    cases ds with
    | nil => rfl
    | cons d ds =>
      simp only [IsSeg] at h1 h2
      rw [h1] at h2
      exact absurd h2.1 (by simp)
  | cons c cs ih =>
    cases ds with
    | nil =>
      simp only [IsSeg] at h1 h2
      rw [h2] at h1
      exact absurd h1.1 (by simp)
    | cons d ds =>
      simp only [IsSeg] at h1 h2
      obtain ⟨hp1, r1, hr1, hs1⟩ := h1
      obtain ⟨hp2, r2, hr2, hs2⟩ := h2
      rw [hp1] at hp2
      have hcd : c.1 = d.1 := by injection hp2
      rw [hcd] at hr1
      rw [hr1] at hr2
      have hn : (⟨c.2, r1⟩ : Node α) = ⟨d.2, r2⟩ := by
        injection hr2 with hr2
        injection hr2
      injection hn with hv hr
      subst hr
      have := ih hs1 hs2
      subst this
      have : c = d := Prod.ext hcd hv
      rw [this]

theorem isSeg_addr_lt {h : List (Option (Node α))} {cs : List (Nat × α)} {p q : NodePtr}
    (h1 : IsSeg h p cs q) : ∀ a ∈ addrs cs, a < h.length := by
  induction cs generalizing p with
  | nil => simp
  | cons c cs ih =>
    simp only [IsSeg] at h1
    obtain ⟨_, r, hr, hs⟩ := h1
    intro a ha
    simp only [addrs_cons, List.mem_cons] at ha
    rcases ha with rfl | ha
    · by_contra hlt
      have : h[c.1]? = none := List.getElem?_eq_none (by omega)
      rw [this] at hr
      exact absurd hr (by simp)
    · exact ih hs a ha

/-- A chain that reaches null visits no cell twice. -/
theorem isSeg_null_nodup {h : List (Option (Node α))} {cs : List (Nat × α)} {p : NodePtr}
    (h1 : IsSeg h p cs .null) : (addrs cs).Nodup := by
  induction cs generalizing p with
  | nil => simp
  | cons c cs ih =>
    have h1c := h1
    simp only [IsSeg] at h1
    obtain ⟨hp, r, hr, hs⟩ := h1
    simp only [addrs_cons, List.nodup_cons]
    refine ⟨?_, ih hs⟩
    intro hmem
    simp only [addrs, List.mem_map] at hmem
    obtain ⟨d, hd, hdc⟩ := hmem
    obtain ⟨pre, post, hsplit⟩ := List.append_of_mem hd
    rw [hsplit] at hs
    obtain ⟨t, _, ht⟩ := isSeg_append.1 hs
    have ht2 := ht
    simp only [IsSeg] at ht2
    have htp : t = .heap c.1 := by rw [ht2.1, hdc]
    rw [htp, ← hp] at ht
    have := isSeg_null_unique h1c ht
    have hlen := congrArg List.length this
    rw [hsplit] at hlen
    simp at hlen
    omega

theorem nodup_length_le {l : List Nat} {n : Nat} (hnd : l.Nodup) (hlt : ∀ a ∈ l, a < n) :
    l.length ≤ n := by
  have h1 : l.toFinset ⊆ Finset.range n := by
    intro a ha
    simp only [List.mem_toFinset] at ha
    simpa using hlt a ha
  have h2 := Finset.card_le_card h1
  rw [List.toFinset_card_of_nodup hnd, Finset.card_range] at h2
  exact h2

/-- A chain that reaches null has at most as many cells as the heap. -/
theorem isSeg_null_length_le {h : List (Option (Node α))} {cs : List (Nat × α)} {p : NodePtr}
    (h1 : IsSeg h p cs .null) : cs.length ≤ h.length := by
  have := nodup_length_le (isSeg_null_nodup h1) (isSeg_addr_lt h1)
  simpa using this

theorem option_map_some {β γ : Type} {f : β → γ} {x : Option β} {c : γ}
    (h : x.map f = some c) : ∃ b, x = some b ∧ f b = c := by
  cases x with
  | none => simp at h
  | some b => exact ⟨b, rfl, by simpa using h⟩

theorem nextOf_heap {m : Memory α} {a : Nat} {n : Node α} (h : m.heap[a]? = some (some n)) :
    nextOf m (.heap a) = some n.next_node := by
  simp [nextOf, h]

theorem valueOf_heap {m : Memory α} {a : Nat} {n : Node α} (h : m.heap[a]? = some (some n)) :
    valueOf m (.heap a) = some n.value := by
  simp [valueOf, h]

theorem nextOf_head {m : Memory α} {l : Nat} {o : SingleLinkedList} (h : m.lists[l]? = some o) :
    nextOf m (.head l) = some o.head_next := by
  simp [nextOf, h]

theorem nextOf_head_eq_some {m : Memory α} {l : Nat} {p : NodePtr}
    (h : nextOf m (.head l) = some p) : ∃ o, m.lists[l]? = some o ∧ o.head_next = p := by
  simp only [nextOf] at h
  exact option_map_some h

theorem valueOf_eq_some {m : Memory α} {p : NodePtr} {v : α}
    (h : valueOf m p = some v) : ∃ a q, p = .heap a ∧ m.heap[a]? = some (some ⟨v, q⟩) := by
  cases p with
  | null => simp [valueOf] at h
  | head l => simp [valueOf] at h
  | heap a =>
    simp only [valueOf] at h
    obtain ⟨n, hn, hp⟩ := option_map_some h
    refine ⟨a, n.next_node, rfl, ?_⟩
    rw [Option.join_eq_some] at hn
    rw [hn, ← hp]

/-- The loop of `end()` can only stop at null. -/
theorem endLoop_eq_some {m : Memory α} {fuel : Nat} {p q : NodePtr}
    (h : SingleLinkedList.endLoop m fuel p = some q) : q = .null := by
  induction fuel generalizing p with
  | zero => simp [SingleLinkedList.endLoop] at h
  | succ fuel ih =>
    simp only [SingleLinkedList.endLoop] at h
    split at h
    · split at h
      · exact absurd h (by simp)
      · exact ih h
    · rename_i hp
      simp only [ne_eq, not_not] at hp
      injection h with h
      rw [← h, hp]

theorem endLoop_of_isSeg {m : Memory α} {cs : List (Nat × α)} {p : NodePtr} {fuel : Nat}
    (h : IsSeg m.heap p cs .null) (hf : cs.length < fuel) :
    SingleLinkedList.endLoop m fuel p = some .null := by
  induction cs generalizing p fuel with
  | nil =>
    simp only [IsSeg] at h
    cases fuel with
    | zero => simp at hf
    | succ fuel => simp [SingleLinkedList.endLoop, h]
  | cons c cs ih =>
    simp only [IsSeg] at h
    obtain ⟨hp, r, hr, hs⟩ := h
    cases fuel with
    | zero => simp at hf
    | succ fuel =>
      simp only [List.length_cons, Nat.add_lt_add_iff_right] at hf
      simp [SingleLinkedList.endLoop, hp, nextOf_heap hr, ih hs hf]

theorem end_of_chain {m : Memory α} {l : Nat} {cs : List (Nat × α)} (h : Chain m l cs) :
    SingleLinkedList.end_ m l = some ⟨.null⟩ := by
  obtain ⟨o, ho, hs⟩ := h
  simp only [SingleLinkedList.end_, nextOf_head ho]
  split
  · rw [endLoop_of_isSeg hs (Nat.lt_succ_of_le (isSeg_null_length_le hs))]
    rfl
  · rfl

theorem end_eq_some {m : Memory α} {l : Nat} {e : BasicIterator}
    (h : SingleLinkedList.end_ m l = some e) : e = ⟨.null⟩ := by
  simp only [SingleLinkedList.end_] at h
  split at h
  · exact absurd h (by simp)
  · split at h
    · obtain ⟨q, hq, he⟩ := option_map_some h
      rw [← he, endLoop_eq_some hq]
    · injection h with h
      exact h.symm

theorem begin_of_chain {m : Memory α} {l : Nat} {o : SingleLinkedList}
    (ho : m.lists[l]? = some o) : SingleLinkedList.begin m l = some ⟨o.head_next⟩ := by
  simp only [SingleLinkedList.begin, nextOf_head ho]
  split
  · rfl
  · rename_i hp
    simp only [ne_eq, not_not] at hp
    rw [hp]

theorem begin_eq_some {m : Memory α} {l : Nat} {b : BasicIterator}
    (h : SingleLinkedList.begin m l = some b) :
    ∃ o, m.lists[l]? = some o ∧ b = ⟨o.head_next⟩ := by
  simp only [SingleLinkedList.begin] at h
  split at h
  · exact absurd h (by simp)
  · rename_i p hp
    obtain ⟨o, ho, hop⟩ := nextOf_head_eq_some hp
    refine ⟨o, ho, ?_⟩
    subst hop
    split at h <;> rename_i hq
    · injection h with h; exact h.symm
    · simp only [ne_eq, not_not] at hq
      injection h with h
      rw [← h, hq]

theorem traverseLoop_of_isSeg {m : Memory α} {cs : List (Nat × α)} {p : NodePtr} {fuel : Nat}
    (h : IsSeg m.heap p cs .null) (hf : cs.length < fuel) :
    traverseLoop m ⟨.null⟩ fuel ⟨p⟩ = some (vals cs) := by
  induction cs generalizing p fuel with
  | nil =>
    simp only [IsSeg] at h
    cases fuel with
    | zero => simp at hf
    | succ fuel => simp [traverseLoop, BasicIterator.ne, h]
  | cons c cs ih =>
    simp only [IsSeg] at h
    obtain ⟨hp, r, hr, hs⟩ := h
    cases fuel with
    | zero => simp at hf
    | succ fuel =>
      simp only [List.length_cons, Nat.add_lt_add_iff_right] at hf
      simp [traverseLoop, BasicIterator.ne, BasicIterator.deref, BasicIterator.inc, hp,
        nextOf_heap hr, valueOf_heap hr, ih hs hf]

theorem traverseLoop_some {m : Memory α} {xs : List α} {p : NodePtr} {fuel : Nat}
    (h : traverseLoop m ⟨.null⟩ fuel ⟨p⟩ = some xs) :
    ∃ cs, IsSeg m.heap p cs .null ∧ vals cs = xs := by
  induction fuel generalizing p xs with
  | zero => simp [traverseLoop] at h
  | succ fuel ih =>
    simp only [traverseLoop, BasicIterator.ne, BasicIterator.deref, BasicIterator.inc] at h
    split at h
    · split at h
      · exact absurd h (by simp)
      · rename_i v hv
        obtain ⟨a, q, hpa, hcell⟩ := valueOf_eq_some hv
        subst hpa
        rw [nextOf_heap hcell] at h
        obtain ⟨ys, hys, hxs⟩ := option_map_some h
        obtain ⟨cs, hcs, hvals⟩ := ih hys
        refine ⟨(a, v) :: cs, ?_, ?_⟩
        · exact ⟨rfl, q, hcell, hcs⟩
        · simp [hvals, hxs]
    · rename_i hp
      simp only [ne_eq, decide_not, Bool.not_eq_true', decide_eq_false_iff_not, not_not] at hp
      injection h with h
      exact ⟨[], hp, by simp [h]⟩

/-- Traversing a list yields `xs` exactly when its chain of cells holds `xs`. -/
theorem traverse_eq_some_iff {m : Memory α} {l : Nat} {xs : List α} :
    traverse m l = some xs ↔ ∃ cs, Chain m l cs ∧ vals cs = xs := by
  constructor
  · intro h
    simp only [traverse] at h
    split at h
    · rename_i b e hb he
      obtain ⟨o, ho, hbo⟩ := begin_eq_some hb
      have hee := end_eq_some he
      subst hbo hee
      obtain ⟨cs, hcs, hv⟩ := traverseLoop_some h
      exact ⟨cs, ⟨o, ho, hcs⟩, hv⟩
    · exact absurd h (by simp)
  · rintro ⟨cs, hc, hv⟩
    have he := end_of_chain hc
    obtain ⟨o, ho, hs⟩ := hc
    simp only [traverse, begin_of_chain ho, he]
    rw [traverseLoop_of_isSeg hs (Nat.lt_succ_of_le (isSeg_null_length_le hs)), hv]

theorem isSeg_congr {h k : List (Option (Node α))} {cs : List (Nat × α)} {p q : NodePtr}
    (hk : ∀ a ∈ addrs cs, k[a]? = h[a]?) (hs : IsSeg h p cs q) : IsSeg k p cs q := by
  induction cs generalizing p with
  | nil => exact hs
  | cons c cs ih =>
    simp only [IsSeg] at hs ⊢
    obtain ⟨hp, r, hr, hs⟩ := hs
    refine ⟨hp, r, ?_, ih (fun a ha => hk a (by simp [ha])) hs⟩
    rw [hk c.1 (by simp), hr]

theorem isSeg_append_heap {h : List (Option (Node α))} {cs : List (Nat × α)} {p q : NodePtr}
    (x : List (Option (Node α))) (hs : IsSeg h p cs q) : IsSeg (h ++ x) p cs q := by
  refine isSeg_congr (fun a ha => ?_) hs
  exact List.getElem?_append_left (isSeg_addr_lt hs a ha)

theorem isSeg_set {h : List (Option (Node α))} {cs : List (Nat × α)} {p q : NodePtr}
    {a : Nat} (x : Option (Node α)) (ha : a ∉ addrs cs) (hs : IsSeg h p cs q) :
    IsSeg (h.set a x) p cs q := by
  refine isSeg_congr (fun b hb => ?_) hs
  have : a ≠ b := fun e => ha (e ▸ hb)
  simp [List.getElem?_set, this]

theorem isSeg_cons_iff {h : List (Option (Node α))} {c : Nat × α} {cs : List (Nat × α)}
    {p q : NodePtr} :
    IsSeg h p (c :: cs) q ↔ p = .heap c.1 ∧ ∃ r, h[c.1]? = some (some ⟨c.2, r⟩) ∧ IsSeg h r cs q :=
  Iff.rfl

theorem isSeg_null_start {h : List (Option (Node α))} {cs : List (Nat × α)}
    (hs : IsSeg h .null cs .null) : cs = [] := by
  cases cs with
  | nil => rfl
  | cons c cs => exact absurd hs.1 (by simp)

end ChainLemmas

/-! ## The member functions, step by step -/

section Operations

variable {α : Type}

open SingleLinkedList

theorem lists_set_get {ls : List SingleLinkedList} {l : Nat} {o x : SingleLinkedList}
    (ho : ls[l]? = some o) : (ls.set l x)[l]? = some x := by
  have hl : l < ls.length := by
    by_contra hn
    rw [List.getElem?_eq_none (by omega)] at ho
    exact absurd ho (by simp)
  simp [List.getElem?_set, hl]

theorem PushFront_eq {m : Memory α} {this : Nat} {o : SingleLinkedList} (v : α)
    (ho : m.lists[this]? = some o) :
    PushFront m this v = some
      { heap := m.heap ++ [some (Node.mk v o.head_next)],
        lists := m.lists.set this ⟨.heap m.heap.length, incSize o.size_⟩ } := by
  simp [PushFront, nextOf, newNode, setNext, getSize, setSize, ho, lists_set_get ho]

theorem PopFront_eq {m : Memory α} {this : Nat} {o : SingleLinkedList} {a : Nat} {v : α}
    {q : NodePtr} (ho : m.lists[this]? = some o) (hh : o.head_next = .heap a)
    (ha : m.heap[a]? = some (some ⟨v, q⟩)) :
    PopFront m this = some
      { heap := (m.heap ++ [some (Node.mk v (.heap a))]).set m.heap.length none,
        lists := m.lists.set this ⟨q, decSize o.size_⟩ } := by
  have hlt : a < m.heap.length := by
    by_contra hn
    rw [List.getElem?_eq_none (by omega)] at ha
    exact absurd ha (by simp)
  simp [PopFront, nextOf, valueOf, newNode, setNext, getSize, setSize, deleteNode, ho, hh, ha,
    lists_set_get ho, List.getElem?_append_left hlt]

theorem SIZE_MOD_eq : SIZE_MOD = 18446744073709551616 := by
  norm_num [SIZE_MOD]

theorem incSize_of_lt {n : Nat} (h : n + 1 < SIZE_MOD) : incSize n = n + 1 := by
  simp only [incSize]
  exact Nat.mod_eq_of_lt h

theorem decSize_succ {n : Nat} (h : n + 1 < SIZE_MOD) : decSize (n + 1) = n := by
  simp only [decSize, SIZE_MOD_eq] at *
  omega

theorem decSize_incSize {n : Nat} (h : n < SIZE_MOD) : decSize (incSize n) = n := by
  simp only [decSize, incSize, SIZE_MOD_eq] at *
  omega

theorem lists_get_lt {ls : List SingleLinkedList} {l : Nat} {o : SingleLinkedList}
    (ho : ls[l]? = some o) : l < ls.length := by
  by_contra hn
  rw [List.getElem?_eq_none (by omega)] at ho
  exact absurd ho (by simp)

theorem heap_get_lt {h : List (Option (Node α))} {a : Nat} {x : Option (Node α)}
    (ha : h[a]? = some x) : a < h.length := by
  by_contra hn
  rw [List.getElem?_eq_none (by omega)] at ha
  exact absurd ha (by simp)

theorem getSize_eq {m : Memory α} {l : Nat} {o : SingleLinkedList} (ho : m.lists[l]? = some o) :
    getSize m l = some o.size_ := by
  simp [getSize, ho]

theorem getSize_eq_some {m : Memory α} {l n : Nat} (h : getSize m l = some n) :
    ∃ o, m.lists[l]? = some o ∧ o.size_ = n :=
  option_map_some h

theorem InsertAfter_head_eq {m : Memory α} {this : Nat} {o : SingleLinkedList} (v : α)
    (ho : m.lists[this]? = some o) :
    InsertAfter m this (before_begin this) v = some
      (⟨.heap m.heap.length⟩,
       { heap := m.heap ++ [some (Node.mk v o.head_next)],
         lists := m.lists.set this ⟨.heap m.heap.length, incSize o.size_⟩ }) := by
  simp [InsertAfter, before_begin, BasicIterator.inc, nextOf, newNode, setNext, getSize,
    setSize, ho, lists_set_get ho]

theorem InsertAfter_head_none {m : Memory α} {this : Nat} (v : α)
    (ho : m.lists[this]? = none) :
    InsertAfter m this (before_begin this) v = none := by
  simp [InsertAfter, before_begin, BasicIterator.inc, nextOf, ho]

theorem PushFront_none {m : Memory α} {this : Nat} (v : α)
    (ho : m.lists[this]? = none) : PushFront m this v = none := by
  simp [PushFront, nextOf, ho]

theorem chain_congr {m k : Memory α} {l : Nat} {o : SingleLinkedList} {cs : List (Nat × α)}
    {p : NodePtr} (hs : IsSeg m.heap p cs .null) (hl : k.lists[l]? = some o)
    (hp : o.head_next = p) (hk : ∀ a ∈ addrs cs, k.heap[a]? = m.heap[a]?) :
    Chain k l cs :=
  ⟨o, hl, hp ▸ isSeg_congr hk hs⟩

theorem traverse_of_chain {m : Memory α} {l : Nat} {cs : List (Nat × α)} (h : Chain m l cs) :
    traverse m l = some (vals cs) :=
  traverse_eq_some_iff.2 ⟨cs, h, rfl⟩

theorem getElem?_append_set_left {h : List (Option (Node α))} {x y : Option (Node α)} {a : Nat}
    (ha : a < h.length) : ((h ++ [x]).set h.length y)[a]? = h[a]? := by
  have : h.length ≠ a := by omega
  simp [List.getElem?_set, this, List.getElem?_append_left ha]

theorem EraseAfter_head_eq {m : Memory α} {this : Nat} {o : SingleLinkedList} {a : Nat} {v : α}
    {q : NodePtr} (ho : m.lists[this]? = some o) (hh : o.head_next = .heap a)
    (ha : m.heap[a]? = some (some ⟨v, q⟩)) :
    EraseAfter m this (before_begin this) = some
      (⟨q⟩,
       { heap := m.heap.set a none,
         lists := m.lists.set this ⟨q, decSize o.size_⟩ }) := by
  simp [EraseAfter, before_begin, nextOf, setNext, getSize, setSize, deleteNode, ho, hh, ha,
    lists_set_get ho]

theorem decSize_of_pos {n : Nat} (h0 : 0 < n) (h : n < SIZE_MOD) : decSize n = n - 1 := by
  simp only [decSize, SIZE_MOD_eq] at *
  omega

theorem lists_set_self {ls : List SingleLinkedList} {l : Nat} {o : SingleLinkedList}
    (ho : ls[l]? = some o) : ls.set l o = ls := by
  apply List.ext_getElem?
  intro i
  by_cases hi : l = i
  · subst hi
    rw [lists_set_get ho, ho]
  · simp [List.getElem?_set, hi]

theorem clearLoop_zero_eq {m : Memory α} {this : Nat} {o : SingleLinkedList}
    (ho : m.lists[this]? = some o) (hz : o.size_ = 0) (fuel : Nat) :
    clearLoop this fuel m = some m := by
  cases fuel <;> simp [clearLoop, getSize, ho, hz]

theorem clearLoop_succ_eq {m : Memory α} {this : Nat} {o : SingleLinkedList} {a : Nat} {v : α}
    {q : NodePtr} (fuel : Nat) (ho : m.lists[this]? = some o) (hz : o.size_ ≠ 0)
    (hh : o.head_next = .heap a) (ha : m.heap[a]? = some (some ⟨v, q⟩)) :
    clearLoop this (fuel + 1) m =
      clearLoop this fuel
        { heap := m.heap.set a none, lists := m.lists.set this ⟨q, decSize o.size_⟩ } := by
  simp [clearLoop, nextOf, setNext, getSize, setSize, deleteNode, ho, hh, ha, hz,
    lists_set_get ho]

/-- The loop of `Clear()` on a list whose size equals the length of its chain: it ends,
the list object becomes empty, the cells of the chain are released and nothing else
changes. -/
theorem clearLoop_spec {cs : List (Nat × α)} {m : Memory α} {this : Nat}
    {o : SingleLinkedList} (ho : m.lists[this]? = some o)
    (hs : IsSeg m.heap o.head_next cs .null) (hsz : o.size_ = cs.length)
    (hlt : cs.length < SIZE_MOD) :
    ∃ m1, clearLoop this cs.length m = some m1 ∧
      m1.lists = m.lists.set this ⟨.null, 0⟩ ∧
      m1.heap.length = m.heap.length ∧
      (∀ a, a ∉ addrs cs → m1.heap[a]? = m.heap[a]?) ∧
      (∀ a ∈ addrs cs, m1.heap[a]? = some none) := by
  induction cs generalizing m o with
  | nil =>
    refine ⟨m, clearLoop_zero_eq ho hsz 0, ?_, rfl, fun _ _ => rfl, by simp⟩
    have : o = ⟨.null, 0⟩ := by
      cases o
      simp only [IsSeg, List.length_nil] at hs hsz
      simp [hs, hsz]
    rw [← this, lists_set_self ho]
  | cons c ds ih =>
    have hnd := isSeg_null_nodup hs
    obtain ⟨hp, r, hr, hds⟩ := hs
    simp only [addrs_cons, List.nodup_cons] at hnd
    simp only [List.length_cons] at hsz hlt ⊢
    have hz : o.size_ ≠ 0 := by omega
    rw [clearLoop_succ_eq ds.length ho hz hp hr]
    have hdec : decSize o.size_ = ds.length := by
      rw [hsz]
      exact decSize_succ hlt
    obtain ⟨m1, h1, h2, h3, h4, h5⟩ :=
      ih (m := ⟨m.heap.set c.1 none, m.lists.set this ⟨r, decSize o.size_⟩⟩)
        (o := ⟨r, decSize o.size_⟩) (lists_set_get ho) (isSeg_set none hnd.1 hds) hdec
        (by omega)
    refine ⟨m1, h1, ?_, ?_, ?_, ?_⟩
    · rw [h2]
      simp
    · rw [h3]
      simp
    · intro a ha
      simp only [addrs_cons, List.mem_cons, not_or] at ha
      rw [h4 a ha.2]
      have : c.1 ≠ a := fun e => ha.1 e.symm
      simp [List.getElem?_set, this]
    · intro a ha
      simp only [addrs_cons, List.mem_cons] at ha
      by_cases hmem : a ∈ addrs ds
      · exact h5 a hmem
      · have hac : a = c.1 := by
          rcases ha with h | h
          · exact h
          · exact absurd h hmem
        rw [h4 a hmem, hac]
        have := heap_get_lt hr
        simp [List.getElem?_set, this]

theorem Clear_spec {cs : List (Nat × α)} {m : Memory α} {this : Nat}
    {o : SingleLinkedList} (ho : m.lists[this]? = some o)
    (hs : IsSeg m.heap o.head_next cs .null) (hsz : o.size_ = cs.length)
    (hlt : cs.length < SIZE_MOD) :
    ∃ m1, Clear m this = some m1 ∧
      m1.lists = m.lists.set this ⟨.null, 0⟩ ∧
      m1.heap.length = m.heap.length ∧
      (∀ a, a ∉ addrs cs → m1.heap[a]? = m.heap[a]?) ∧
      (∀ a ∈ addrs cs, m1.heap[a]? = some none) := by
  simp only [Clear, getSize_eq ho, hsz]
  exact clearLoop_spec ho hs hsz hlt

theorem swap_eq {m : Memory α} {a b : Nat} {oa ob : SingleLinkedList}
    (ha : m.lists[a]? = some oa) (hb : m.lists[b]? = some ob) :
    SingleLinkedList.swap m a b = some { m with lists := (m.lists.set a ob).set b oa } := by
  have hla := lists_get_lt ha
  have hlb := lists_get_lt hb
  cases oa with
  | mk ha1 ha2 =>
  cases ob with
  | mk hb1 hb2 =>
  by_cases hab : a = b
  · subst hab
    rw [ha] at hb
    injection hb with hb
    injection hb with e1 e2
    subst e1 e2
    simp [SingleLinkedList.swap, nextOf, setNext, getSize, setSize, ha, hla,
      List.getElem?_set]
  · have hba : ¬ b = a := fun e => hab e.symm
    have hb3 : m.lists[b] = ⟨hb1, hb2⟩ := by
      rw [List.getElem?_eq_getElem hlb] at hb
      injection hb
    simp [SingleLinkedList.swap, nextOf, setNext, getSize, setSize, ha, hb, hla, hlb,
      List.getElem?_set, hab, hba, hb3]

theorem swap_lists_left {ls : List SingleLinkedList} {a b : Nat} {oa ob : SingleLinkedList}
    (ha : ls[a]? = some oa) (hb : ls[b]? = some ob) : ((ls.set a ob).set b oa)[a]? = some ob := by
  have hla := lists_get_lt ha
  by_cases hab : a = b
  · subst hab
    rw [ha] at hb
    injection hb with hb
    subst hb
    simp [List.getElem?_set, hla]
  · have hba : ¬ b = a := fun e => hab e.symm
    simp [List.getElem?_set, hla, hba]

theorem swap_lists_right {ls : List SingleLinkedList} {a b : Nat} {oa ob : SingleLinkedList}
    (hb : ls[b]? = some ob) : ((ls.set a ob).set b oa)[b]? = some oa := by
  have hlb := lists_get_lt hb
  simp [List.getElem?_set, hlb]

theorem swap_lists_twice {ls : List SingleLinkedList} {a b : Nat} {oa ob : SingleLinkedList}
    (ha : ls[a]? = some oa) (hb : ls[b]? = some ob) :
    (((ls.set a ob).set b oa).set a oa).set b ob = ls := by
  apply List.ext_getElem?
  intro i
  have hla := lists_get_lt ha
  have hlb := lists_get_lt hb
  by_cases hbi : b = i
  · subst hbi
    simp [List.getElem?_set, hlb, hb]
  · by_cases hai : a = i
    · subst hai
      simp [List.getElem?_set, hla, ha, hbi]
    · simp [List.getElem?_set, hbi, hai]

theorem eqLoop_of_isSeg (ne : α → α → Bool) {m : Memory α} {cs ds : List (Nat × α)}
    {p q : NodePtr} {fuel : Nat} (hc : IsSeg m.heap p cs .null) (hd : IsSeg m.heap q ds .null)
    (hf : cs.length < fuel) :
    eqLoop ne m ⟨.null⟩ ⟨.null⟩ fuel ⟨p⟩ ⟨q⟩ = some (pairsAgree ne (vals cs) (vals ds)) := by
  induction cs generalizing p q ds fuel with
  | nil =>
    simp only [IsSeg] at hc
    cases fuel with
    | zero => simp at hf
    | succ fuel => simp [eqLoop, BasicIterator.ne, hc, pairsAgree]
  | cons c cs ih =>
    obtain ⟨hp, r, hr, hs⟩ := hc
    cases fuel with
    | zero => simp at hf
    | succ fuel =>
      simp only [List.length_cons, Nat.add_lt_add_iff_right] at hf
      cases ds with
      | nil =>
        simp only [IsSeg] at hd
        simp [eqLoop, BasicIterator.ne, hp, hd, pairsAgree]
      | cons d ds =>
        obtain ⟨hq, t, ht, hs2⟩ := hd
        by_cases hne : ne c.2 d.2 = true
        · simp [eqLoop, BasicIterator.ne, BasicIterator.deref, hp, hq, valueOf_heap hr,
            valueOf_heap ht, pairsAgree, hne]
        · simp [eqLoop, BasicIterator.ne, BasicIterator.deref, BasicIterator.inc, hp, hq,
            valueOf_heap hr, valueOf_heap ht, nextOf_heap hr, nextOf_heap ht, pairsAgree, hne,
            ih hs hs2 hf, vals]

theorem ltLoop_of_isSeg (lt : α → α → Bool) {m : Memory α} {cs ds : List (Nat × α)}
    {p q : NodePtr} {fuel : Nat} (hc : IsSeg m.heap p cs .null) (hd : IsSeg m.heap q ds .null)
    (hf : cs.length < fuel) :
    ltLoop lt m ⟨.null⟩ ⟨.null⟩ fuel ⟨p⟩ ⟨q⟩ =
      some (lexicographicalCompare lt (vals cs) (vals ds)) := by
  induction cs generalizing p q ds fuel with
  | nil =>
    simp only [IsSeg] at hc
    cases fuel with
    | zero => simp at hf
    | succ fuel =>
      cases ds with
      | nil =>
        simp only [IsSeg] at hd
        simp [ltLoop, BasicIterator.ne, BasicIterator.eq, hc, hd, lexicographicalCompare]
      | cons d ds =>
        obtain ⟨hq, t, ht, hs2⟩ := hd
        simp [ltLoop, BasicIterator.ne, BasicIterator.eq, hc, hq, lexicographicalCompare]
  | cons c cs ih =>
    obtain ⟨hp, r, hr, hs⟩ := hc
    cases fuel with
    | zero => simp at hf
    | succ fuel =>
      simp only [List.length_cons, Nat.add_lt_add_iff_right] at hf
      cases ds with
      | nil =>
        simp only [IsSeg] at hd
        simp [ltLoop, BasicIterator.ne, BasicIterator.eq, hp, hd, lexicographicalCompare]
      | cons d ds =>
        obtain ⟨hq, t, ht, hs2⟩ := hd
        by_cases h1 : lt c.2 d.2 = true
        · simp [ltLoop, BasicIterator.ne, BasicIterator.deref, hp, hq, valueOf_heap hr,
            valueOf_heap ht, lexicographicalCompare, h1]
        · by_cases h2 : lt d.2 c.2 = true
          · simp [ltLoop, BasicIterator.ne, BasicIterator.deref, hp, hq, valueOf_heap hr,
              valueOf_heap ht, lexicographicalCompare, h1, h2]
          · simp [ltLoop, BasicIterator.ne, BasicIterator.deref, BasicIterator.inc, hp, hq,
              valueOf_heap hr, valueOf_heap ht, nextOf_heap hr, nextOf_heap ht,
              lexicographicalCompare, h1, h2, ih hs hs2 hf, vals]

theorem pairsAgree_iff (ne : α → α → Bool) (xs ys : List α) :
    pairsAgree ne xs ys = true ↔
      ∀ (i : Nat) (x y : α), xs[i]? = some x → ys[i]? = some y → ne x y = false := by
  induction xs generalizing ys with
  | nil => simp [pairsAgree]
  | cons x xs ih =>
    cases ys with
    | nil => simp [pairsAgree]
    | cons y ys =>
      simp only [pairsAgree]
      constructor
      · intro h i u w hu hw
        by_cases hne : ne x y = true
        · simp [hne] at h
        · simp only [hne, Bool.false_eq_true, if_false] at h
          cases i with
          | zero =>
            simp only [List.getElem?_cons_zero, Option.some.injEq] at hu hw
            subst hu hw
            simpa using hne
          | succ i =>
            simp only [List.getElem?_cons_succ] at hu hw
            exact (ih ys).1 h i u w hu hw
      · intro h
        have h0 := h 0 x y (by simp) (by simp)
        simp only [h0, Bool.false_eq_true, if_false]
        exact (ih ys).2 (fun i u w hu hw => h (i + 1) u w (by simpa using hu) (by simpa using hw))

theorem lexLess_cons_iff (lt : α → α → Bool) (x y : α) (xs ys : List α) :
    LexLess lt (x :: xs) (y :: ys) ↔
      lt x y = true ∨ (lt x y = false ∧ lt y x = false ∧ LexLess lt xs ys) := by
  constructor
  · rintro (⟨i, u, w, hu, hw, huw, hall⟩ | ⟨hlen, hall⟩)
    · cases i with
      | zero =>
        simp only [List.getElem?_cons_zero, Option.some.injEq] at hu hw
        subst hu hw
        exact Or.inl huw
      | succ i =>
        have h0 := hall 0 (Nat.succ_pos i) x y (by simp) (by simp)
        refine Or.inr ⟨h0.1, h0.2, Or.inl ⟨i, u, w, by simpa using hu, by simpa using hw, huw, ?_⟩⟩
        intro j hj a b ha hb
        exact hall (j + 1) (Nat.succ_lt_succ hj) a b (by simpa using ha) (by simpa using hb)
    · have h0 := hall 0 x y (by simp) (by simp)
      refine Or.inr ⟨h0.1, h0.2, Or.inr ⟨by simpa using hlen, ?_⟩⟩
      intro j a b ha hb
      exact hall (j + 1) a b (by simpa using ha) (by simpa using hb)
  · rintro (h | ⟨h1, h2, (⟨i, u, w, hu, hw, huw, hall⟩ | ⟨hlen, hall⟩)⟩)
    · exact Or.inl ⟨0, x, y, by simp, by simp, h, fun j hj => absurd hj (Nat.not_lt_zero j)⟩
    · refine Or.inl ⟨i + 1, u, w, by simpa using hu, by simpa using hw, huw, ?_⟩
      intro j hj a b ha hb
      cases j with
      | zero =>
        simp only [List.getElem?_cons_zero, Option.some.injEq] at ha hb
        subst ha hb
        exact ⟨h1, h2⟩
      | succ j =>
        exact hall j (Nat.lt_of_succ_lt_succ hj) a b (by simpa using ha) (by simpa using hb)
    · refine Or.inr ⟨by simpa using hlen, ?_⟩
      intro j a b ha hb
      cases j with
      | zero =>
        simp only [List.getElem?_cons_zero, Option.some.injEq] at ha hb
        subst ha hb
        exact ⟨h1, h2⟩
      | succ j =>
        exact hall j a b (by simpa using ha) (by simpa using hb)

/-- The standard algorithm decides the specification of `<` in words. -/
theorem lexicographicalCompare_iff (lt : α → α → Bool) (xs ys : List α) :
    lexicographicalCompare lt xs ys = true ↔ LexLess lt xs ys := by
  induction xs generalizing ys with
  | nil =>
    cases ys with
    | nil => simp [lexicographicalCompare, LexLess]
    | cons y ys => simp [lexicographicalCompare, LexLess]
  | cons x xs ih =>
    cases ys with
    | nil => simp [lexicographicalCompare, LexLess]
    | cons y ys =>
      rw [lexLess_cons_iff, ← ih ys]
      simp only [lexicographicalCompare]
      by_cases h1 : lt x y = true
      · simp [h1]
      · by_cases h2 : lt y x = true
        · simp [h1, h2]
        · simp [h1, h2]

theorem operatorEq_of_chain (ne : α → α → Bool) {m : Memory α} {a b : Nat}
    {oa ob : SingleLinkedList} {cs ds : List (Nat × α)}
    (hoa : m.lists[a]? = some oa) (hob : m.lists[b]? = some ob)
    (hsa : IsSeg m.heap oa.head_next cs .null) (hsb : IsSeg m.heap ob.head_next ds .null) :
    operatorEq ne m a b =
      some (if oa.size_ ≠ ob.size_ then false else pairsAgree ne (vals cs) (vals ds)) := by
  have hf : cs.length < m.heap.length + 1 := Nat.lt_succ_of_le (isSeg_null_length_le hsa)
  have ea := end_of_chain ⟨oa, hoa, hsa⟩
  have eb := end_of_chain ⟨ob, hob, hsb⟩
  by_cases hsz : oa.size_ = ob.size_
  · simp [operatorEq, GetSize, getSize_eq hoa, getSize_eq hob, hsz, begin_of_chain hoa,
      begin_of_chain hob, ea, eb, eqLoop_of_isSeg ne hsa hsb hf]
  · simp [operatorEq, GetSize, getSize_eq hoa, getSize_eq hob, hsz]

theorem operatorLt_of_chain (lt : α → α → Bool) {m : Memory α} {a b : Nat}
    {cs ds : List (Nat × α)} (ha : Chain m a cs) (hb : Chain m b ds) :
    operatorLt lt m a b = some (lexicographicalCompare lt (vals cs) (vals ds)) := by
  have ea := end_of_chain ha
  have eb := end_of_chain hb
  obtain ⟨oa, hoa, hsa⟩ := ha
  obtain ⟨ob, hob, hsb⟩ := hb
  have hf : cs.length < m.heap.length + 1 := Nat.lt_succ_of_le (isSeg_null_length_le hsa)
  simp [operatorLt, begin_of_chain hoa, begin_of_chain hob, ea, eb,
    ltLoop_of_isSeg lt hsa hsb hf]

theorem appendNode_empty_eq {m : Memory α} {this : Nat} {o : SingleLinkedList} (last : NodePtr)
    (v : α) (ho : m.lists[this]? = some o) (hh : o.head_next = .null) :
    appendNode m this last v = some
      (.heap m.heap.length,
       { heap := m.heap ++ [some (Node.mk v .null)],
         lists := m.lists.set this ⟨.heap m.heap.length, incSize o.size_⟩ }) := by
  simp [appendNode, nextOf, newNode, setNext, getSize, setSize, ho, hh, lists_set_get ho]

theorem appendNode_last_eq {m : Memory α} {this : Nat} {o : SingleLinkedList} {a : Nat}
    {w : α} {q : NodePtr} (v : α) (ho : m.lists[this]? = some o) (hh : o.head_next ≠ .null)
    (ha : m.heap[a]? = some (some ⟨w, q⟩)) :
    appendNode m this (.heap a) v = some
      (.heap m.heap.length,
       { heap := (m.heap ++ [some (Node.mk v .null)]).set a (some ⟨w, .heap m.heap.length⟩),
         lists := m.lists.set this ⟨o.head_next, incSize o.size_⟩ }) := by
  have hlt := heap_get_lt ha
  simp [appendNode, nextOf, newNode, setNext, getSize, setSize, ho, hh, lists_set_get ho,
    List.getElem?_append_left hlt, ha]

/-- One round of a building loop: the new cell is linked at the end of the chain. -/
theorem appendNode_spec {m : Memory α} {this : Nat} {o : SingleLinkedList}
    {cs : List (Nat × α)} {last : NodePtr} (v : α) (ho : m.lists[this]? = some o)
    (hs : IsSeg m.heap o.head_next cs .null) (hl : LastOf cs last) :
    ∃ m1 p, appendNode m this last v = some (.heap m.heap.length, m1) ∧
      m1.lists = m.lists.set this ⟨p, incSize o.size_⟩ ∧
      IsSeg m1.heap p (cs ++ [(m.heap.length, v)]) .null ∧
      m1.heap.length = m.heap.length + 1 ∧
      (∀ a, a < m.heap.length → a ∉ addrs cs → m1.heap[a]? = m.heap[a]?) := by
  rcases List.eq_nil_or_concat cs with hnil | ⟨pre, c, hcs⟩
  · subst hnil
    simp only [IsSeg] at hs
    refine ⟨_, _, appendNode_empty_eq last v ho hs, rfl, ?_, by simp, ?_⟩
    · simp [IsSeg]
    · intro a ha _
      exact List.getElem?_append_left ha
  · rw [List.concat_eq_append] at hcs
    have hlast := hl pre c hcs
    subst hcs
    have hnd := isSeg_null_nodup hs
    have hlt := isSeg_addr_lt hs
    obtain ⟨t, hpre, hc⟩ := isSeg_append.1 hs
    obtain ⟨ht, r, hr, hnull⟩ := hc
    simp only [IsSeg] at hnull
    subst hnull ht hlast
    have hne : o.head_next ≠ .null := by
      intro h0
      rw [h0] at hs
      have := isSeg_null_start hs
      simp at this
    have hclt := heap_get_lt hr
    refine ⟨_, _, appendNode_last_eq v ho hne hr, rfl, ?_, by simp, ?_⟩
    · rw [List.append_assoc]
      refine isSeg_append.2 ⟨.heap c.1, ?_, ?_⟩
      · refine isSeg_congr (fun a ha => ?_) hpre
        have h1 : a < m.heap.length := hlt a (by simp [ha])
        have h2 : c.1 ≠ a := by
          intro e
          simp only [addrs_append, addrs_cons, addrs_nil, List.nodup_append,
            List.disjoint_singleton] at hnd
          exact hnd.2.2 (e ▸ ha)
        simp [List.getElem?_set, h2, List.getElem?_append_left h1]
      · refine ⟨rfl, .heap m.heap.length, ?_, rfl, .null, ?_, rfl⟩
        · have e : c.1 < (m.heap ++ [some (Node.mk v .null)]).length := by
            simp only [List.length_append, List.length_singleton]
            omega
          rw [List.getElem?_set]
          simp only [if_true, e]
        · have h2 : c.1 ≠ m.heap.length := by omega
          simp [List.getElem?_set, h2]
    · intro a ha hmem
      have h2 : c.1 ≠ a := by
        intro e
        exact hmem (by simp [e])
      simp [List.getElem?_set, h2, List.getElem?_append_left ha]

theorem lastOf_nil (last : NodePtr) : LastOf ([] : List (Nat × α)) last := by
  intro pre c h
  simp at h

theorem lastOf_append_singleton (cs : List (Nat × α)) (c : Nat × α) :
    LastOf (cs ++ [c]) (.heap c.1) := by
  intro pre d h
  have := List.append_inj_right' h rfl
  simp only [List.cons.injEq, and_true] at this
  rw [this]

/-- The loop of the constructor from an initializer list: the values are appended, in
order, in fresh cells at the end of the chain. -/
theorem constructLoop_spec (vs : List α) {m : Memory α} {this : Nat} {o : SingleLinkedList}
    {cs : List (Nat × α)} {last : NodePtr} (ho : m.lists[this]? = some o)
    (hs : IsSeg m.heap o.head_next cs .null) (hl : LastOf cs last)
    (hsz : o.size_ + vs.length < SIZE_MOD) :
    ∃ m1 p ds, constructLoop this vs last m = some m1 ∧
      m1.lists = m.lists.set this ⟨p, o.size_ + vs.length⟩ ∧
      IsSeg m1.heap p (cs ++ ds) .null ∧ vals ds = vs ∧
      (∀ a ∈ addrs ds, m.heap.length ≤ a) ∧
      m1.heap.length = m.heap.length + vs.length ∧
      (∀ a, a < m.heap.length → a ∉ addrs cs → m1.heap[a]? = m.heap[a]?) := by
  induction vs generalizing m o cs last with
  | nil =>
    refine ⟨m, o.head_next, [], rfl, ?_, by simpa using hs, rfl, by simp, rfl,
      fun _ _ _ => rfl⟩
    have : (⟨o.head_next, o.size_ + ([] : List α).length⟩ : SingleLinkedList) = o := by
      cases o
      simp
    rw [this, lists_set_self ho]
  | cons v vs ih =>
    simp only [List.length_cons] at hsz
    obtain ⟨m1, p1, h1, hl1, hs1, hlen1, hfr1⟩ := appendNode_spec v ho hs hl
    have hinc : incSize o.size_ = o.size_ + 1 := incSize_of_lt (by omega)
    rw [hinc] at hl1
    have ho1 : m1.lists[this]? = some ⟨p1, o.size_ + 1⟩ := by
      rw [hl1]
      exact lists_set_get ho
    obtain ⟨m2, p2, ds, h2, hl2, hs2, hv2, hge2, hlen2, hfr2⟩ :=
      ih ho1 hs1 (lastOf_append_singleton cs (m.heap.length, v)) (by simp only; omega)
    refine ⟨m2, p2, (m.heap.length, v) :: ds, ?_, ?_, ?_, ?_, ?_, ?_, ?_⟩
    · simp only [constructLoop, h1, h2]
    · rw [hl2, hl1]
      simp only [List.set_set, List.length_cons]
      congr 2
      omega
    · simpa using hs2
    · simp [hv2]
    · intro a ha
      simp only [addrs_cons, List.mem_cons] at ha
      rcases ha with rfl | ha
      · exact Nat.le_refl _
      · have := hge2 a ha
        omega
    · rw [hlen2, hlen1, List.length_cons]
      omega
    · intro a ha hmem
      rw [hfr2 a (by omega) ?_, hfr1 a ha hmem]
      simp only [addrs_append, addrs_cons, addrs_nil, List.mem_append, List.mem_singleton,
        not_or]
      exact ⟨hmem, by omega⟩

theorem InsertAfter_heap_eq {m : Memory α} {this : Nat} {o : SingleLinkedList} {a : Nat}
    {w : α} {q : NodePtr} (v : α) (ho : m.lists[this]? = some o)
    (ha : m.heap[a]? = some (some ⟨w, q⟩)) :
    InsertAfter m this ⟨.heap a⟩ v = some
      (⟨.heap m.heap.length⟩,
       { heap := (m.heap ++ [some (Node.mk v q)]).set a (some ⟨w, .heap m.heap.length⟩),
         lists := m.lists.set this ⟨o.head_next, incSize o.size_⟩ }) := by
  have hlt := heap_get_lt ha
  simp [InsertAfter, BasicIterator.inc, nextOf, newNode, setNext, getSize, setSize, ho, ha,
    List.getElem?_append_left hlt]

theorem EraseAfter_head_null_eq {m : Memory α} {this : Nat} {o : SingleLinkedList}
    (ho : m.lists[this]? = some o) (hh : o.head_next = .null) :
    EraseAfter m this (before_begin this) = some (⟨.null⟩, m) := by
  simp [EraseAfter, before_begin, nextOf, ho, hh]

theorem EraseAfter_heap_null_eq {m : Memory α} {this : Nat} {a : Nat} {w : α}
    (ha : m.heap[a]? = some (some ⟨w, .null⟩)) :
    EraseAfter m this ⟨.heap a⟩ = some (⟨.null⟩, m) := by
  simp [EraseAfter, nextOf, ha]

theorem EraseAfter_heap_eq {m : Memory α} {this : Nat} {o : SingleLinkedList} {a b : Nat}
    {w u : α} {r : NodePtr} (ho : m.lists[this]? = some o)
    (ha : m.heap[a]? = some (some ⟨w, .heap b⟩)) (hb : m.heap[b]? = some (some ⟨u, r⟩))
    (hab : a ≠ b) :
    EraseAfter m this ⟨.heap a⟩ = some
      (⟨r⟩,
       { heap := (m.heap.set a (some ⟨w, r⟩)).set b none,
         lists := m.lists.set this ⟨o.head_next, decSize o.size_⟩ }) := by
  have hlta := heap_get_lt ha
  have hltb := heap_get_lt hb
  have hba : ¬ b = a := fun e => hab e.symm
  simp [EraseAfter, nextOf, setNext, deleteNode, getSize, setSize, ho, ha, hb,
    List.getElem?_set, hab, hba, hlta, hltb]

theorem PopFront_none_of_null {m : Memory α} {this : Nat} {o : SingleLinkedList}
    (ho : m.lists[this]? = some o) (hh : o.head_next = .null) : PopFront m this = none := by
  simp [PopFront, nextOf, valueOf, ho, hh]

theorem PopFront_none {m : Memory α} {this : Nat} (ho : m.lists[this]? = none) :
    PopFront m this = none := by
  simp [PopFront, nextOf, ho]

theorem Clear_none {m : Memory α} {this : Nat} (ho : m.lists[this]? = none) :
    Clear m this = none := by
  simp [Clear, getSize, ho]

theorem swap_none_left {m : Memory α} {a b : Nat} (ho : m.lists[a]? = none) :
    SingleLinkedList.swap m a b = none := by
  simp [SingleLinkedList.swap, getSize, ho]

theorem swap_none_right {m : Memory α} {a b : Nat} (ho : m.lists[b]? = none) :
    SingleLinkedList.swap m a b = none := by
  cases ha : m.lists[a]? with
  | none => exact swap_none_left ha
  | some oa => simp [SingleLinkedList.swap, getSize, nextOf, ho, ha]

theorem EraseAfter_head_none {m : Memory α} {this : Nat} (ho : m.lists[this]? = none) :
    EraseAfter m this (before_begin this) = none := by
  simp [EraseAfter, before_begin, nextOf, ho]

theorem setNext_heap_length {m m1 : Memory α} {p q : NodePtr} (h : setNext m p q = some m1) :
    m1.heap.length = m.heap.length := by
  cases p with
  | null => simp [setNext] at h
  | head l =>
    simp only [setNext] at h
    split at h
    · injection h with h
      subst h
      rfl
    · exact absurd h (by simp)
  | heap a =>
    simp only [setNext] at h
    split at h
    · injection h with h
      subst h
      simp
    · exact absurd h (by simp)

theorem setSize_heap {m m1 : Memory α} {l n : Nat} (h : setSize m l n = some m1) :
    m1.heap = m.heap := by
  simp only [setSize] at h
  split at h
  · injection h with h
    subst h
    rfl
  · exact absurd h (by simp)

theorem appendNode_heap_length {m m1 : Memory α} {this : Nat} {last p : NodePtr} {v : α}
    (h : appendNode m this last v = some (p, m1)) : m1.heap.length = m.heap.length + 1 := by
  simp only [appendNode, newNode, Option.bind_eq_bind] at h
  cases hq : nextOf (⟨m.heap ++ [some (Node.mk v .null)], m.lists⟩ : Memory α) (.head this) with
  | none => simp [hq] at h
  | some q =>
    rw [hq] at h
    simp only [Option.some_bind] at h
    split at h <;>
    · simp only [Option.bind_eq_some, Option.some.injEq, Prod.mk.injEq] at h
      obtain ⟨m2, h2, s, -, m3, h3, -, h4⟩ := h
      subst h4
      rw [setSize_heap h3, setNext_heap_length h2]
      simp

theorem constructLoop_heap_length {vs : List α} {m m1 : Memory α} {this : Nat} {last : NodePtr}
    (h : constructLoop this vs last m = some m1) :
    m1.heap.length = m.heap.length + vs.length := by
  induction vs generalizing m last with
  | nil =>
    simp only [constructLoop, Option.some.injEq] at h
    subst h
    rfl
  | cons v vs ih =>
    simp only [constructLoop] at h
    split at h
    · rename_i last1 m2 h2
      rw [ih h, appendNode_heap_length h2, List.length_cons]
      omega
    · exact absurd h (by simp)

/-- The loop of the copy constructor appends the values of the chain it walks, as the loop
over an initializer list does, when that chain shares no cell with the list being built. -/
theorem copyLoop_eq_constructLoop {src : List (Nat × α)} {m : Memory α} {this : Nat}
    {o : SingleLinkedList} {cs : List (Nat × α)} {last n : NodePtr} {fuel : Nat}
    (ho : m.lists[this]? = some o) (hs : IsSeg m.heap o.head_next cs .null)
    (hl : LastOf cs last) (hsrc : IsSeg m.heap n src .null)
    (hdj : ∀ a ∈ addrs src, a ∉ addrs cs) (hf : src.length < fuel) :
    copyLoop this fuel n last m = constructLoop this (vals src) last m := by
  induction src generalizing m o cs last n fuel with
  | nil =>
    simp only [IsSeg] at hsrc
    cases fuel with
    | zero => simp at hf
    | succ fuel => simp [copyLoop, constructLoop, hsrc]
  | cons c src ih =>
    have hlt := isSeg_addr_lt hsrc
    obtain ⟨hn, r, hr, hsrc2⟩ := hsrc
    cases fuel with
    | zero => simp at hf
    | succ fuel =>
      simp only [List.length_cons, Nat.add_lt_add_iff_right] at hf
      obtain ⟨m1, p1, h1, hl1, hs1, hlen1, hfr1⟩ := appendNode_spec c.2 ho hs hl
      have ho1 : m1.lists[this]? = some ⟨p1, incSize o.size_⟩ := by
        rw [hl1]
        exact lists_set_get ho
      have hc1 : m1.heap[c.1]? = some (some ⟨c.2, r⟩) := by
        rw [hfr1 c.1 (hlt c.1 (by simp)) (hdj c.1 (by simp)), hr]
      have hsrc3 : IsSeg m1.heap r src .null := by
        refine isSeg_congr (fun a ha => ?_) hsrc2
        exact hfr1 a (hlt a (by simp [ha])) (hdj a (by simp [ha]))
      have hdj1 : ∀ a ∈ addrs src, a ∉ addrs (cs ++ [(m.heap.length, c.2)]) := by
        intro a ha
        simp only [addrs_append, addrs_cons, addrs_nil, List.mem_append, List.mem_singleton,
          not_or]
        have := hlt a (by simp [ha])
        exact ⟨hdj a (by simp [ha]), by omega⟩
      have hrec := ih ho1 hs1 (lastOf_append_singleton cs (m.heap.length, c.2)) hsrc3 hdj1 hf
      simp only [copyLoop, constructLoop, vals_cons, hn, valueOf_heap hr, h1,
        nextOf_heap hc1, hrec]
      simp [vals]

/-- The loop of `operator=` appends the values of the chain of `rhs`, as the loop over an
initializer list does, when that chain shares no cell with the list being built. -/
theorem assignLoop_eq_constructLoop {src : List (Nat × α)} {m : Memory α} {this rhs : Nat}
    {o : SingleLinkedList} {cs full : List (Nat × α)} {last n : NodePtr} {fuel : Nat}
    (ho : m.lists[this]? = some o) (hs : IsSeg m.heap o.head_next cs .null)
    (hl : LastOf cs last) (hne : rhs ≠ this) (hfull : Chain m rhs full)
    (hdjf : ∀ a ∈ addrs full, a ∉ addrs cs) (hsrc : IsSeg m.heap n src .null)
    (hdj : ∀ a ∈ addrs src, a ∉ addrs cs) (hf : src.length < fuel) :
    assignLoop this rhs fuel ⟨n⟩ last m = constructLoop this (vals src) last m := by
  induction src generalizing m o cs last n fuel with
  | nil =>
    simp only [IsSeg] at hsrc
    cases fuel with
    | zero => simp at hf
    | succ fuel =>
      simp [assignLoop, constructLoop, hsrc, end_of_chain hfull, BasicIterator.ne]
  | cons c src ih =>
    have hlt := isSeg_addr_lt hsrc
    have hend := end_of_chain hfull
    obtain ⟨hn, r, hr, hsrc2⟩ := hsrc
    obtain ⟨orhs, horhs, hsfull⟩ := hfull
    have hltf := isSeg_addr_lt hsfull
    cases fuel with
    | zero => simp at hf
    | succ fuel =>
      simp only [List.length_cons, Nat.add_lt_add_iff_right] at hf
      obtain ⟨m1, p1, h1, hl1, hs1, hlen1, hfr1⟩ := appendNode_spec c.2 ho hs hl
      have ho1 : m1.lists[this]? = some ⟨p1, incSize o.size_⟩ := by
        rw [hl1]
        exact lists_set_get ho
      have hc1 : m1.heap[c.1]? = some (some ⟨c.2, r⟩) := by
        rw [hfr1 c.1 (hlt c.1 (by simp)) (hdj c.1 (by simp)), hr]
      have hsrc3 : IsSeg m1.heap r src .null := by
        refine isSeg_congr (fun a ha => ?_) hsrc2
        exact hfr1 a (hlt a (by simp [ha])) (hdj a (by simp [ha]))
      have hfull1 : Chain m1 rhs full := by
        refine ⟨orhs, ?_, isSeg_congr (fun a ha => hfr1 a (hltf a ha) (hdjf a ha)) hsfull⟩
        have hne2 : this ≠ rhs := fun e => hne e.symm
        rw [hl1]
        simp [List.getElem?_set, hne2, horhs]
      have hdj1 : ∀ a ∈ addrs src, a ∉ addrs (cs ++ [(m.heap.length, c.2)]) := by
        intro a ha
        simp only [addrs_append, addrs_cons, addrs_nil, List.mem_append, List.mem_singleton,
          not_or]
        have := hlt a (by simp [ha])
        exact ⟨hdj a (by simp [ha]), by omega⟩
      have hdjf1 : ∀ a ∈ addrs full, a ∉ addrs (cs ++ [(m.heap.length, c.2)]) := by
        intro a ha
        simp only [addrs_append, addrs_cons, addrs_nil, List.mem_append, List.mem_singleton,
          not_or]
        have := hltf a ha
        exact ⟨hdjf a ha, by omega⟩
      have hrec := ih ho1 hs1 (lastOf_append_singleton cs (m.heap.length, c.2)) hfull1 hdjf1
        hsrc3 hdj1 hf
      simp only [assignLoop, constructLoop, vals_cons, hn, hend, BasicIterator.ne,
        BasicIterator.deref, BasicIterator.inc, valueOf_heap hr, h1, nextOf_heap hc1]
      simp [vals, hrec]

end Operations

/-! ## The ownership invariant -/

section Invariant

variable {α : Type}

open SingleLinkedList

theorem countFrom_of_isSeg {m : Memory α} {cs : List (Nat × α)} {p : NodePtr} {fuel : Nat}
    (h : IsSeg m.heap p cs .null) (hf : cs.length < fuel) :
    countFrom m fuel p = some cs.length := by
  induction cs generalizing p fuel with
  | nil =>
    simp only [IsSeg] at h
    cases fuel with
    | zero => simp at hf
    | succ fuel => simp [countFrom, h]
  | cons c cs ih =>
    obtain ⟨hp, r, hr, hs⟩ := h
    cases fuel with
    | zero => simp at hf
    | succ fuel =>
      simp only [List.length_cons, Nat.add_lt_add_iff_right] at hf
      simp [countFrom, hp, nextOf_heap hr, ih hs hf]

theorem reachableNodes_of_chain {m : Memory α} {l : Nat} {cs : List (Nat × α)}
    (h : Chain m l cs) : reachableNodes m l = some cs.length := by
  obtain ⟨o, ho, hs⟩ := h
  simp only [reachableNodes, nextOf_head ho]
  exact countFrom_of_isSeg hs (Nat.lt_succ_of_le (isSeg_null_length_le hs))

/-- An operation on the list `this` that rebuilds its chain from its own cells and fresh
ones, and leaves every other cell alone, preserves the invariant. -/
theorem WF_update {m m1 : Memory α} {own : Nat → List (Nat × α)} {this : Nat}
    {o1 : SingleLinkedList} (cs1 : List (Nat × α)) (hwf : WF m own)
    (hthis : this < m.lists.length)
    (hl : m1.lists = m.lists.set this o1)
    (hs : IsSeg m1.heap o1.head_next cs1 .null) (hsz : o1.size_ = cs1.length)
    (hlt : cs1.length < SIZE_MOD)
    (hsub : ∀ a ∈ addrs cs1, a ∈ addrs (own this) ∨ m.heap.length ≤ a)
    (hfr : ∀ a, a < m.heap.length → a ∉ addrs (own this) → m1.heap[a]? = m.heap[a]?) :
    WF m1 (Function.update own this cs1) := by
  obtain ⟨hch, hdj⟩ := hwf
  have hlen : m1.lists.length = m.lists.length := by rw [hl]; simp
  constructor
  · intro l o ho
    by_cases hlt2 : l = this
    · subst hlt2
      rw [hl, List.getElem?_set] at ho
      simp only [if_true, hthis] at ho
      injection ho with ho
      subst ho
      simp only [Function.update_same]
      exact ⟨hs, hsz, hlt⟩
    · rw [hl, List.getElem?_set] at ho
      have hne : this ≠ l := fun e => hlt2 e.symm
      simp only [hne, if_false] at ho
      simp only [Function.update_noteq hlt2]
      obtain ⟨h1, h2, h3⟩ := hch l o ho
      refine ⟨isSeg_congr (fun a ha => ?_) h1, h2, h3⟩
      exact hfr a (isSeg_addr_lt h1 a ha) (hdj l this (lists_get_lt ho) hthis hlt2 a ha)
  · intro l k hl1 hk1 hlk a ha
    rw [hlen] at hl1 hk1
    by_cases hlt2 : l = this
    · subst hlt2
      have hk2 : k ≠ l := fun e => hlk e.symm
      simp only [Function.update_same] at ha
      simp only [Function.update_noteq hk2]
      rcases hsub a ha with h | h
      · exact hdj l k hl1 hk1 hlk a h
      · intro hmem
        obtain ⟨ok, hok⟩ : ∃ ok, m.lists[k]? = some ok :=
          ⟨m.lists[k], List.getElem?_eq_getElem hk1⟩
        have := isSeg_addr_lt (hch k ok hok).1 a hmem
        omega
    · simp only [Function.update_noteq hlt2] at ha
      by_cases hk2 : k = this
      · subst hk2
        simp only [Function.update_same]
        intro hmem
        rcases hsub a hmem with h | h
        · exact hdj l k hl1 hk1 hlk a ha h
        · obtain ⟨ol, hol⟩ : ∃ ol, m.lists[l]? = some ol :=
            ⟨m.lists[l], List.getElem?_eq_getElem hl1⟩
          have := isSeg_addr_lt (hch l ol hol).1 a ha
          omega
      · simp only [Function.update_noteq hk2]
        exact hdj l k hl1 hk1 hlk a ha

theorem WF_construct {m : Memory α} {own : Nat → List (Nat × α)} (hwf : WF m own) :
    WF (construct m).2 (Function.update own m.lists.length []) := by
  obtain ⟨hch, hdj⟩ := hwf
  constructor
  · intro l o ho
    simp only [construct] at ho
    by_cases hl : l = m.lists.length
    · subst hl
      simp only [List.getElem?_concat_length, Option.some.injEq] at ho
      subst ho
      simp [IsSeg, SIZE_MOD_eq]
    · have hlt : l < m.lists.length := by
        have := lists_get_lt ho
        simp only [List.length_append, List.length_singleton] at this
        omega
      rw [List.getElem?_append_left hlt] at ho
      simp only [Function.update_noteq hl]
      exact hch l o ho
  · intro l k hl1 hk1 hlk a ha
    simp only [construct, List.length_append, List.length_singleton] at hl1 hk1
    by_cases hl : l = m.lists.length
    · subst hl
      simp at ha
    · simp only [Function.update_noteq hl] at ha
      by_cases hk : k = m.lists.length
      · subst hk
        simp
      · simp only [Function.update_noteq hk]
        exact hdj l k (by omega) (by omega) hlk a ha

theorem WF_take {m : Memory α} {own : Nat → List (Nat × α)} (t : Nat) (hwf : WF m own) :
    WF { m with lists := m.lists.take t } own := by
  obtain ⟨hch, hdj⟩ := hwf
  constructor
  · intro l o ho
    simp only at ho
    have hlt : l < t := by
      have := lists_get_lt ho
      simp only [List.length_take] at this
      omega
    rw [List.getElem?_take] at ho
    simp only [hlt, if_true] at ho
    exact hch l o ho
  · intro l k hl1 hk1 hlk a ha
    simp only [List.length_take] at hl1 hk1
    exact hdj l k (by omega) (by omega) hlk a ha

theorem WF_swap {m : Memory α} {own : Nat → List (Nat × α)} {a b : Nat}
    {oa ob : SingleLinkedList} (hwf : WF m own) (hoa : m.lists[a]? = some oa)
    (hob : m.lists[b]? = some ob) :
    WF { m with lists := (m.lists.set a ob).set b oa }
      (Function.update (Function.update own a (own b)) b (own a)) := by
  obtain ⟨hch, hdj⟩ := hwf
  have hla := lists_get_lt hoa
  have hlb := lists_get_lt hob
  constructor
  · intro l o ho
    simp only at ho
    by_cases hlb2 : l = b
    · subst hlb2
      rw [swap_lists_right hob] at ho
      injection ho with ho
      subst ho
      simp only [Function.update_same]
      exact hch a _ hoa
    · by_cases hla2 : l = a
      · subst hla2
        rw [swap_lists_left hoa hob] at ho
        injection ho with ho
        subst ho
        simp only [Function.update_noteq hlb2, Function.update_same]
        exact hch b _ hob
      · have h1 : ¬ b = l := fun e => hlb2 e.symm
        have h2 : ¬ a = l := fun e => hla2 e.symm
        simp only [List.getElem?_set, h1, h2, if_false] at ho
        simp only [Function.update_noteq hlb2, Function.update_noteq hla2]
        exact hch l o ho
  · intro l k hl1 hk1 hlk
    simp only [List.length_set] at hl1 hk1
    have key : ∀ i, i < m.lists.length →
        (Function.update (Function.update own a (own b)) b (own a)) i =
          own (if i = b then a else if i = a then b else i) := by
      intro i _
      by_cases hib : i = b
      · subst hib
        simp
      · by_cases hia : i = a
        · subst hia
          simp [Function.update_noteq hib, if_neg hib]
        · simp [Function.update_noteq hib, Function.update_noteq hia, hib, hia]
    rw [key l hl1, key k hk1]
    apply hdj
    · split
      · exact hla
      · split
        · exact hlb
        · exact hl1
    · split
      · exact hla
      · split
        · exact hlb
        · exact hk1
    · intro e
      apply hlk
      split_ifs at e <;> omega

theorem advance_in_chain {m : Memory α} {cs : List (Nat × α)} {p : NodePtr} {k : Nat}
    {pos : BasicIterator} (hs : IsSeg m.heap p cs .null) (h : advance m k ⟨p⟩ = some pos) :
    pos.node_ = .null ∨ ∃ a, a ∈ addrs cs ∧ pos.node_ = .heap a := by
  induction k generalizing p cs with
  | zero =>
    simp only [advance, Option.some.injEq] at h
    subst h
    cases cs with
    | nil => exact Or.inl hs
    | cons c cs => exact Or.inr ⟨c.1, by simp, hs.1⟩
  | succ k ih =>
    cases cs with
    | nil =>
      simp only [IsSeg] at hs
      subst hs
      simp [advance, BasicIterator.inc, nextOf] at h
    | cons c cs =>
      obtain ⟨hp, r, hr, hs2⟩ := hs
      subst hp
      simp only [advance, BasicIterator.inc, nextOf_heap hr, Option.map_some'] at h
      rcases ih hs2 h with h1 | ⟨a, ha, h1⟩
      · exact Or.inl h1
      · exact Or.inr ⟨a, by simp [ha], h1⟩

/-- A valid position of a list is its sentinel or one of the cells of its chain. -/
theorem validPos_cases {m : Memory α} {l : Nat} {cs : List (Nat × α)} {pos : BasicIterator}
    (hc : Chain m l cs) (hv : ValidPos m l pos) :
    pos = before_begin l ∨ ∃ a, a ∈ addrs cs ∧ pos = ⟨.heap a⟩ := by
  obtain ⟨hne, k, hk⟩ := hv
  obtain ⟨o, ho, hs⟩ := hc
  cases k with
  | zero =>
    simp only [advance, Option.some.injEq] at hk
    exact Or.inl hk.symm
  | succ k =>
    simp only [advance, BasicIterator.inc, before_begin, nextOf_head ho, Option.map_some'] at hk
    rcases advance_in_chain hs hk with h1 | ⟨a, ha, h1⟩
    · exact absurd h1 hne
    · refine Or.inr ⟨a, ha, ?_⟩
      cases pos
      simp only at h1
      rw [h1]

theorem insertAfter_head_map (m : Memory α) (l : Nat) (v : α) :
    (InsertAfter m l (before_begin l) v).map Prod.snd = PushFront m l v := by
  cases ho : m.lists[l]? with
  | none => rw [InsertAfter_head_none v ho, PushFront_none v ho]; rfl
  | some o => rw [InsertAfter_head_eq v ho, PushFront_eq v ho]; rfl

theorem WF_PushFront_update {m m1 : Memory α} {own : Nat → List (Nat × α)} {l : Nat} {v : α}
    (hwf : WF m own) (h : PushFront m l v = some m1) (hfit : Fits m1) :
    ∃ cs1, WF m1 (Function.update own l cs1) ∧ m1.lists.length = m.lists.length := by
  cases ho : m.lists[l]? with
  | none =>
    rw [PushFront_none v ho] at h
    exact absurd h (by simp)
  | some o =>
    rw [PushFront_eq v ho] at h
    injection h with h
    subst h
    obtain ⟨hs, hsz, -⟩ := hwf.1 l o ho
    have hc1 : IsSeg (m.heap ++ [some (Node.mk v o.head_next)]) (.heap m.heap.length)
        ((m.heap.length, v) :: own l) .null :=
      ⟨rfl, o.head_next, by simp, isSeg_append_heap _ hs⟩
    have hb := isSeg_null_length_le hc1
    simp only [Fits] at hfit
    simp only [List.length_cons, List.length_append, List.length_singleton] at hb hfit
    refine ⟨_, WF_update _ hwf (lists_get_lt ho) rfl hc1 ?_ ?_ ?_ ?_, by simp⟩
    · simp only [List.length_cons]
      rw [hsz]
      exact incSize_of_lt (by omega)
    · simp only [List.length_cons]
      omega
    · intro a ha
      simp only [addrs_cons, List.mem_cons] at ha
      rcases ha with rfl | ha
      · exact Or.inr (Nat.le_refl _)
      · exact Or.inl ha
    · intro a ha _
      exact List.getElem?_append_left ha

theorem WF_PushFront {m m1 : Memory α} {own : Nat → List (Nat × α)} {l : Nat} {v : α}
    (hwf : WF m own) (h : PushFront m l v = some m1) (hfit : Fits m1) :
    ∃ own1, WF m1 own1 := by
  obtain ⟨cs1, h1, -⟩ := WF_PushFront_update hwf h hfit
  exact ⟨_, h1⟩

theorem WF_PopFront_update {m m1 : Memory α} {own : Nat → List (Nat × α)} {l : Nat}
    (hwf : WF m own) (h : PopFront m l = some m1) : ∃ cs1, WF m1 (Function.update own l cs1) ∧ m1.lists.length = m.lists.length := by
  cases ho : m.lists[l]? with
  | none =>
    rw [PopFront_none ho] at h
    exact absurd h (by simp)
  | some o =>
    obtain ⟨hs, hsz, hlt⟩ := hwf.1 l o ho
    cases hown : own l with
    | nil =>
      rw [hown] at hs
      rw [PopFront_none_of_null ho hs] at h
      exact absurd h (by simp)
    | cons c ds =>
      rw [hown] at hs hsz hlt
      obtain ⟨hp, r, hr, hds⟩ := hs
      rw [PopFront_eq ho hp hr] at h
      injection h with h
      subst h
      simp only [List.length_cons] at hsz hlt
      refine ⟨_, WF_update ds hwf (lists_get_lt ho) rfl ?_ ?_ ?_ ?_ ?_, by simp⟩
      · refine isSeg_congr (fun a ha => ?_) hds
        exact getElem?_append_set_left (isSeg_addr_lt hds a ha)
      · simp only
        rw [hsz]
        exact decSize_succ hlt
      · omega
      · intro a ha
        exact Or.inl (by rw [hown]; simp [ha])
      · intro a ha _
        exact getElem?_append_set_left ha

theorem WF_PopFront {m m1 : Memory α} {own : Nat → List (Nat × α)} {l : Nat}
    (hwf : WF m own) (h : PopFront m l = some m1) : ∃ own1, WF m1 own1 := by
  obtain ⟨cs1, h1, -⟩ := WF_PopFront_update hwf h
  exact ⟨_, h1⟩

theorem WF_Clear {m m1 : Memory α} {own : Nat → List (Nat × α)} {l : Nat}
    (hwf : WF m own) (h : Clear m l = some m1) : WF m1 (Function.update own l []) := by
  cases ho : m.lists[l]? with
  | none =>
    rw [Clear_none ho] at h
    exact absurd h (by simp)
  | some o =>
    obtain ⟨hs, hsz, hlt⟩ := hwf.1 l o ho
    obtain ⟨m2, h1, h2, h3, h4, -⟩ := Clear_spec ho hs hsz hlt
    rw [h1] at h
    injection h with h
    subst h
    refine WF_update [] hwf (lists_get_lt ho) h2 ?_ ?_ ?_ ?_ ?_
    · rfl
    · rfl
    · simp [SIZE_MOD_eq]
    · simp
    · intro a _ hmem
      exact h4 a hmem

theorem WF_swap_step {m m1 : Memory α} {own : Nat → List (Nat × α)} {a b : Nat}
    (hwf : WF m own) (h : SingleLinkedList.swap m a b = some m1) : ∃ own1, WF m1 own1 := by
  cases hoa : m.lists[a]? with
  | none =>
    rw [swap_none_left hoa] at h
    exact absurd h (by simp)
  | some oa =>
    cases hob : m.lists[b]? with
    | none =>
      rw [swap_none_right hob] at h
      exact absurd h (by simp)
    | some ob =>
      rw [swap_eq hoa hob] at h
      injection h with h
      subst h
      exact ⟨_, WF_swap hwf hoa hob⟩

theorem mem_addrs_split {cs : List (Nat × α)} {a : Nat} (h : a ∈ addrs cs) :
    ∃ pre c post, cs = pre ++ c :: post ∧ c.1 = a := by
  simp only [addrs, List.mem_map] at h
  obtain ⟨c, hc, hca⟩ := h
  obtain ⟨pre, post, hsplit⟩ := List.append_of_mem hc
  exact ⟨pre, c, post, hsplit, hca⟩

theorem nodup_split {pre post : List (Nat × α)} {c : Nat × α}
    (h : (addrs (pre ++ c :: post)).Nodup) :
    c.1 ∉ addrs pre ∧ c.1 ∉ addrs post ∧ ∀ a ∈ addrs pre, a ∉ addrs post := by
  simp only [addrs_append, addrs_cons, List.nodup_append, List.nodup_cons] at h
  obtain ⟨-, ⟨h2, -⟩, h3⟩ := h
  refine ⟨?_, h2, ?_⟩
  · intro hmem
    exact h3 hmem (by simp)
  · intro a ha hmem
    exact h3 ha (by simp [hmem])

theorem validPos_of_no_list {m : Memory α} {l : Nat} {pos : BasicIterator}
    (ho : m.lists[l]? = none) (hv : ValidPos m l pos) : pos = before_begin l := by
  obtain ⟨-, k, hk⟩ := hv
  cases k with
  | zero =>
    simp only [advance, Option.some.injEq] at hk
    exact hk.symm
  | succ k =>
    simp [advance, BasicIterator.inc, before_begin, nextOf, ho] at hk

theorem WF_InsertAfter_update {m m1 : Memory α} {own : Nat → List (Nat × α)} {l : Nat}
    {pos it : BasicIterator} {v : α} (hwf : WF m own) (hv : ValidPos m l pos)
    (h : InsertAfter m l pos v = some (it, m1)) (hfit : Fits m1) : ∃ cs1, WF m1 (Function.update own l cs1) ∧ m1.lists.length = m.lists.length := by
  cases ho : m.lists[l]? with
  | none =>
    rw [validPos_of_no_list ho hv, InsertAfter_head_none v ho] at h
    exact absurd h (by simp)
  | some o =>
    obtain ⟨hs, hsz, -⟩ := hwf.1 l o ho
    rcases validPos_cases ⟨o, ho, hs⟩ hv with hpos | ⟨a, ha, hpos⟩
    · subst hpos
      have hp : PushFront m l v = some m1 := by
        rw [← (insertAfter_head_map m l v), h]
        rfl
      exact WF_PushFront_update hwf hp hfit
    · subst hpos
      obtain ⟨pre, c, post, hsplit, hca⟩ := mem_addrs_split ha
      subst hca
      have hnd := isSeg_null_nodup hs
      have hlt := isSeg_addr_lt hs
      rw [hsplit] at hs hnd hlt hsz
      obtain ⟨hn1, hn2, -⟩ := nodup_split hnd
      obtain ⟨t, hpre, hc⟩ := isSeg_append.1 hs
      obtain ⟨ht, r, hr, hpost⟩ := hc
      subst ht
      rw [InsertAfter_heap_eq v ho hr] at h
      injection h with h
      injection h with h1 h2
      subst h2
      have hclt := heap_get_lt hr
      have hc1 : IsSeg ((m.heap ++ [some (Node.mk v r)]).set c.1
          (some ⟨c.2, .heap m.heap.length⟩)) o.head_next
          (pre ++ c :: (m.heap.length, v) :: post) .null := by
        refine isSeg_append.2 ⟨.heap c.1, ?_, rfl, .heap m.heap.length, ?_, rfl, r, ?_, ?_⟩
        · refine isSeg_congr (fun a ha => ?_) hpre
          have h3 : a < m.heap.length := hlt a (by simp [ha])
          have h4 : c.1 ≠ a := fun e => hn1 (e ▸ ha)
          simp [List.getElem?_set, h4, List.getElem?_append_left h3]
        · have e : c.1 < (m.heap ++ [some (Node.mk v r)]).length := by
            simp only [List.length_append, List.length_singleton]
            omega
          rw [List.getElem?_set]
          simp only [if_true, e]
        · have h4 : c.1 ≠ m.heap.length := by omega
          simp [List.getElem?_set, h4]
        · refine isSeg_congr (fun a ha => ?_) hpost
          have h3 : a < m.heap.length := hlt a (by simp [ha])
          have h4 : c.1 ≠ a := fun e => hn2 (e ▸ ha)
          simp [List.getElem?_set, h4, List.getElem?_append_left h3]
      have hb := isSeg_null_length_le hc1
      simp only [Fits] at hfit
      simp only [List.length_cons, List.length_append, List.length_singleton,
        List.length_set] at hb hfit hsz
      refine ⟨_, WF_update _ hwf (lists_get_lt ho) rfl hc1 ?_ ?_ ?_ ?_, by simp⟩
      · simp only [List.length_cons, List.length_append]
        rw [hsz]
        rw [incSize_of_lt (by omega)]
        omega
      · simp only [List.length_cons, List.length_append]
        omega
      · intro a ha
        rw [hsplit]
        simp only [addrs_append, addrs_cons, List.mem_append, List.mem_cons] at ha ⊢
        rcases ha with h | h | h | h
        · exact Or.inl (Or.inl h)
        · exact Or.inl (Or.inr (Or.inl h))
        · exact Or.inr (by omega)
        · exact Or.inl (Or.inr (Or.inr h))
      · intro a ha hmem
        have h4 : c.1 ≠ a := by
          intro e
          apply hmem
          rw [hsplit]
          simp [e]
        simp [List.getElem?_set, h4, List.getElem?_append_left ha]

theorem WF_InsertAfter {m m1 : Memory α} {own : Nat → List (Nat × α)} {l : Nat}
    {pos it : BasicIterator} {v : α} (hwf : WF m own) (hv : ValidPos m l pos)
    (h : InsertAfter m l pos v = some (it, m1)) (hfit : Fits m1) : ∃ own1, WF m1 own1 := by
  obtain ⟨cs1, h1, -⟩ := WF_InsertAfter_update hwf hv h hfit
  exact ⟨_, h1⟩

theorem WF_EraseAfter_update {m m1 : Memory α} {own : Nat → List (Nat × α)} {l : Nat}
    {pos it : BasicIterator} (hwf : WF m own) (hv : ValidPos m l pos)
    (h : EraseAfter m l pos = some (it, m1)) : ∃ cs1, WF m1 (Function.update own l cs1) ∧ m1.lists.length = m.lists.length := by
  cases ho : m.lists[l]? with
  | none =>
    rw [validPos_of_no_list ho hv, EraseAfter_head_none ho] at h
    exact absurd h (by simp)
  | some o =>
    obtain ⟨hs, hsz, hlt⟩ := hwf.1 l o ho
    have hnd := isSeg_null_nodup hs
    have haddr := isSeg_addr_lt hs
    rcases validPos_cases ⟨o, ho, hs⟩ hv with hpos | ⟨a, ha, hpos⟩
    · subst hpos
      cases hown : own l with
      | nil =>
        rw [hown] at hs
        rw [EraseAfter_head_null_eq ho hs] at h
        injection h with h
        injection h with h1 h2
        subst h2
        exact ⟨own l, by rw [Function.update_eq_self]; exact hwf, rfl⟩
      | cons c ds =>
        rw [hown] at hs hsz hlt hnd
        obtain ⟨hp, r, hr, hds⟩ := hs
        rw [EraseAfter_head_eq ho hp hr] at h
        injection h with h
        injection h with h1 h2
        subst h2
        simp only [List.length_cons] at hsz hlt
        simp only [addrs_cons, List.nodup_cons] at hnd
        refine ⟨_, WF_update ds hwf (lists_get_lt ho) rfl (isSeg_set none hnd.1 hds) ?_ ?_ ?_ ?_,
          by simp⟩
        · simp only
          rw [hsz]
          exact decSize_succ hlt
        · omega
        · intro a ha
          exact Or.inl (by rw [hown]; simp [ha])
        · intro a _ hmem
          have h4 : c.1 ≠ a := by
            intro e
            apply hmem
            rw [hown]
            simp [e]
          simp [List.getElem?_set, h4]
    · subst hpos
      obtain ⟨pre, c, post, hsplit, hca⟩ := mem_addrs_split ha
      subst hca
      rw [hsplit] at hs hnd haddr hsz hlt
      obtain ⟨hn1, hn2, hn3⟩ := nodup_split hnd
      obtain ⟨t, hpre, hc⟩ := isSeg_append.1 hs
      obtain ⟨ht, r, hr, hpost⟩ := hc
      subst ht
      cases post with
      | nil =>
        simp only [IsSeg] at hpost
        subst hpost
        rw [EraseAfter_heap_null_eq hr] at h
        injection h with h
        injection h with h1 h2
        subst h2
        exact ⟨own l, by rw [Function.update_eq_self]; exact hwf, rfl⟩
      | cons d post =>
        obtain ⟨hrd, t, hd, hpost2⟩ := hpost
        subst hrd
        have hcd : c.1 ≠ d.1 := by
          intro e
          apply hn2
          simp [e]
        have hnd2 : d.1 ∉ addrs post := by
          have := isSeg_null_nodup (isSeg_cons_iff.2 ⟨rfl, t, hd, hpost2⟩)
          simp only [addrs_cons, List.nodup_cons] at this
          exact this.1
        rw [EraseAfter_heap_eq ho hr hd hcd] at h
        injection h with h
        injection h with h1 h2
        subst h2
        have hclt := heap_get_lt hr
        have hc1 : IsSeg ((m.heap.set c.1 (some ⟨c.2, t⟩)).set d.1 none) o.head_next
            (pre ++ c :: post) .null := by
          refine isSeg_append.2 ⟨.heap c.1, ?_, rfl, t, ?_, ?_⟩
          · refine isSeg_congr (fun a ha => ?_) hpre
            have h4 : c.1 ≠ a := fun e => hn1 (e ▸ ha)
            have h5 : d.1 ≠ a := fun e => hn3 a ha (by simp [e])
            simp [List.getElem?_set, h4, h5]
          · have h5 : d.1 ≠ c.1 := fun e => hcd e.symm
            simp [List.getElem?_set, h5, hclt]
          · refine isSeg_congr (fun a ha => ?_) hpost2
            have h4 : c.1 ≠ a := fun e => hn2 (by simp [e ▸ ha])
            have h5 : d.1 ≠ a := fun e => hnd2 (e ▸ ha)
            simp [List.getElem?_set, h4, h5]
        simp only [List.length_cons, List.length_append] at hsz hlt
        refine ⟨_, WF_update _ hwf (lists_get_lt ho) rfl hc1 ?_ ?_ ?_ ?_, by simp⟩
        · simp only [List.length_cons, List.length_append]
          rw [hsz]
          rw [show pre.length + (post.length + 1 + 1) = (pre.length + (post.length + 1)) + 1
            by omega]
          exact decSize_succ (by omega)
        · simp only [List.length_cons, List.length_append]
          omega
        · intro a ha
          rw [hsplit]
          simp only [addrs_append, addrs_cons, List.mem_append, List.mem_cons] at ha ⊢
          rcases ha with h | h | h
          · exact Or.inl (Or.inl h)
          · exact Or.inl (Or.inr (Or.inl h))
          · exact Or.inl (Or.inr (Or.inr (Or.inr h)))
        · intro a _ hmem
          have h4 : c.1 ≠ a := by
            intro e
            apply hmem
            rw [hsplit]
            simp [e]
          have h5 : d.1 ≠ a := by
            intro e
            apply hmem
            rw [hsplit]
            simp [e]
          simp [List.getElem?_set, h4, h5]

theorem WF_EraseAfter {m m1 : Memory α} {own : Nat → List (Nat × α)} {l : Nat}
    {pos it : BasicIterator} (hwf : WF m own) (hv : ValidPos m l pos)
    (h : EraseAfter m l pos = some (it, m1)) : ∃ own1, WF m1 own1 := by
  obtain ⟨cs1, h1, -⟩ := WF_EraseAfter_update hwf hv h
  exact ⟨_, h1⟩

/-- Building a list from values on an empty list object preserves the invariant. -/
theorem WF_build {vs : List α} {m m1 : Memory α} {own : Nat → List (Nat × α)} {this : Nat}
    {o : SingleLinkedList} (hwf : WF m own) (ho : m.lists[this]? = some o)
    (hempty : own this = []) (hsz : vs.length < SIZE_MOD)
    (h : constructLoop this vs .null m = some m1) :
    ∃ ds, WF m1 (Function.update own this ds) ∧ vals ds = vs ∧
      m1.lists.length = m.lists.length := by
  obtain ⟨hs, hsize, -⟩ := hwf.1 this o ho
  rw [hempty] at hs hsize
  simp only [List.length_nil] at hsize
  obtain ⟨m2, p, ds, h1, hl, hs2, hv, hge, hlen, hfr⟩ :=
    constructLoop_spec vs ho hs (lastOf_nil .null) (by rw [hsize]; simpa using hsz)
  rw [h1] at h
  injection h with h
  subst h
  have hdl : ds.length = vs.length := by rw [← hv]; simp
  refine ⟨ds, WF_update ds hwf (lists_get_lt ho) hl (by simpa using hs2) ?_ ?_ ?_ ?_, hv,
    by rw [hl]; simp⟩
  · simp only
    rw [hsize, hdl]
    omega
  · rw [hdl]
    exact hsz
  · intro a ha
    exact Or.inr (hge a ha)
  · intro a ha _
    exact hfr a ha (by simp)

theorem WF_constructFrom {m m1 : Memory α} {own : Nat → List (Nat × α)} {vs : List α}
    {l : Nat} (hwf : WF m own) (h : constructFrom m vs = some (l, m1)) (hfit : Fits m1) :
    ∃ own1, WF m1 own1 := by
  simp only [constructFrom, construct] at h
  obtain ⟨m2, h2, h3⟩ := option_map_some h
  injection h3 with h3 h4
  subst h4
  have hlen := constructLoop_heap_length h2
  simp only [Fits] at hfit
  simp only at hlen
  have ho : (construct m).2.lists[m.lists.length]? = some ⟨.null, 0⟩ := by
    simp [construct]
  obtain ⟨ds, hds, -, -⟩ := WF_build (WF_construct hwf) ho (by simp) (by omega) h2
  exact ⟨_, hds⟩

theorem WF_copyConstruct {m m1 : Memory α} {own : Nat → List (Nat × α)} {other l : Nat}
    (hwf : WF m own) (h : copyConstruct m other = some (l, m1)) :
    ∃ ds, WF m1 (Function.update own m.lists.length ds) ∧ l = m.lists.length ∧
      m1.lists.length = m.lists.length + 1 := by
  simp only [copyConstruct] at h
  split at h
  · exact absurd h (by simp)
  · rename_i n hn
    obtain ⟨m2, h2, h3⟩ := option_map_some h
    injection h3 with h3 h4
    subst h4
    have hwf0 := WF_construct hwf
    obtain ⟨oo, hoo, hoon⟩ := nextOf_head_eq_some hn
    obtain ⟨hsrc, -, hsrclt⟩ := hwf0.1 other oo hoo
    rw [hoon] at hsrc
    have ho : (construct m).2.lists[m.lists.length]? = some ⟨.null, 0⟩ := by
      simp [construct]
    have hf : (Function.update own m.lists.length [] other).length <
        (construct m).2.heap.length + 1 := Nat.lt_succ_of_le (isSeg_null_length_le hsrc)
    have e1 : (construct m).1 = m.lists.length := rfl
    rw [e1] at h2 h3
    rw [copyLoop_eq_constructLoop ho (by exact rfl) (lastOf_nil .null) hsrc (by simp) hf] at h2
    obtain ⟨ds, hds, -, hlen⟩ := WF_build hwf0 ho (by simp) (by simpa using hsrclt) h2
    refine ⟨ds, ?_, h3.symm, ?_⟩
    · simpa using hds
    · rw [hlen]
      simp [construct]

theorem Clear_lists {m m1 : Memory α} {own : Nat → List (Nat × α)} {l : Nat}
    (hwf : WF m own) (h : Clear m l = some m1) :
    m1.lists = m.lists.set l ⟨.null, 0⟩ ∧ l < m.lists.length := by
  cases ho : m.lists[l]? with
  | none =>
    rw [Clear_none ho] at h
    exact absurd h (by simp)
  | some o =>
    obtain ⟨hs, hsz, hlt⟩ := hwf.1 l o ho
    obtain ⟨m2, h1, h2, -, -, -⟩ := Clear_spec ho hs hsz hlt
    rw [h1] at h
    injection h with h
    subst h
    exact ⟨h2, lists_get_lt ho⟩

theorem WF_operatorAssign {m m1 : Memory α} {own : Nat → List (Nat × α)} {this rhs : Nat}
    (hwf : WF m own) (h : operatorAssign m this rhs = some m1) : ∃ own1, WF m1 own1 := by
  simp only [operatorAssign] at h
  split at h
  · exact absurd h (by simp)
  · rename_i o ho
    split at h
    · rename_i hne
      simp only [Option.bind_eq_bind, Option.bind_eq_some, Option.some.injEq] at h
      obtain ⟨⟨t, ma⟩, hcopy, mb, hclear, b, hbegin, mc, hloop, md, hclear2, hfinal⟩ := h
      simp only at hclear hbegin hloop hclear2 hfinal
      obtain ⟨ds, hwa, -, -⟩ := WF_copyConstruct hwf hcopy
      have hwb := WF_Clear hwa hclear
      obtain ⟨hlb, hthis⟩ := Clear_lists hwa hclear
      have hob : mb.lists[this]? = some ⟨.null, 0⟩ := by
        rw [hlb]
        simp [List.getElem?_set, hthis]
      obtain ⟨orhs, horhs, hb⟩ := begin_eq_some hbegin
      subst hb
      obtain ⟨hsrc, -, hsrclt⟩ := hwb.1 rhs orhs horhs
      have hf : (Function.update (Function.update own m.lists.length ds) this [] rhs).length <
          mb.heap.length + 1 := Nat.lt_succ_of_le (isSeg_null_length_le hsrc)
      have hne2 : rhs ≠ this := fun e => hne e.symm
      rw [assignLoop_eq_constructLoop hob (by exact rfl) (lastOf_nil .null) hne2
        ⟨orhs, horhs, hsrc⟩ (by simp) hsrc (by simp) hf] at hloop
      obtain ⟨es, hwc, -, -⟩ := WF_build hwb hob (by simp) (by simpa using hsrclt) hloop
      have hwd := WF_Clear hwc hclear2
      subst hfinal
      exact ⟨_, WF_take t hwd⟩
    · injection h with h
      subst h
      exact ⟨own, hwf⟩

theorem WF_empty : WF (Memory.empty α) (fun _ => []) := by
  constructor
  · intro l o ho
    simp [Memory.empty] at ho
  · intro l k hl
    simp [Memory.empty] at hl

/-- Every reachable memory satisfies the ownership invariant. -/
theorem WF_of_reachable {m : Memory α} (h : Reachable m) : ∃ own, WF m own := by
  induction h with
  | empty => exact ⟨_, WF_empty⟩
  | construct _ ih =>
    obtain ⟨own, hwf⟩ := ih
    exact ⟨_, WF_construct hwf⟩
  | constructFrom _ h hfit ih =>
    obtain ⟨own, hwf⟩ := ih
    exact WF_constructFrom hwf h hfit
  | copyConstruct _ h ih =>
    obtain ⟨own, hwf⟩ := ih
    obtain ⟨ds, hds, -, -⟩ := WF_copyConstruct hwf h
    exact ⟨_, hds⟩
  | pushFront _ h hfit ih =>
    obtain ⟨own, hwf⟩ := ih
    exact WF_PushFront hwf h hfit
  | popFront _ h ih =>
    obtain ⟨own, hwf⟩ := ih
    exact WF_PopFront hwf h
  | insertAfter _ hv h hfit ih =>
    obtain ⟨own, hwf⟩ := ih
    exact WF_InsertAfter hwf hv h hfit
  | eraseAfter _ hv h ih =>
    obtain ⟨own, hwf⟩ := ih
    exact WF_EraseAfter hwf hv h
  | clear _ h ih =>
    obtain ⟨own, hwf⟩ := ih
    exact ⟨_, WF_Clear hwf h⟩
  | assign _ h ih =>
    obtain ⟨own, hwf⟩ := ih
    exact WF_operatorAssign hwf h
  | swap _ h ih =>
    obtain ⟨own, hwf⟩ := ih
    exact WF_swap_step hwf h

end Invariant

/-! ## The comparison operators -/

section Comparisons

variable {α : Type}

open SingleLinkedList

theorem operatorEq_some_of_chain (ne : α → α → Bool) {m : Memory α} {a b : Nat}
    {cs ds : List (Nat × α)} (ha : Chain m a cs) (hb : Chain m b ds) :
    ∃ e, operatorEq ne m a b = some e := by
  obtain ⟨oa, hoa, hsa⟩ := ha
  obtain ⟨ob, hob, hsb⟩ := hb
  exact ⟨_, operatorEq_of_chain ne hoa hob hsa hsb⟩

theorem operatorLe_eq (ne lt : α → α → Bool) {m : Memory α} {a b : Nat} {e l : Bool}
    (he : operatorEq ne m a b = some e) (hl : operatorLt lt m a b = some l) :
    operatorLe ne lt m a b = some (e || l) := by
  cases e <;> cases l <;> simp [operatorLe, he, hl]

theorem operatorGe_eq (ne lt : α → α → Bool) {m : Memory α} {a b : Nat} {e g : Bool}
    (he : operatorEq ne m a b = some e) (hg : operatorLt lt m b a = some g) :
    operatorGe ne lt m a b = some (e || g) := by
  cases e <;> cases g <;> simp [operatorGe, he, hg]

theorem pairsAgree_self (ne : α → α → Bool) (hirr : ∀ x, ne x x = false) (xs : List α) :
    pairsAgree ne xs xs = true := by
  induction xs with
  | nil => rfl
  | cons x xs ih => simp [pairsAgree, hirr, ih]

theorem pairsAgree_comm (ne : α → α → Bool) (hsymm : ∀ x y, ne x y = ne y x)
    (xs ys : List α) : pairsAgree ne xs ys = pairsAgree ne ys xs := by
  induction xs generalizing ys with
  | nil => cases ys <;> rfl
  | cons x xs ih =>
    cases ys with
    | nil => rfl
    | cons y ys => simp only [pairsAgree, hsymm x y, ih ys]

theorem pairsAgree_eq (ne : α → α → Bool) (hne : ∀ x y, x ≠ y → ne x y = true)
    {xs ys : List α} (hlen : xs.length = ys.length) (h : pairsAgree ne xs ys = true) :
    xs = ys := by
  induction xs generalizing ys with
  | nil =>
    cases ys with
    | nil => rfl
    | cons y ys => simp at hlen
  | cons x xs ih =>
    cases ys with
    | nil => simp at hlen
    | cons y ys =>
      simp only [List.length_cons, Nat.add_right_cancel_iff] at hlen
      simp only [pairsAgree] at h
      by_cases hxy : x = y
      · subst hxy
        by_cases hn : ne x x = true
        · simp [hn] at h
        · simp only [hn, Bool.false_eq_true, if_false] at h
          rw [ih hlen h]
      · simp [hne x y hxy] at h

/-- The three outcomes of the lexicographic comparison under a strict total order. -/
theorem lexicographicalCompare_trichotomy (lt : α → α → Bool) (hirr : ∀ x, lt x x = false)
    (htrans : ∀ x y z, lt x y = true → lt y z = true → lt x z = true)
    (htotal : ∀ x y, lt x y = true ∨ x = y ∨ lt y x = true) (xs ys : List α) :
    (lexicographicalCompare lt xs ys = true ∧ xs ≠ ys ∧
        lexicographicalCompare lt ys xs = false) ∨
    (lexicographicalCompare lt xs ys = false ∧ xs = ys ∧
        lexicographicalCompare lt ys xs = false) ∨
    (lexicographicalCompare lt xs ys = false ∧ xs ≠ ys ∧
        lexicographicalCompare lt ys xs = true) := by
  have hasymm : ∀ x y, lt x y = true → lt y x = false := by
    intro x y hxy
    by_contra hyx
    simp only [Bool.not_eq_false] at hyx
    have := htrans x y x hxy hyx
    rw [hirr x] at this
    exact absurd this (by simp)
  induction xs generalizing ys with
  | nil =>
    cases ys with
    | nil => exact Or.inr (Or.inl ⟨rfl, rfl, rfl⟩)
    | cons y ys => exact Or.inl ⟨rfl, by simp, rfl⟩
  | cons x xs ih =>
    cases ys with
    | nil => exact Or.inr (Or.inr ⟨rfl, by simp, rfl⟩)
    | cons y ys =>
      rcases htotal x y with hxy | hxy | hxy
      · refine Or.inl ⟨by simp [lexicographicalCompare, hxy], ?_, ?_⟩
        · intro e
          injection e with e1 e2
          subst e1
          rw [hirr x] at hxy
          exact absurd hxy (by simp)
        · simp [lexicographicalCompare, hxy, hasymm x y hxy]
      · subst hxy
        have e1 : ∀ zs ws : List α, lexicographicalCompare lt (x :: zs) (x :: ws) =
            lexicographicalCompare lt zs ws := by
          intro zs ws
          simp [lexicographicalCompare, hirr x]
        rw [e1, e1]
        rcases ih ys with h | h | h
        · exact Or.inl ⟨h.1, by simpa using h.2.1, h.2.2⟩
        · exact Or.inr (Or.inl ⟨h.1, by simpa using h.2.1, h.2.2⟩)
        · exact Or.inr (Or.inr ⟨h.1, by simpa using h.2.1, h.2.2⟩)
      · refine Or.inr (Or.inr ⟨by simp [lexicographicalCompare, hxy, hasymm y x hxy], ?_,
          by simp [lexicographicalCompare, hxy]⟩)
        intro e
        injection e with e1 e2
        subst e1
        rw [hirr x] at hxy
        exact absurd hxy (by simp)

/-- On lists whose `size_` is the length of their chain, `==` decides the equality of the
element sequences when the element `!=` is the negation of equality. -/
theorem operatorEq_eq_decide (ne : α → α → Bool) (hne : ∀ x y, ne x y = true ↔ x ≠ y)
    {m : Memory α} {a b : Nat} {xs ys : List α}
    (hxa : traverse m a = some xs) (hna : GetSize m a = some xs.length)
    (hxb : traverse m b = some ys) (hnb : GetSize m b = some ys.length) :
    ∃ e, operatorEq ne m a b = some e ∧ (e = true ↔ xs = ys) := by
  obtain ⟨cs, ⟨oa, hoa, hsa⟩, hva⟩ := traverse_eq_some_iff.1 hxa
  obtain ⟨ds, ⟨ob, hob, hsb⟩, hvb⟩ := traverse_eq_some_iff.1 hxb
  obtain ⟨o1, ho1, hsz1⟩ := getSize_eq_some hna
  obtain ⟨o2, ho2, hsz2⟩ := getSize_eq_some hnb
  rw [hoa] at ho1
  rw [hob] at ho2
  injection ho1 with ho1
  injection ho2 with ho2
  subst ho1 ho2
  have h := operatorEq_of_chain ne hoa hob hsa hsb
  rw [hva, hvb, hsz1, hsz2] at h
  refine ⟨_, h, ?_⟩
  have hirr : ∀ x, ne x x = false := by
    intro x
    by_contra hx
    simp only [Bool.not_eq_false] at hx
    exact (hne x x).1 hx rfl
  by_cases hlen : xs.length = ys.length
  · simp only [hlen, ne_eq, not_true_eq_false, if_false]
    constructor
    · exact pairsAgree_eq ne (fun x y hxy => (hne x y).2 hxy) hlen
    · intro e
      subst e
      exact pairsAgree_self ne hirr xs
  · simp only [ne_eq, hlen, not_false_eq_true, if_true, Bool.false_eq_true, false_iff]
    intro e
    exact hlen (by rw [e])

theorem operatorEq_of_traverse (ne : α → α → Bool) {m : Memory α} {a b : Nat}
    {xs ys : List α} {n k : Nat}
    (hxa : traverse m a = some xs) (hna : GetSize m a = some n)
    (hxb : traverse m b = some ys) (hnb : GetSize m b = some k) :
    operatorEq ne m a b = some (if n ≠ k then false else pairsAgree ne xs ys) := by
  obtain ⟨cs, ⟨oa, hoa, hsa⟩, hva⟩ := traverse_eq_some_iff.1 hxa
  obtain ⟨ds, ⟨ob, hob, hsb⟩, hvb⟩ := traverse_eq_some_iff.1 hxb
  obtain ⟨o1, ho1, hsz1⟩ := getSize_eq_some hna
  obtain ⟨o2, ho2, hsz2⟩ := getSize_eq_some hnb
  rw [hoa] at ho1
  rw [hob] at ho2
  injection ho1 with ho1
  injection ho2 with ho2
  subst ho1 ho2
  rw [operatorEq_of_chain ne hoa hob hsa hsb, hva, hvb, hsz1, hsz2]

end Comparisons

/-! ## Insertion and erasure at a position -/

section Positions

variable {α : Type}

open SingleLinkedList

theorem advance_chain_index {m : Memory α} {cs : List (Nat × α)} {p : NodePtr} {k : Nat}
    {pos : BasicIterator} (hs : IsSeg m.heap p cs .null) (hk : k < cs.length)
    (h : advance m k ⟨p⟩ = some pos) :
    ∃ pre c post, cs = pre ++ c :: post ∧ pre.length = k ∧ pos = ⟨.heap c.1⟩ := by
  induction k generalizing p cs with
  | zero =>
    cases cs with
    | nil => simp at hk
    | cons c cs =>
      simp only [advance, Option.some.injEq] at h
      subst h
      exact ⟨[], c, cs, rfl, rfl, by rw [hs.1]⟩
  | succ k ih =>
    cases cs with
    | nil => simp at hk
    | cons c cs =>
      obtain ⟨hp, r, hr, hs2⟩ := hs
      subst hp
      simp only [advance, BasicIterator.inc, nextOf_heap hr, Option.map_some'] at h
      simp only [List.length_cons, Nat.add_lt_add_iff_right] at hk
      obtain ⟨pre, d, post, h1, h2, h3⟩ := ih hs2 hk h
      exact ⟨c :: pre, d, post, by rw [h1]; rfl, by simp [h2], h3⟩

theorem advance_before_begin_succ {m : Memory α} {l : Nat} {o : SingleLinkedList} (k : Nat)
    (ho : m.lists[l]? = some o) :
    advance m (k + 1) (before_begin l) = advance m k ⟨o.head_next⟩ := by
  simp [advance, BasicIterator.inc, before_begin, nextOf_head ho]

theorem isSeg_insert {h : List (Option (Node α))} {p : NodePtr} {pre post : List (Nat × α)}
    {c : Nat × α} (v : α) (hs : IsSeg h p (pre ++ c :: post) .null) :
    ∃ r, h[c.1]? = some (some ⟨c.2, r⟩) ∧
      IsSeg ((h ++ [some (Node.mk v r)]).set c.1 (some ⟨c.2, .heap h.length⟩)) p
        (pre ++ c :: (h.length, v) :: post) .null := by
  have hnd := isSeg_null_nodup hs
  have hlt := isSeg_addr_lt hs
  obtain ⟨hn1, hn2, -⟩ := nodup_split hnd
  obtain ⟨t, hpre, hc⟩ := isSeg_append.1 hs
  obtain ⟨ht, r, hr, hpost⟩ := hc
  subst ht
  have hclt := heap_get_lt hr
  refine ⟨r, hr, isSeg_append.2 ⟨.heap c.1, ?_, rfl, .heap h.length, ?_, rfl, r, ?_, ?_⟩⟩
  · refine isSeg_congr (fun a ha => ?_) hpre
    have h3 : a < h.length := hlt a (by simp [ha])
    have h4 : c.1 ≠ a := fun e => hn1 (e ▸ ha)
    simp [List.getElem?_set, h4, List.getElem?_append_left h3]
  · have e : c.1 < (h ++ [some (Node.mk v r)]).length := by
      simp only [List.length_append, List.length_singleton]
      omega
    rw [List.getElem?_set]
    simp only [if_true, e]
  · have h4 : c.1 ≠ h.length := by omega
    simp [List.getElem?_set, h4]
  · refine isSeg_congr (fun a ha => ?_) hpost
    have h3 : a < h.length := hlt a (by simp [ha])
    have h4 : c.1 ≠ a := fun e => hn2 (e ▸ ha)
    simp [List.getElem?_set, h4, List.getElem?_append_left h3]

theorem isSeg_erase {h : List (Option (Node α))} {p : NodePtr} {pre post : List (Nat × α)}
    {c d : Nat × α} (hs : IsSeg h p (pre ++ c :: d :: post) .null) :
    ∃ t, h[c.1]? = some (some ⟨c.2, .heap d.1⟩) ∧ h[d.1]? = some (some ⟨d.2, t⟩) ∧
      c.1 ≠ d.1 ∧ IsSeg h t post .null ∧
      IsSeg ((h.set c.1 (some ⟨c.2, t⟩)).set d.1 none) p (pre ++ c :: post) .null := by
  have hnd := isSeg_null_nodup hs
  obtain ⟨hn1, hn2, hn3⟩ := nodup_split hnd
  obtain ⟨q, hpre, hc⟩ := isSeg_append.1 hs
  obtain ⟨hq, r, hr, hpost⟩ := hc
  subst hq
  obtain ⟨hrd, t, hd, hpost2⟩ := hpost
  subst hrd
  have hcd : c.1 ≠ d.1 := by
    intro e
    apply hn2
    simp [e]
  have hnd2 : d.1 ∉ addrs post := by
    have := isSeg_null_nodup (isSeg_cons_iff.2 ⟨rfl, t, hd, hpost2⟩)
    simp only [addrs_cons, List.nodup_cons] at this
    exact this.1
  have hclt := heap_get_lt hr
  refine ⟨t, hr, hd, hcd, hpost2, isSeg_append.2 ⟨.heap c.1, ?_, rfl, t, ?_, ?_⟩⟩
  · refine isSeg_congr (fun a ha => ?_) hpre
    have h4 : c.1 ≠ a := fun e => hn1 (e ▸ ha)
    have h5 : d.1 ≠ a := fun e => hn3 a ha (by simp [e])
    simp [List.getElem?_set, h4, h5]
  · have h5 : d.1 ≠ c.1 := fun e => hcd e.symm
    simp [List.getElem?_set, h5, hclt]
  · refine isSeg_congr (fun a ha => ?_) hpost2
    have h4 : c.1 ≠ a := fun e => hn2 (by simp [e ▸ ha])
    have h5 : d.1 ≠ a := fun e => hnd2 (e ▸ ha)
    simp [List.getElem?_set, h4, h5]

theorem take_succ_append (pre post : List α) (c : α) :
    (pre ++ c :: post).take (pre.length + 1) = pre ++ [c] := by
  induction pre with
  | nil => simp
  | cons x pre ih => simp [ih]

theorem drop_succ_append (pre post : List α) (c : α) :
    (pre ++ c :: post).drop (pre.length + 1) = post := by
  induction pre with
  | nil => simp
  | cons x pre ih => simp [ih]

theorem eraseIdx_succ_append (pre post : List α) (c d : α) :
    (pre ++ c :: d :: post).eraseIdx (pre.length + 1) = pre ++ c :: post := by
  induction pre with
  | nil => simp
  | cons x pre ih => simp [ih]

theorem getElem?_succ_append (pre post : List α) (c : α) (i : Nat) :
    (pre ++ c :: post)[pre.length + 1 + i]? = post[i]? := by
  induction pre with
  | nil => simp [Nat.add_comm]
  | cons x pre ih =>
    have : (x :: pre).length + 1 + i = (pre.length + 1 + i) + 1 := by
      simp only [List.length_cons]
      omega
    rw [this, List.cons_append, List.getElem?_cons_succ, ih]

theorem isSeg_suffix {h : List (Option (Node α))} {p : NodePtr} {pre post : List (Nat × α)}
    {c : Nat × α} (hs : IsSeg h p (pre ++ c :: post) .null) :
    ∃ r, h[c.1]? = some (some ⟨c.2, r⟩) ∧ IsSeg h r post .null := by
  obtain ⟨q, -, hc⟩ := isSeg_append.1 hs
  obtain ⟨-, r, hr, hpost⟩ := hc
  exact ⟨r, hr, hpost⟩

theorem deref_of_isSeg {m : Memory α} {p : NodePtr} {cs : List (Nat × α)}
    (hs : IsSeg m.heap p cs .null) : BasicIterator.deref m ⟨p⟩ = (vals cs)[0]? := by
  cases cs with
  | nil =>
    simp only [IsSeg] at hs
    subst hs
    simp [BasicIterator.deref, valueOf]
  | cons c cs =>
    obtain ⟨hp, r, hr, -⟩ := hs
    subst hp
    simp [BasicIterator.deref, valueOf_heap hr]

theorem end_of_isSeg_nil {m : Memory α} {l : Nat} {o : SingleLinkedList} {cs : List (Nat × α)}
    {t : NodePtr} (ho : m.lists[l]? = some o) (hs : IsSeg m.heap o.head_next cs .null)
    (ht : IsSeg m.heap t [] .null) : end_ m l = some ⟨t⟩ := by
  simp only [IsSeg] at ht
  subst ht
  exact end_of_chain ⟨o, ho, hs⟩

end Positions

/-! ## Copies -/

section Copies

variable {α : Type}

open SingleLinkedList

theorem WF_congr {m : Memory α} {own own1 : Nat → List (Nat × α)} (hwf : WF m own)
    (h : ∀ l, l < m.lists.length → own1 l = own l) : WF m own1 := by
  obtain ⟨hch, hdj⟩ := hwf
  constructor
  · intro l o ho
    rw [h l (lists_get_lt ho)]
    exact hch l o ho
  · intro l k hl hk hlk
    rw [h l hl, h k hk]
    exact hdj l k hl hk hlk

theorem WF_observe {m : Memory α} {own : Nat → List (Nat × α)} {l : Nat} (hwf : WF m own)
    (hl : l < m.lists.length) :
    traverse m l = some (vals (own l)) ∧ GetSize m l = some (own l).length := by
  have ho : m.lists[l]? = some m.lists[l] := List.getElem?_eq_getElem hl
  obtain ⟨hs, hsz, -⟩ := hwf.1 l _ ho
  refine ⟨traverse_of_chain ⟨_, ho, hs⟩, ?_⟩
  simp only [GetSize]
  rw [getSize_eq ho, hsz]

theorem traverse_lt {m : Memory α} {l : Nat} {xs : List α} (h : traverse m l = some xs) :
    l < m.lists.length := by
  obtain ⟨cs, ⟨o, ho, -⟩, -⟩ := traverse_eq_some_iff.1 h
  exact lists_get_lt ho

/-- Building a list from values on an empty list object of a well-formed memory succeeds
and preserves the invariant. -/
theorem build_spec {vs : List α} {m : Memory α} {own : Nat → List (Nat × α)} {this : Nat}
    {o : SingleLinkedList} (hwf : WF m own) (ho : m.lists[this]? = some o)
    (hempty : own this = []) (hsz : vs.length < SIZE_MOD) :
    ∃ m1 ds, constructLoop this vs .null m = some m1 ∧
      WF m1 (Function.update own this ds) ∧ vals ds = vs ∧
      m1.lists.length = m.lists.length := by
  obtain ⟨hs, hsize, -⟩ := hwf.1 this o ho
  rw [hempty] at hs hsize
  simp only [List.length_nil] at hsize
  obtain ⟨m1, p, ds, h1, -⟩ :=
    constructLoop_spec vs ho hs (lastOf_nil .null) (by rw [hsize]; simpa using hsz)
  obtain ⟨es, h2, h3, h4⟩ := WF_build hwf ho hempty hsz h1
  exact ⟨m1, es, h1, h2, h3, h4⟩

/-- The copy constructor on a list of a well-formed memory succeeds; the new object owns
fresh cells holding the values of `other`. -/
theorem copyConstruct_spec {m : Memory α} {own : Nat → List (Nat × α)} {other : Nat}
    {oo : SingleLinkedList} (hwf : WF m own) (hoo : m.lists[other]? = some oo) :
    ∃ m1 ds, copyConstruct m other = some (m.lists.length, m1) ∧
      WF m1 (Function.update own m.lists.length ds) ∧ vals ds = vals (own other) ∧
      m1.lists.length = m.lists.length + 1 := by
  have hother := lists_get_lt hoo
  have hne : other ≠ m.lists.length := by omega
  have hwf0 := WF_construct hwf
  have hoo0 : (construct m).2.lists[other]? = some oo := by
    simp only [construct]
    rw [List.getElem?_append_left hother, hoo]
  obtain ⟨hsrc, -, hsrclt⟩ := hwf0.1 other oo hoo0
  rw [Function.update_noteq hne] at hsrc hsrclt
  have ho : (construct m).2.lists[m.lists.length]? = some ⟨.null, 0⟩ := by
    simp [construct]
  have hf : (own other).length < (construct m).2.heap.length + 1 :=
    Nat.lt_succ_of_le (isSeg_null_length_le hsrc)
  have heq := @copyLoop_eq_constructLoop α (own other) (construct m).2 m.lists.length
    ⟨.null, 0⟩ [] .null oo.head_next ((construct m).2.heap.length + 1) ho rfl
    (lastOf_nil .null) hsrc (by simp) hf
  obtain ⟨m1, ds, h1, h2, h3, h4⟩ :=
    @build_spec α (vals (own other)) (construct m).2 _ m.lists.length _ hwf0 ho (by simp)
      (by simpa using hsrclt)
  refine ⟨m1, ds, ?_, ?_, h3, ?_⟩
  · simp only [copyConstruct, nextOf_head hoo0]
    have e1 : (construct m).1 = m.lists.length := rfl
    rw [e1, heq, h1]
    rfl
  · simpa using h2
  · rw [h4]
    simp [construct]

theorem Clear_exists {m : Memory α} {own : Nat → List (Nat × α)} {l : Nat}
    (hwf : WF m own) (hl : l < m.lists.length) :
    ∃ m1, Clear m l = some m1 ∧ WF m1 (Function.update own l []) ∧
      m1.lists = m.lists.set l ⟨.null, 0⟩ ∧ m1.heap.length = m.heap.length := by
  have ho : m.lists[l]? = some m.lists[l] := List.getElem?_eq_getElem hl
  obtain ⟨hs, hsz, hlt⟩ := hwf.1 l _ ho
  obtain ⟨m1, h1, h2, h3, -, -⟩ := Clear_spec ho hs hsz hlt
  exact ⟨m1, h1, WF_Clear hwf h1, h2, h3⟩

/-- The copy assignment between two different list objects of a well-formed memory
succeeds; afterwards `this` owns fresh cells holding the values of `rhs`, and every other
list object owns the chain it owned before. -/
theorem operatorAssign_spec {m : Memory α} {own : Nat → List (Nat × α)} {this rhs : Nat}
    (hwf : WF m own) (hne : this ≠ rhs) (hthis : this < m.lists.length)
    (hrhs : rhs < m.lists.length) :
    ∃ m1 es, operatorAssign m this rhs = some m1 ∧
      WF m1 (Function.update own this es) ∧ vals es = vals (own rhs) ∧
      m1.lists.length = m.lists.length := by
  have hot : m.lists[this]? = some m.lists[this] := List.getElem?_eq_getElem hthis
  have hor : m.lists[rhs]? = some m.lists[rhs] := List.getElem?_eq_getElem hrhs
  have hne2 : rhs ≠ this := fun e => hne e.symm
  have hn1 : this ≠ m.lists.length := by omega
  have hn2 : rhs ≠ m.lists.length := by omega
  obtain ⟨ma, ds, hcopy, hwa, -, hlena⟩ := copyConstruct_spec hwf hor
  obtain ⟨mb, hclear, hwb, hlb, -⟩ := Clear_exists hwa (by omega : this < ma.lists.length)
  have hlenb : mb.lists.length = m.lists.length + 1 := by rw [hlb]; simpa using hlena
  have hob : mb.lists[this]? = some ⟨.null, 0⟩ := by
    rw [hlb]
    simp only [List.getElem?_set, if_true]
    rw [if_pos (by omega)]
  have horb : mb.lists[rhs]? = some mb.lists[rhs] :=
    List.getElem?_eq_getElem (by omega)
  obtain ⟨hsrc, -, hsrclt⟩ := hwb.1 rhs _ horb
  rw [Function.update_noteq hne2, Function.update_noteq hn2] at hsrc hsrclt
  have hf : (own rhs).length < mb.heap.length + 1 :=
    Nat.lt_succ_of_le (isSeg_null_length_le hsrc)
  have heq := @assignLoop_eq_constructLoop α (own rhs) mb this rhs ⟨.null, 0⟩ []
    (own rhs) .null (mb.lists[rhs]).head_next (mb.heap.length + 1) hob rfl
    (lastOf_nil .null) hne2 ⟨_, horb, hsrc⟩ (by simp) hsrc (by simp) hf
  obtain ⟨mc, es, hloop, hwc, hves, hlenc⟩ :=
    @build_spec α (vals (own rhs)) mb _ this _ hwb hob (by simp) (by simpa using hsrclt)
  obtain ⟨md, hclear2, hwd, hld, -⟩ :=
    Clear_exists hwc (by omega : m.lists.length < mc.lists.length)
  have hlend : md.lists.length = m.lists.length + 1 := by
    rw [hld]
    simp only [List.length_set]
    omega
  refine ⟨{ md with lists := md.lists.take m.lists.length }, es, ?_, ?_, hves, ?_⟩
  · simp only [operatorAssign, hot, ne_eq, hne, not_false_eq_true, if_true, hcopy,
      Option.bind_eq_bind, Option.some_bind, hclear, begin_of_chain horb, heq, hloop,
      hclear2]
  · refine WF_congr (WF_take m.lists.length hwd) ?_
    intro l hl
    simp only [List.length_take] at hl
    have hl2 : l ≠ m.lists.length := by omega
    rw [Function.update_noteq hl2]
    by_cases hlt : l = this
    · subst hlt
      simp
    · rw [Function.update_noteq hlt, Function.update_noteq hlt, Function.update_noteq hlt,
        Function.update_noteq hl2]
  · simp only [List.length_take]
    omega

theorem operatorAssign_self {m : Memory α} {this : Nat} {o : SingleLinkedList}
    (ho : m.lists[this]? = some o) : operatorAssign m this this = some m := by
  simp [operatorAssign, ho]

theorem wellFormed_of_reachable {m : Memory α} (h : Reachable m) : WellFormed m :=
  WF_of_reachable h

theorem reachable_memTwo : Reachable memTwo := by
  have h1 : Reachable memOne :=
    Reachable.constructFrom Reachable.empty
      (by decide : constructFrom (Memory.empty Int) [1, 2] = some (0, memOne))
      (by unfold Fits SIZE_MOD; decide)
  exact Reachable.constructFrom h1
    (by decide : constructFrom memOne [1, 2, 3] = some (1, memTwo))
    (by unfold Fits SIZE_MOD; decide)

theorem pairsAgree_self_of_mem (ne : α → α → Bool) (xs : List α)
    (hirr : ∀ x, x ∈ xs → ne x x = false) : pairsAgree ne xs xs = true := by
  induction xs with
  | nil => rfl
  | cons x xs ih =>
    simp only [pairsAgree, hirr x (by simp), Bool.false_eq_true, if_false]
    exact ih (fun y hy => hirr y (by simp [hy]))

/-- What a list object that holds a copy of the values of `a` looks like from outside. -/
theorem copy_observe (ne : α → α → Bool) {m1 : Memory α} {own1 : Nat → List (Nat × α)}
    {c a : Nat} {xs : List α} (hw1 : WF m1 own1) (hc : c < m1.lists.length)
    (ha : a < m1.lists.length) (hvc : vals (own1 c) = xs) (hva : vals (own1 a) = xs)
    (hirr : ∀ x, x ∈ xs → ne x x = false) :
    traverse m1 c = some xs ∧ GetSize m1 c = some xs.length ∧
      operatorEq ne m1 c a = some true ∧
      traverse m1 a = some xs ∧ GetSize m1 a = some xs.length := by
  obtain ⟨h1, h2⟩ := WF_observe hw1 hc
  obtain ⟨h3, h4⟩ := WF_observe hw1 ha
  have e1 : (own1 c).length = xs.length := by rw [← hvc]; simp
  have e2 : (own1 a).length = xs.length := by rw [← hva]; simp
  rw [hvc] at h1
  rw [hva] at h3
  rw [e1] at h2
  rw [e2] at h4
  refine ⟨h1, h2, ?_, h3, h4⟩
  rw [operatorEq_of_traverse ne h1 h2 h3 h4]
  simp [pairsAgree_self_of_mem ne xs hirr]

theorem setValue_heap_eq {m : Memory α} {a : Nat} {w : α} {r : NodePtr} (v : α)
    (ha : m.heap[a]? = some (some ⟨w, r⟩)) :
    setValue m (.heap a) v = some { m with heap := m.heap.set a (some ⟨v, r⟩) } := by
  simp [setValue, ha]

theorem WF_setValue_update {m m1 : Memory α} {own : Nat → List (Nat × α)} {l : Nat}
    {pos : BasicIterator} {v : α} (hwf : WF m own) (hv : ValidPos m l pos)
    (h : setValue m pos.node_ v = some m1) :
    ∃ cs1, WF m1 (Function.update own l cs1) ∧ m1.lists.length = m.lists.length := by
  cases ho : m.lists[l]? with
  | none =>
    rw [validPos_of_no_list ho hv] at h
    simp [before_begin, setValue] at h
  | some o =>
    obtain ⟨hs, hsz, hlt⟩ := hwf.1 l o ho
    rcases validPos_cases ⟨o, ho, hs⟩ hv with hpos | ⟨a, ha, hpos⟩
    · subst hpos
      simp [before_begin, setValue] at h
    · subst hpos
      obtain ⟨pre, c, post, hsplit, hca⟩ := mem_addrs_split ha
      subst hca
      have hnd := isSeg_null_nodup hs
      rw [hsplit] at hs hnd hsz hlt
      obtain ⟨hn1, hn2, -⟩ := nodup_split hnd
      obtain ⟨t, hpre, hc⟩ := isSeg_append.1 hs
      obtain ⟨ht, r, hr, hpost⟩ := hc
      subst ht
      have hclt := heap_get_lt hr
      simp only at h
      rw [setValue_heap_eq v hr] at h
      injection h with h
      subst h
      have hc1 : IsSeg (m.heap.set c.1 (some ⟨v, r⟩)) o.head_next
          (pre ++ (c.1, v) :: post) .null := by
        refine isSeg_append.2 ⟨.heap c.1, ?_, rfl, r, ?_, ?_⟩
        · exact isSeg_set _ hn1 hpre
        · simp [List.getElem?_set, hclt]
        · exact isSeg_set _ hn2 hpost
      refine ⟨_, WF_update _ hwf (lists_get_lt ho) (lists_set_self ho).symm hc1 ?_ ?_ ?_ ?_,
        rfl⟩
      · rw [hsz]
        simp
      · simpa using hlt
      · intro a ha
        rw [hsplit]
        simp only [addrs_append, addrs_cons, List.mem_append, List.mem_cons] at ha ⊢
        exact Or.inl ha
      · intro a _ hmem
        have h4 : c.1 ≠ a := by
          intro e
          apply hmem
          rw [hsplit]
          simp [e]
        simp [List.getElem?_set, h4]

/-- One mutating operation on the list `c` rebuilds the chain of `c` only. -/
theorem WF_mutates {m m1 : Memory α} {own : Nat → List (Nat × α)} {c : Nat}
    (hwf : WF m own) (h : Mutates c m m1) :
    ∃ cs1, WF m1 (Function.update own c cs1) ∧ m1.lists.length = m.lists.length := by
  cases h with
  | pushFront h hfit => exact WF_PushFront_update hwf h hfit
  | popFront h => exact WF_PopFront_update hwf h
  | insertAfter hv h hfit => exact WF_InsertAfter_update hwf hv h hfit
  | eraseAfter hv h => exact WF_EraseAfter_update hwf hv h
  | clear h =>
    obtain ⟨h2, -⟩ := Clear_lists hwf h
    exact ⟨[], WF_Clear hwf h, by rw [h2]; simp⟩
  | write hv h => exact WF_setValue_update hwf hv h

/-- A sequence of mutating operations on the list `c` leaves the chain of every other list
as it was. -/
theorem WF_mutatesSeq {m m2 : Memory α} {own : Nat → List (Nat × α)} {c a : Nat}
    (hwf : WF m own) (hac : a ≠ c) (h : MutatesSeq c m m2) :
    ∃ own2, WF m2 own2 ∧ own2 a = own a ∧ m2.lists.length = m.lists.length := by
  induction h generalizing own with
  | done => exact ⟨own, hwf, rfl, rfl⟩
  | step hstep _ ih =>
    obtain ⟨cs1, hw1, hlen1⟩ := WF_mutates hwf hstep
    obtain ⟨own2, hw2, ha2, hlen2⟩ := ih hw1
    exact ⟨own2, hw2, by rw [ha2, Function.update_noteq hac], by rw [hlen2, hlen1]⟩

theorem reachFrom_of_isSeg {m : Memory α} {cs : List (Nat × α)} {p : NodePtr} {fuel : Nat}
    (h : IsSeg m.heap p cs .null) (hf : cs.length < fuel) :
    reachFrom m fuel p = some (addrs cs) := by
  induction cs generalizing p fuel with
  | nil =>
    simp only [IsSeg] at h
    cases fuel with
    | zero => simp at hf
    | succ fuel => simp [reachFrom, h]
  | cons c cs ih =>
    obtain ⟨hp, r, hr, hs⟩ := h
    cases fuel with
    | zero => simp at hf
    | succ fuel =>
      simp only [List.length_cons, Nat.add_lt_add_iff_right] at hf
      simp [reachFrom, hp, nextOf_heap hr, ih hs hf]

theorem reachableAddrs_of_WF {m : Memory α} {own : Nat → List (Nat × α)} {l : Nat}
    (hwf : WF m own) (hl : l < m.lists.length) :
    reachableAddrs m l = some (addrs (own l)) := by
  have ho : m.lists[l]? = some m.lists[l] := List.getElem?_eq_getElem hl
  obtain ⟨hs, -, -⟩ := hwf.1 l _ ho
  simp only [reachableAddrs, nextOf_head ho]
  exact reachFrom_of_isSeg hs (Nat.lt_succ_of_le (isSeg_null_length_le hs))

end Copies

/-! ## The claims -/

section Claims

variable {α : Type}

open SingleLinkedList

/-- C3: for every list (its traversal yields `xs`, its size is a `size_t` value `n`) and
every value `v`, `PushFront(v)` followed by `PopFront()` succeeds and leaves the list with
the same element sequence and the same `GetSize()`. -/
theorem pushFront_popFront_restores (m : Memory α) (l : Nat) (v : α) (xs : List α) (n : Nat)
    (hx : traverse m l = some xs) (hn : GetSize m l = some n) (hlt : n < SIZE_MOD) :
    ∃ m1 m2, PushFront m l v = some m1 ∧ PopFront m1 l = some m2 ∧
      traverse m2 l = some xs ∧ GetSize m2 l = some n := by
  obtain ⟨cs, ⟨o, ho, hs⟩, hv⟩ := traverse_eq_some_iff.1 hx
  obtain ⟨o1, ho1, hsz⟩ := getSize_eq_some hn
  rw [ho] at ho1
  injection ho1 with ho1
  subst ho1
  have h1 := PushFront_eq v ho
  have hl1 := lists_set_get (x := ⟨.heap m.heap.length, incSize o.size_⟩) ho
  have hcell : (m.heap ++ [some (Node.mk v o.head_next)])[m.heap.length]? =
      some (some ⟨v, o.head_next⟩) := by simp
  have h2 := PopFront_eq (m := ⟨m.heap ++ [some (Node.mk v o.head_next)],
      m.lists.set l ⟨.heap m.heap.length, incSize o.size_⟩⟩) hl1 rfl hcell
  refine ⟨_, _, h1, h2, ?_, ?_⟩
  · rw [← hv]
    apply traverse_of_chain
    refine chain_congr hs (lists_set_get hl1) rfl ?_
    intro a ha
    have ha1 := isSeg_addr_lt hs a ha
    simp only [List.length_append, List.length_singleton]
    have e1 : m.heap.length + 1 ≠ a := by omega
    have e2 : m.heap.length ≠ a := by omega
    have e3 : a < (m.heap ++ [some (Node.mk v o.head_next)]).length := by simp; omega
    simp [List.getElem?_set, e1, e2, List.getElem?_append_left e3,
      List.getElem?_append_left ha1]
  · simp only [GetSize]
    rw [getSize_eq (lists_set_get hl1)]
    simp only
    rw [decSize_incSize (hsz ▸ hlt), hsz]

/-- Witness of C3 on the list `{1, 2, 3}`. -/
theorem pushFront_popFront_restores_witness :
    ∃ m1 m2, PushFront mem123 0 7 = some m1 ∧ PopFront m1 0 = some m2 ∧
      traverse m2 0 = some [1, 2, 3] ∧ GetSize m2 0 = some 3 :=
  pushFront_popFront_restores mem123 0 7 [1, 2, 3] 3 (by decide) (by decide) (by decide)

/-- C4: `InsertAfter(before_begin(), v)` and `PushFront(v)` produce the same memory; on a
list holding `xs` with `GetSize() = n` (and `n + 1` a `size_t` value) both succeed, the list
then holds `v` followed by `xs`, and its size is `n + 1`. -/
theorem insertAfter_before_begin_eq_pushFront (m : Memory α) (l : Nat) (v : α) :
    (InsertAfter m l (before_begin l) v).map Prod.snd = PushFront m l v ∧
    ∀ xs n, traverse m l = some xs → GetSize m l = some n → n + 1 < SIZE_MOD →
      ∃ it m1, InsertAfter m l (before_begin l) v = some (it, m1) ∧
        PushFront m l v = some m1 ∧
        traverse m1 l = some (v :: xs) ∧ GetSize m1 l = some (n + 1) := by
  constructor
  · exact insertAfter_head_map m l v
  · intro xs n hx hn hlt
    obtain ⟨cs, ⟨o, ho, hs⟩, hv⟩ := traverse_eq_some_iff.1 hx
    obtain ⟨o1, ho1, hsz⟩ := getSize_eq_some hn
    rw [ho] at ho1
    injection ho1 with ho1
    subst ho1
    refine ⟨_, _, InsertAfter_head_eq v ho, PushFront_eq v ho, ?_, ?_⟩
    · have hc : @Chain α ⟨m.heap ++ [some (Node.mk v o.head_next)],
          m.lists.set l ⟨.heap m.heap.length, incSize o.size_⟩⟩ l
          ((m.heap.length, v) :: cs) := by
        refine ⟨_, lists_set_get ho, rfl, o.head_next, ?_, isSeg_append_heap _ hs⟩
        simp
      rw [traverse_of_chain hc, vals_cons, hv]
    · simp only [GetSize]
      rw [getSize_eq (lists_set_get ho)]
      simp only
      rw [hsz, incSize_of_lt hlt]

/-- Witness of C4 on the list `{1, 2, 3}`. -/
theorem insertAfter_before_begin_eq_pushFront_witness :
    ∃ it m1, InsertAfter mem123 0 (before_begin 0) 7 = some (it, m1) ∧
      PushFront mem123 0 7 = some m1 ∧
      traverse m1 0 = some [7, 1, 2, 3] ∧ GetSize m1 0 = some 4 :=
  (insertAfter_before_begin_eq_pushFront mem123 0 7).2 [1, 2, 3] 3
    (by decide) (by decide) (by decide)

/-- C5: on a non-empty list (holding `x :: xs`, with `GetSize() = n`, `0 < n` a `size_t`
value) `EraseAfter(before_begin())` and `PopFront()` both succeed and leave the same list
object: the list holds `xs` and its size is `n - 1` after either call. -/
theorem eraseAfter_before_begin_eq_popFront (m : Memory α) (l : Nat) (x : α) (xs : List α)
    (n : Nat) (hx : traverse m l = some (x :: xs)) (hn : GetSize m l = some n)
    (h0 : 0 < n) (hlt : n < SIZE_MOD) :
    ∃ it m1 m2, EraseAfter m l (before_begin l) = some (it, m1) ∧ PopFront m l = some m2 ∧
      m1.lists = m2.lists ∧
      traverse m1 l = some xs ∧ GetSize m1 l = some (n - 1) ∧
      traverse m2 l = some xs ∧ GetSize m2 l = some (n - 1) := by
  obtain ⟨cs, ⟨o, ho, hs⟩, hv⟩ := traverse_eq_some_iff.1 hx
  obtain ⟨o1, ho1, hsz⟩ := getSize_eq_some hn
  rw [ho] at ho1
  injection ho1 with ho1
  subst ho1
  cases cs with
  | nil => simp at hv
  | cons c ds =>
    have hnd := isSeg_null_nodup hs
    obtain ⟨hp, r, hr, hds⟩ := hs
    simp only [vals_cons, List.cons.injEq] at hv
    simp only [addrs_cons, List.nodup_cons] at hnd
    refine ⟨_, _, _, EraseAfter_head_eq ho hp hr, PopFront_eq ho hp hr, rfl, ?_, ?_, ?_, ?_⟩
    · rw [← hv.2]
      exact traverse_of_chain ⟨_, lists_set_get ho, isSeg_set none hnd.1 hds⟩
    · simp only [GetSize]
      rw [getSize_eq (lists_set_get ho)]
      simp only
      rw [hsz, decSize_of_pos h0 hlt]
    · rw [← hv.2]
      apply traverse_of_chain
      refine chain_congr hds (lists_set_get ho) rfl ?_
      intro a ha
      exact getElem?_append_set_left (isSeg_addr_lt hds a ha)
    · simp only [GetSize]
      rw [getSize_eq (lists_set_get ho)]
      simp only
      rw [hsz, decSize_of_pos h0 hlt]

/-- Witness of C5 on the list `{1, 2, 3}`. -/
theorem eraseAfter_before_begin_eq_popFront_witness :
    ∃ it m1 m2, EraseAfter mem123 0 (before_begin 0) = some (it, m1) ∧
      PopFront mem123 0 = some m2 ∧ m1.lists = m2.lists ∧
      traverse m1 0 = some [2, 3] ∧ GetSize m1 0 = some (3 - 1) ∧
      traverse m2 0 = some [2, 3] ∧ GetSize m2 0 = some (3 - 1) :=
  eraseAfter_before_begin_eq_popFront mem123 0 1 [2, 3] 3
    (by decide) (by decide) (by decide) (by decide)

/-- C6: on a list whose `size_` equals the number of nodes of its chain, `Clear()` ends and
afterwards `GetSize()` is 0, `IsEmpty()` is true, the sentinel's next link is null and
`begin() == end()`. -/
theorem clear_empties (m : Memory α) (l : Nat) (xs : List α)
    (hx : traverse m l = some xs) (hn : GetSize m l = some xs.length)
    (hlt : xs.length < SIZE_MOD) :
    ∃ m1, Clear m l = some m1 ∧ GetSize m1 l = some 0 ∧ SingleLinkedList.IsEmpty m1 l = some true ∧
      nextOf m1 (.head l) = some .null ∧
      ∃ b e, begin m1 l = some b ∧ end_ m1 l = some e ∧ BasicIterator.eq b e = true := by
  obtain ⟨cs, ⟨o, ho, hs⟩, hv⟩ := traverse_eq_some_iff.1 hx
  obtain ⟨o1, ho1, hsz⟩ := getSize_eq_some hn
  rw [ho] at ho1
  injection ho1 with ho1
  subst ho1
  have hlen : xs.length = cs.length := by rw [← hv]; simp
  obtain ⟨m1, h1, h2, -, -, -⟩ := Clear_spec ho hs (hsz.trans hlen) (hlen ▸ hlt)
  have hl : m1.lists[l]? = some ⟨.null, 0⟩ := by
    rw [h2]
    exact lists_set_get ho
  refine ⟨m1, h1, ?_, ?_, nextOf_head hl, ⟨.null⟩, ⟨.null⟩, begin_of_chain hl, ?_, by decide⟩
  · simp [GetSize, getSize_eq hl]
  · simp [SingleLinkedList.IsEmpty, GetSize, getSize_eq hl]
  · exact @end_of_chain α m1 l [] ⟨_, hl, rfl⟩

/-- Witness of C6 on the list `{1, 2, 3}`. -/
theorem clear_empties_witness :
    ∃ m1, Clear mem123 0 = some m1 ∧ GetSize m1 0 = some 0 ∧ SingleLinkedList.IsEmpty m1 0 = some true ∧
      nextOf m1 (.head 0) = some .null ∧
      ∃ b e, begin m1 0 = some b ∧ end_ m1 0 = some e ∧ BasicIterator.eq b e = true :=
  clear_empties mem123 0 [1, 2, 3] (by decide) (by decide) (by decide)

/-- C7: for two lists `a` and `b` (holding `xs` with size `n`, and `ys` with size `k`), the
member `swap` and the non-member `swap` both succeed with the same memory; afterwards `a`
holds `ys` with size `k` and `b` holds `xs` with size `n`, and no node cell has changed. -/
theorem swap_exchanges (m : Memory α) (a b : Nat) (xs ys : List α) (n k : Nat)
    (hxa : traverse m a = some xs) (hna : GetSize m a = some n)
    (hxb : traverse m b = some ys) (hnb : GetSize m b = some k) :
    ∃ m1, SingleLinkedList.swap m a b = some m1 ∧ SLL.swap m a b = some m1 ∧
      m1.heap = m.heap ∧
      traverse m1 a = some ys ∧ GetSize m1 a = some k ∧
      traverse m1 b = some xs ∧ GetSize m1 b = some n := by
  obtain ⟨cs, ⟨oa, hoa, hsa⟩, hva⟩ := traverse_eq_some_iff.1 hxa
  obtain ⟨ds, ⟨ob, hob, hsb⟩, hvb⟩ := traverse_eq_some_iff.1 hxb
  obtain ⟨o1, ho1, hsz1⟩ := getSize_eq_some hna
  obtain ⟨o2, ho2, hsz2⟩ := getSize_eq_some hnb
  rw [hoa] at ho1
  rw [hob] at ho2
  injection ho1 with ho1
  injection ho2 with ho2
  subst ho1 ho2
  have hl := swap_lists_left hoa hob
  have hr := @swap_lists_right m.lists a b oa ob hob
  refine ⟨_, swap_eq hoa hob, swap_eq hoa hob, rfl, ?_, ?_, ?_, ?_⟩
  · rw [← hvb]
    exact traverse_of_chain ⟨ob, hl, hsb⟩
  · simp only [GetSize]
    rw [getSize_eq hl, hsz2]
  · rw [← hva]
    exact traverse_of_chain ⟨oa, hr, hsa⟩
  · simp only [GetSize]
    rw [getSize_eq hr, hsz1]

/-- Witness of C7 on the lists `{1, 2}` and `{1, 2, 3}`. -/
theorem swap_exchanges_witness :
    ∃ m1, SingleLinkedList.swap memTwo 0 1 = some m1 ∧ SLL.swap memTwo 0 1 = some m1 ∧
      m1.heap = memTwo.heap ∧
      traverse m1 0 = some [1, 2, 3] ∧ GetSize m1 0 = some 3 ∧
      traverse m1 1 = some [1, 2] ∧ GetSize m1 1 = some 2 :=
  swap_exchanges memTwo 0 1 [1, 2] [1, 2, 3] 2 3 (by decide) (by decide) (by decide)
    (by decide)

/-- C8: for two list objects `a` and `b`, `swap(a, b)` followed by `swap(a, b)` succeeds
and restores the whole memory, so both lists have their original element sequences and
sizes. -/
theorem swap_swap_restores (m : Memory α) (a b : Nat) (n k : Nat)
    (hna : GetSize m a = some n) (hnb : GetSize m b = some k) :
    ∃ m1 m2, SLL.swap m a b = some m1 ∧ SLL.swap m1 a b = some m2 ∧ m2 = m ∧
      traverse m2 a = traverse m a ∧ GetSize m2 a = some n ∧
      traverse m2 b = traverse m b ∧ GetSize m2 b = some k := by
  obtain ⟨oa, hoa, hsz1⟩ := getSize_eq_some hna
  obtain ⟨ob, hob, hsz2⟩ := getSize_eq_some hnb
  have hl := swap_lists_left hoa hob
  have hr := @swap_lists_right m.lists a b oa ob hob
  have h2 : @SLL.swap α ⟨m.heap, (m.lists.set a ob).set b oa⟩ a b = some m := by
    simp only [SLL.swap]
    rw [swap_eq (m := ⟨m.heap, (m.lists.set a ob).set b oa⟩) hl hr]
    simp only [swap_lists_twice hoa hob]
  exact ⟨_, m, swap_eq hoa hob, h2, rfl, rfl, hna, rfl, hnb⟩

/-- Witness of C8 on the lists `{1, 2}` and `{1, 2, 3}`. -/
theorem swap_swap_restores_witness :
    ∃ m1 m2, SLL.swap memTwo 0 1 = some m1 ∧ SLL.swap m1 0 1 = some m2 ∧ m2 = memTwo ∧
      traverse m2 0 = traverse memTwo 0 ∧ GetSize m2 0 = some 2 ∧
      traverse m2 1 = traverse memTwo 1 ∧ GetSize m2 1 = some 3 :=
  swap_swap_restores memTwo 0 1 2 3 (by decide) (by decide)

/-- C9: for two lists whose `size_` equals the length of their chains, `operator==` returns
true exactly when the sizes are the same and no pair of elements at the same index
satisfies the element `!=`; `operator!=` returns the negation.  In particular
`{1,2} != {1,2,3}` and `{1,2} != {2,1}`. -/
theorem operatorEq_iff (ne : α → α → Bool) :
    (∀ (m : Memory α) (a b : Nat) (xs ys : List α),
      traverse m a = some xs → GetSize m a = some xs.length →
      traverse m b = some ys → GetSize m b = some ys.length →
      ∃ r, operatorEq ne m a b = some r ∧ operatorNe ne m a b = some (!r) ∧
        (r = true ↔ xs.length = ys.length ∧
          ∀ (i : Nat) (x y : α), xs[i]? = some x → ys[i]? = some y → ne x y = false)) ∧
    (twoLists [1, 2] [1, 2, 3]).bind (fun m => operatorNe intNe m 0 1) = some true ∧
    (twoLists [1, 2] [2, 1]).bind (fun m => operatorNe intNe m 0 1) = some true := by
  refine ⟨?_, by decide, by decide⟩
  intro m a b xs ys hxa hna hxb hnb
  obtain ⟨cs, ⟨oa, hoa, hsa⟩, hva⟩ := traverse_eq_some_iff.1 hxa
  obtain ⟨ds, ⟨ob, hob, hsb⟩, hvb⟩ := traverse_eq_some_iff.1 hxb
  obtain ⟨o1, ho1, hsz1⟩ := getSize_eq_some hna
  obtain ⟨o2, ho2, hsz2⟩ := getSize_eq_some hnb
  rw [hoa] at ho1
  rw [hob] at ho2
  injection ho1 with ho1
  injection ho2 with ho2
  subst ho1 ho2
  have h := operatorEq_of_chain ne hoa hob hsa hsb
  rw [hva, hvb, hsz1, hsz2] at h
  refine ⟨_, h, by simp [operatorNe, h], ?_⟩
  by_cases hlen : xs.length = ys.length
  · simp only [hlen, ne_eq, not_true_eq_false, if_false, true_and]
    exact pairsAgree_iff ne xs ys
  · simp [hlen]

/-- Witness of C9 on the lists `{1, 2}` and `{1, 2, 3}`. -/
theorem operatorEq_iff_witness :
    ∃ r, operatorEq intNe memTwo 0 1 = some r ∧ operatorNe intNe memTwo 0 1 = some (!r) ∧
      (r = true ↔ [1, 2].length = [1, 2, 3].length ∧
        ∀ (i : Nat) (x y : Int), [1, 2][i]? = some x → [1, 2, 3][i]? = some y →
          intNe x y = false) :=
  (operatorEq_iff intNe).1 memTwo 0 1 [1, 2] [1, 2, 3] (by decide) (by decide) (by decide)
    (by decide)

/-- C10: for two lists holding `xs` and `ys`, `operator<` returns the standard
lexicographic comparison of `xs` and `ys` under the element `<`: true exactly when the
left element is smaller at the first index with non-equivalent elements, or `xs` is a
proper prefix of `ys`.  In particular `{1,2} < {1,2,3}`, `{1,2,3} < {1,3}`, `{} < {1}` and
`{1,2} < {2,1}` are true and `{} < {}` is false. -/
theorem operatorLt_lexicographic (lt : α → α → Bool) :
    (∀ (m : Memory α) (a b : Nat) (xs ys : List α),
      traverse m a = some xs → traverse m b = some ys →
      operatorLt lt m a b = some (lexicographicalCompare lt xs ys) ∧
      (operatorLt lt m a b = some true ↔ LexLess lt xs ys)) ∧
    (twoLists [1, 2] [1, 2, 3]).bind (fun m => operatorLt intLt m 0 1) = some true ∧
    (twoLists [1, 2, 3] [1, 3]).bind (fun m => operatorLt intLt m 0 1) = some true ∧
    (twoLists [] [1]).bind (fun m => operatorLt intLt m 0 1) = some true ∧
    (twoLists [1, 2] [2, 1]).bind (fun m => operatorLt intLt m 0 1) = some true ∧
    (twoLists [] []).bind (fun m => operatorLt intLt m 0 1) = some false := by
  refine ⟨?_, by decide, by decide, by decide, by decide, by decide⟩
  intro m a b xs ys hxa hxb
  obtain ⟨cs, hca, hva⟩ := traverse_eq_some_iff.1 hxa
  obtain ⟨ds, hcb, hvb⟩ := traverse_eq_some_iff.1 hxb
  have h := operatorLt_of_chain lt hca hcb
  rw [hva, hvb] at h
  refine ⟨h, ?_⟩
  rw [h, ← lexicographicalCompare_iff]
  simp

/-- Witness of C10 on the lists `{1, 2}` and `{1, 2, 3}`. -/
theorem operatorLt_lexicographic_witness :
    operatorLt intLt memTwo 0 1 = some (lexicographicalCompare intLt [1, 2] [1, 2, 3]) ∧
      (operatorLt intLt memTwo 0 1 = some true ↔ LexLess intLt [1, 2] [1, 2, 3]) :=
  (operatorLt_lexicographic intLt).1 memTwo 0 1 [1, 2] [1, 2, 3] (by decide) (by decide)

/-- C1: for every sequence `S` (whose length is a `size_t` value) and every memory, the
constructor from an initializer list succeeds; traversing the new list from `begin()` by
`*` and `++` until `end()` yields exactly `S`, and `GetSize()` is the length of `S`. -/
theorem constructFrom_roundtrip (m : Memory α) (S : List α) (hS : S.length < SIZE_MOD) :
    ∃ l m1, constructFrom m S = some (l, m1) ∧ traverse m1 l = some S ∧
      GetSize m1 l = some S.length := by
  have ho : (m.lists ++ [(⟨.null, 0⟩ : SingleLinkedList)])[m.lists.length]? =
      some ⟨.null, 0⟩ := by simp
  obtain ⟨m1, p, ds, h1, hl, hs, hv, -, -, -⟩ :=
    @constructLoop_spec α S ⟨m.heap, m.lists ++ [⟨.null, 0⟩]⟩ m.lists.length ⟨.null, 0⟩ []
      .null ho rfl (lastOf_nil _) (by simpa using hS)
  have hl1 : m1.lists[m.lists.length]? = some ⟨p, 0 + S.length⟩ := by
    rw [hl]
    exact lists_set_get ho
  refine ⟨m.lists.length, m1, ?_, ?_, ?_⟩
  · simp [constructFrom, construct, h1]
  · rw [← hv]
    exact traverse_of_chain ⟨_, hl1, by simpa using hs⟩
  · simp [GetSize, getSize_eq hl1]

/-- Witness of C1 on the sequence `{10, 20, 30}`. -/
theorem constructFrom_roundtrip_witness :
    ∃ l m1, constructFrom (Memory.empty Int) [10, 20, 30] = some (l, m1) ∧
      traverse m1 l = some [10, 20, 30] ∧ GetSize m1 l = some [10, 20, 30].length :=
  constructFrom_roundtrip (Memory.empty Int) [10, 20, 30] (by decide)

/-- C2: in every memory reachable from the constructors through `PushFront`, `PopFront`,
`InsertAfter` and `EraseAfter` at a valid position of the list other than its end, `Clear`,
copy assignment and `swap`, every list object has a `size_` equal to the number of nodes
reachable from the next link of its sentinel. -/
theorem size_invariant (m : Memory α) (l : Nat) (h : Reachable m) (hl : l < m.lists.length) :
    ∃ n, GetSize m l = some n ∧ reachableNodes m l = some n := by
  obtain ⟨own, hwf⟩ := WF_of_reachable h
  obtain ⟨hs, hsz, -⟩ := hwf.1 l m.lists[l] (List.getElem?_eq_getElem hl)
  refine ⟨(own l).length, ?_, ?_⟩
  · simp only [GetSize]
    rw [getSize_eq (List.getElem?_eq_getElem hl), hsz]
  · exact reachableNodes_of_chain ⟨_, List.getElem?_eq_getElem hl, hs⟩

/-- Witness of C2: the memory reached by constructing `{10, 20, 30}`, inserting 25 after
the iterator at 20 and erasing after the iterator at 10. -/
theorem size_invariant_witness :
    ∃ n, GetSize memC 0 = some n ∧ reachableNodes memC 0 = some n := by
  have hA : Reachable memA :=
    Reachable.constructFrom Reachable.empty
      (by decide : constructFrom (Memory.empty Int) [10, 20, 30] = some (0, memA))
      (by unfold Fits SIZE_MOD; decide)
  have hB : Reachable memB :=
    Reachable.insertAfter hA ⟨by decide, 2, by decide⟩
      (by decide : InsertAfter memA 0 ⟨.heap 1⟩ 25 = some (⟨.heap 3⟩, memB))
      (by unfold Fits SIZE_MOD; decide)
  have hC : Reachable memC :=
    Reachable.eraseAfter hB ⟨by decide, 1, by decide⟩
      (by decide : EraseAfter memB 0 ⟨.heap 0⟩ = some (⟨.heap 3⟩, memC))
  exact size_invariant memC 0 hC (by decide)

/-- C11: for two lists `a` and `b` (each can be traversed), `==`, `a < b` and `b < a` return
results `e`, `l` and `g`, and `a <= b` returns `e || l`, `a > b` returns `g`, `a >= b`
returns `e || g`. -/
theorem derived_comparisons (ne lt : α → α → Bool) (m : Memory α) (a b : Nat) (xs ys : List α)
    (hxa : traverse m a = some xs) (hxb : traverse m b = some ys) :
    ∃ e l g, operatorEq ne m a b = some e ∧ operatorLt lt m a b = some l ∧
      operatorLt lt m b a = some g ∧
      operatorLe ne lt m a b = some (e || l) ∧
      operatorGt lt m a b = some g ∧
      operatorGe ne lt m a b = some (e || g) := by
  obtain ⟨cs, hca, -⟩ := traverse_eq_some_iff.1 hxa
  obtain ⟨ds, hcb, -⟩ := traverse_eq_some_iff.1 hxb
  obtain ⟨e, he⟩ := operatorEq_some_of_chain ne hca hcb
  have hl := operatorLt_of_chain lt hca hcb
  have hg := operatorLt_of_chain lt hcb hca
  exact ⟨e, _, _, he, hl, hg, operatorLe_eq ne lt he hl, hg, operatorGe_eq ne lt he hg⟩

/-- Witness of C11 on the lists `{1, 2}` and `{1, 2, 3}`. -/
theorem derived_comparisons_witness :
    ∃ e l g, operatorEq intNe memTwo 0 1 = some e ∧ operatorLt intLt memTwo 0 1 = some l ∧
      operatorLt intLt memTwo 1 0 = some g ∧
      operatorLe intNe intLt memTwo 0 1 = some (e || l) ∧
      operatorGt intLt memTwo 0 1 = some g ∧
      operatorGe intNe intLt memTwo 0 1 = some (e || g) :=
  derived_comparisons intNe intLt memTwo 0 1 [1, 2] [1, 2, 3] (by decide) (by decide)

/-- Counterexample to C19: on the lists `{1, 2}` and `{2, 1}` built by the constructor,
`{1, 2} < {2, 1}` is true although the left list is not shorter than the right one. -/
theorem operatorLt_true_not_shorter :
    twoLists [1, 2] [2, 1] = some memSwapped ∧
    traverse memSwapped 0 = some [1, 2] ∧ traverse memSwapped 1 = some [2, 1] ∧
    operatorLt intLt memSwapped 0 1 = some true ∧
    ¬ ([1, 2] : List Int).length < ([2, 1] : List Int).length := by
  decide

/-- C19 as amended: when `a < b` is true, either the loop returned at an index where the
element of `a` is smaller than the element of `b` (all earlier pairs being equivalent), or
the loop stopped with `a` exhausted and `b` not, so `a` is strictly shorter than `b`. -/
theorem operatorLt_true_cases (lt : α → α → Bool) (m : Memory α) (a b : Nat) (xs ys : List α)
    (hxa : traverse m a = some xs) (hxb : traverse m b = some ys)
    (h : operatorLt lt m a b = some true) :
    (∃ i x y, xs[i]? = some x ∧ ys[i]? = some y ∧ lt x y = true ∧
      ∀ (j : Nat), j < i → ∀ (u w : α), xs[j]? = some u → ys[j]? = some w →
        lt u w = false ∧ lt w u = false) ∨
    (xs.length < ys.length ∧
      ∀ (j : Nat) (u w : α), xs[j]? = some u → ys[j]? = some w →
        lt u w = false ∧ lt w u = false) := by
  obtain ⟨cs, hca, hva⟩ := traverse_eq_some_iff.1 hxa
  obtain ⟨ds, hcb, hvb⟩ := traverse_eq_some_iff.1 hxb
  have h1 := operatorLt_of_chain lt hca hcb
  rw [hva, hvb, h] at h1
  injection h1 with h1
  exact (lexicographicalCompare_iff lt xs ys).1 h1.symm

/-- Witness of the amended C19 on the lists `{1, 2}` and `{1, 2, 3}`. -/
theorem operatorLt_true_cases_witness :
    (∃ i x y, [1, 2][i]? = some x ∧ [1, 2, 3][i]? = some y ∧ intLt x y = true ∧
      ∀ (j : Nat), j < i → ∀ (u w : Int), [1, 2][j]? = some u → [1, 2, 3][j]? = some w →
        intLt u w = false ∧ intLt w u = false) ∨
    ([1, 2].length < [1, 2, 3].length ∧
      ∀ (j : Nat) (u w : Int), [1, 2][j]? = some u → [1, 2, 3][j]? = some w →
        intLt u w = false ∧ intLt w u = false) :=
  operatorLt_true_cases intLt memTwo 0 1 [1, 2] [1, 2, 3] (by decide) (by decide) (by decide)

/-- C17: `==` is reflexive when the element `!=` is irreflexive, and symmetric when the
element `!=` is symmetric; two lists holding the same elements in a different order are not
equal (when distinct elements satisfy `!=`); in particular `{1,2} == {2,1}` is false and
`{1,2} != {1,2,3}` is true. -/
theorem operatorEq_refl_symm (ne : α → α → Bool) :
    (∀ (m : Memory α) (a : Nat) (xs : List α), traverse m a = some xs →
      (∀ x, ne x x = false) → operatorEq ne m a a = some true) ∧
    (∀ (m : Memory α) (a b : Nat) (xs ys : List α),
      traverse m a = some xs → traverse m b = some ys → (∀ x y, ne x y = ne y x) →
      operatorEq ne m a b = operatorEq ne m b a ∧ ∃ e, operatorEq ne m a b = some e) ∧
    (∀ (m : Memory α) (a b : Nat) (xs ys : List α),
      traverse m a = some xs → traverse m b = some ys → (∀ x y, x ≠ y → ne x y = true) →
      xs.Perm ys → xs ≠ ys → operatorEq ne m a b = some false) ∧
    (twoLists [1, 2] [2, 1]).bind (fun m => operatorEq intNe m 0 1) = some false ∧
    (twoLists [1, 2] [1, 2, 3]).bind (fun m => operatorNe intNe m 0 1) = some true := by
  refine ⟨?_, ?_, ?_, by decide, by decide⟩
  · intro m a xs hxa hirr
    obtain ⟨cs, ⟨oa, hoa, hsa⟩, -⟩ := traverse_eq_some_iff.1 hxa
    rw [operatorEq_of_chain ne hoa hoa hsa hsa]
    simp [pairsAgree_self ne hirr]
  · intro m a b xs ys hxa hxb hsymm
    obtain ⟨cs, ⟨oa, hoa, hsa⟩, -⟩ := traverse_eq_some_iff.1 hxa
    obtain ⟨ds, ⟨ob, hob, hsb⟩, -⟩ := traverse_eq_some_iff.1 hxb
    rw [operatorEq_of_chain ne hoa hob hsa hsb, operatorEq_of_chain ne hob hoa hsb hsa,
      pairsAgree_comm ne hsymm (vals cs) (vals ds)]
    refine ⟨?_, _, rfl⟩
    by_cases hsz : oa.size_ = ob.size_
    · simp [hsz]
    · have hsz2 : ¬ ob.size_ = oa.size_ := fun e => hsz e.symm
      simp [hsz, hsz2]
  · intro m a b xs ys hxa hxb hne hperm hxy
    obtain ⟨cs, ⟨oa, hoa, hsa⟩, hva⟩ := traverse_eq_some_iff.1 hxa
    obtain ⟨ds, ⟨ob, hob, hsb⟩, hvb⟩ := traverse_eq_some_iff.1 hxb
    rw [operatorEq_of_chain ne hoa hob hsa hsb, hva, hvb]
    have hp : pairsAgree ne xs ys = false := by
      by_contra hp
      simp only [Bool.not_eq_false] at hp
      exact hxy (pairsAgree_eq ne hne hperm.length_eq hp)
    simp [hp]

/-- Witness of C17 on the lists `{1, 2}` and `{2, 1}`. -/
theorem operatorEq_refl_symm_witness :
    operatorEq intNe memSwapped 0 0 = some true ∧
    (operatorEq intNe memSwapped 0 1 = operatorEq intNe memSwapped 1 0 ∧
      ∃ e, operatorEq intNe memSwapped 0 1 = some e) ∧
    operatorEq intNe memSwapped 0 1 = some false :=
  ⟨(operatorEq_refl_symm intNe).1 memSwapped 0 [1, 2] (by decide)
      (by intro x; simp [intNe]),
   (operatorEq_refl_symm intNe).2.1 memSwapped 0 1 [1, 2] [2, 1] (by decide) (by decide)
      (by intro x y; simp [intNe, eq_comm]),
   (operatorEq_refl_symm intNe).2.2.1 memSwapped 0 1 [1, 2] [2, 1] (by decide) (by decide)
      (by intro x y h; simp [intNe, h]) (by decide) (by decide)⟩

/-- C20: when the element `<` is a strict total order and the element `!=` is the negation
of equality, for two lists whose `size_` is the length of their chain exactly one of
`a < b`, `a == b`, `b < a` is true; `a <= b` is the negation of `b < a` and `a >= b` is the
negation of `a < b`. -/
theorem comparison_trichotomy (ne lt : α → α → Bool) (hirr : ∀ x, lt x x = false)
    (htrans : ∀ x y z, lt x y = true → lt y z = true → lt x z = true)
    (htotal : ∀ x y, lt x y = true ∨ x = y ∨ lt y x = true)
    (hne : ∀ x y, ne x y = true ↔ x ≠ y)
    (m : Memory α) (a b : Nat) (xs ys : List α)
    (hxa : traverse m a = some xs) (hna : GetSize m a = some xs.length)
    (hxb : traverse m b = some ys) (hnb : GetSize m b = some ys.length) :
    ∃ l e g, operatorLt lt m a b = some l ∧ operatorEq ne m a b = some e ∧
      operatorLt lt m b a = some g ∧
      ((l = true ∧ e = false ∧ g = false) ∨ (l = false ∧ e = true ∧ g = false) ∨
        (l = false ∧ e = false ∧ g = true)) ∧
      operatorLe ne lt m a b = some (!g) ∧ operatorGe ne lt m a b = some (!l) := by
  obtain ⟨cs, hca, hva⟩ := traverse_eq_some_iff.1 hxa
  obtain ⟨ds, hcb, hvb⟩ := traverse_eq_some_iff.1 hxb
  have hl := operatorLt_of_chain lt hca hcb
  have hg := operatorLt_of_chain lt hcb hca
  rw [hva, hvb] at hl hg
  obtain ⟨e, he, hiff⟩ := operatorEq_eq_decide ne hne hxa hna hxb hnb
  have hle := operatorLe_eq ne lt he hl
  have hge := operatorGe_eq ne lt he hg
  refine ⟨_, e, _, hl, he, hg, ?_, ?_, ?_⟩
  · rcases lexicographicalCompare_trichotomy lt hirr htrans htotal xs ys with h | h | h
    · refine Or.inl ⟨h.1, ?_, h.2.2⟩
      cases e with
      | false => rfl
      | true => exact absurd (hiff.1 rfl) h.2.1
    · exact Or.inr (Or.inl ⟨h.1, hiff.2 h.2.1, h.2.2⟩)
    · refine Or.inr (Or.inr ⟨h.1, ?_, h.2.2⟩)
      cases e with
      | false => rfl
      | true => exact absurd (hiff.1 rfl) h.2.1
  · rw [hle]
    rcases lexicographicalCompare_trichotomy lt hirr htrans htotal xs ys with h | h | h
    · rw [h.1, h.2.2]
      simp
    · rw [h.1, h.2.2, hiff.2 h.2.1]
      simp
    · rw [h.1, h.2.2]
      cases e with
      | false => rfl
      | true => exact absurd (hiff.1 rfl) h.2.1
  · rw [hge]
    rcases lexicographicalCompare_trichotomy lt hirr htrans htotal xs ys with h | h | h
    · rw [h.1, h.2.2]
      cases e with
      | false => rfl
      | true => exact absurd (hiff.1 rfl) h.2.1
    · rw [h.1, h.2.2, hiff.2 h.2.1]
      simp
    · rw [h.1, h.2.2]
      simp

/-- Witness of C20 on the lists `{1, 2}` and `{1, 2, 3}` of `int`. -/
theorem comparison_trichotomy_witness :
    ∃ l e g, operatorLt intLt memTwo 0 1 = some l ∧ operatorEq intNe memTwo 0 1 = some e ∧
      operatorLt intLt memTwo 1 0 = some g ∧
      ((l = true ∧ e = false ∧ g = false) ∨ (l = false ∧ e = true ∧ g = false) ∨
        (l = false ∧ e = false ∧ g = true)) ∧
      operatorLe intNe intLt memTwo 0 1 = some (!g) ∧
      operatorGe intNe intLt memTwo 0 1 = some (!l) :=
  comparison_trichotomy intNe intLt (by intro x; simp [intLt])
    (by intro x y z h1 h2; simp only [intLt, decide_eq_true_eq] at *; omega)
    (by intro x y; simp only [intLt, decide_eq_true_eq]; omega)
    (by intro x y; simp [intNe])
    memTwo 0 1 [1, 2] [1, 2, 3] (by decide) (by decide) (by decide) (by decide)

/-- C15: on a list holding `xs` with `GetSize() = n` (`n + 1` a `size_t` value), for the
position `pos` reached from `before_begin()` by `k` increments (`k = 0` is `before_begin()`,
`k = i + 1` the element number `i`), `InsertAfter(pos, v)` succeeds; the list then holds
`xs` with `v` inserted after the first `k` elements, its size is `n + 1`, the returned
iterator dereferences to `v`, is the successor of `pos`, and its own successor is the old
successor of `pos`.  On `{10,20,30}`, inserting 25 after the iterator at 20 gives
`{10,20,25,30}` with size 4. -/
theorem insertAfter_spec (v : α) :
    (∀ (m : Memory α) (l : Nat) (pos : BasicIterator) (xs : List α) (n k : Nat),
      traverse m l = some xs → GetSize m l = some n → n + 1 < SIZE_MOD → k ≤ xs.length →
      advance m k (before_begin l) = some pos →
      ∃ it m1, InsertAfter m l pos v = some (it, m1) ∧
        traverse m1 l = some (xs.take k ++ v :: xs.drop k) ∧ GetSize m1 l = some (n + 1) ∧
        BasicIterator.deref m1 it = some v ∧ BasicIterator.inc m1 pos = some it ∧
        BasicIterator.inc m1 it = BasicIterator.inc m pos) ∧
    (constructFrom (Memory.empty Int) [10, 20, 30] = some (0, memA) ∧
      advance memA 2 (before_begin 0) = some ⟨.heap 1⟩ ∧
      BasicIterator.deref memA ⟨.heap 1⟩ = some 20 ∧
      InsertAfter memA 0 ⟨.heap 1⟩ 25 = some (⟨.heap 3⟩, memB) ∧
      traverse memB 0 = some [10, 20, 25, 30] ∧ GetSize memB 0 = some 4) := by
  refine ⟨?_, by decide⟩
  intro m l pos xs n k hx hn hlt hk hpos
  obtain ⟨cs, ⟨o, ho, hs⟩, hv⟩ := traverse_eq_some_iff.1 hx
  obtain ⟨o1, ho1, hsz⟩ := getSize_eq_some hn
  rw [ho] at ho1
  injection ho1 with ho1
  subst ho1
  have hlen : xs.length = cs.length := by rw [← hv]; simp
  cases k with
  | zero =>
    simp only [advance, Option.some.injEq] at hpos
    subst hpos
    have hl1 := lists_set_get (x := ⟨.heap m.heap.length, incSize o.size_⟩) ho
    have hcell : (m.heap ++ [some (Node.mk v o.head_next)])[m.heap.length]? =
        some (some ⟨v, o.head_next⟩) := by simp
    refine ⟨_, _, InsertAfter_head_eq v ho, ?_, ?_, ?_, ?_, ?_⟩
    · have hc : @Chain α ⟨m.heap ++ [some (Node.mk v o.head_next)],
          m.lists.set l ⟨.heap m.heap.length, incSize o.size_⟩⟩ l
          ((m.heap.length, v) :: cs) :=
        ⟨_, hl1, rfl, o.head_next, hcell, isSeg_append_heap _ hs⟩
      rw [traverse_of_chain hc, vals_cons, hv]
      simp
    · simp only [GetSize]
      rw [getSize_eq hl1]
      simp only
      rw [hsz, incSize_of_lt hlt]
    · simp only [BasicIterator.deref]
      rw [valueOf_heap hcell]
    · simp only [BasicIterator.inc, before_begin]
      rw [nextOf_head hl1]
      rfl
    · simp only [BasicIterator.inc, before_begin]
      rw [nextOf_heap hcell, nextOf_head ho]
  | succ j =>
    rw [advance_before_begin_succ j ho] at hpos
    obtain ⟨pre, c, post, hsplit, hpre, hp⟩ :=
      advance_chain_index hs (by omega) hpos
    subst hp hsplit
    obtain ⟨r, hr, hs1⟩ := isSeg_insert v hs
    have hclt := heap_get_lt hr
    have hl1 := lists_set_get (x := ⟨o.head_next, incSize o.size_⟩) ho
    have hnew : ((m.heap ++ [some (Node.mk v r)]).set c.1
        (some ⟨c.2, .heap m.heap.length⟩))[m.heap.length]? = some (some ⟨v, r⟩) := by
      have h4 : c.1 ≠ m.heap.length := by omega
      simp [List.getElem?_set, h4]
    have hold : ((m.heap ++ [some (Node.mk v r)]).set c.1
        (some ⟨c.2, .heap m.heap.length⟩))[c.1]? =
        some (some ⟨c.2, .heap m.heap.length⟩) := by
      have e : c.1 < (m.heap ++ [some (Node.mk v r)]).length := by
        simp only [List.length_append, List.length_singleton]
        omega
      rw [List.getElem?_set]
      simp only [if_true, e]
    refine ⟨_, _, InsertAfter_heap_eq v ho hr, ?_, ?_, ?_, ?_, ?_⟩
    · have hc : @Chain α ⟨(m.heap ++ [some (Node.mk v r)]).set c.1
          (some ⟨c.2, .heap m.heap.length⟩),
          m.lists.set l ⟨o.head_next, incSize o.size_⟩⟩ l
          (pre ++ c :: (m.heap.length, v) :: post) := ⟨_, hl1, hs1⟩
      rw [traverse_of_chain hc, ← hv, ← hpre]
      simp only [vals_append, vals_cons]
      rw [← vals_length pre, take_succ_append, drop_succ_append]
      simp
    · simp only [GetSize]
      rw [getSize_eq hl1]
      simp only
      rw [hsz, incSize_of_lt hlt]
    · simp only [BasicIterator.deref]
      rw [valueOf_heap hnew]
    · simp only [BasicIterator.inc]
      rw [nextOf_heap hold]
      rfl
    · simp only [BasicIterator.inc]
      rw [nextOf_heap hnew, nextOf_heap hr]

/-- Witness of C15 on the list `{10, 20, 30}`, at the iterator at 20. -/
theorem insertAfter_spec_witness :
    ∃ it m1, InsertAfter memA 0 ⟨.heap 1⟩ 25 = some (it, m1) ∧
      traverse m1 0 = some ([10, 20, 30].take 2 ++ 25 :: [10, 20, 30].drop 2) ∧
      GetSize m1 0 = some (3 + 1) ∧
      BasicIterator.deref m1 it = some 25 ∧ BasicIterator.inc m1 ⟨.heap 1⟩ = some it ∧
      BasicIterator.inc m1 it = BasicIterator.inc memA ⟨.heap 1⟩ :=
  (insertAfter_spec (25 : Int)).1 memA 0 ⟨.heap 1⟩ [10, 20, 30] 3 2 (by decide) (by decide)
    (by decide) (by decide) (by decide)

/-- C16: on a list holding `xs` whose `size_` is `xs.length`, for the position `pos` reached
from `before_begin()` by `k` increments, `EraseAfter(pos)` succeeds.  If a node follows `pos`
(`k < xs.length`) the list then holds `xs` without the element number `k`, its size is one
less, and the returned iterator is the successor of `pos`: it references the element that
followed the removed one, or equals `end()` when there is none.  If nothing follows `pos`
the memory is unchanged and the returned iterator equals `end()`.  On `{10,20,25,30}`,
`EraseAfter` at the iterator at 10 gives `{10,25,30}` with size 3 and returns the iterator
at 25. -/
theorem eraseAfter_spec :
    (∀ (m : Memory α) (l : Nat) (pos : BasicIterator) (xs : List α) (k : Nat),
      traverse m l = some xs → GetSize m l = some xs.length → xs.length < SIZE_MOD →
      k ≤ xs.length → advance m k (before_begin l) = some pos →
      ∃ it m1, EraseAfter m l pos = some (it, m1) ∧
        (k < xs.length →
          traverse m1 l = some (xs.eraseIdx k) ∧ GetSize m1 l = some (xs.length - 1) ∧
          BasicIterator.inc m1 pos = some it ∧ BasicIterator.deref m1 it = xs[k + 1]? ∧
          (k + 1 = xs.length → end_ m1 l = some it)) ∧
        (k = xs.length → m1 = m ∧ end_ m1 l = some it)) ∧
    (advance memB 1 (before_begin 0) = some ⟨.heap 0⟩ ∧
      BasicIterator.deref memB ⟨.heap 0⟩ = some 10 ∧
      traverse memB 0 = some [10, 20, 25, 30] ∧
      EraseAfter memB 0 ⟨.heap 0⟩ = some (⟨.heap 3⟩, memC) ∧
      traverse memC 0 = some [10, 25, 30] ∧ GetSize memC 0 = some 3 ∧
      BasicIterator.deref memC ⟨.heap 3⟩ = some 25) := by
  refine ⟨?_, by decide⟩
  intro m l pos xs k hx hn hlt hk hpos
  obtain ⟨cs, ⟨o, ho, hs⟩, hv⟩ := traverse_eq_some_iff.1 hx
  obtain ⟨o1, ho1, hsz⟩ := getSize_eq_some hn
  rw [ho] at ho1
  injection ho1 with ho1
  subst ho1
  have hlen : xs.length = cs.length := by rw [← hv]; simp
  cases k with
  | zero =>
    simp only [advance, Option.some.injEq] at hpos
    subst hpos
    cases cs with
    | nil =>
      have hnull : o.head_next = .null := hs
      refine ⟨_, _, EraseAfter_head_null_eq ho hnull, ?_, ?_⟩
      · intro h0
        simp only [List.length_nil] at hlen
        omega
      · intro _
        exact ⟨rfl, end_of_chain ⟨o, ho, hs⟩⟩
    | cons c ds =>
      have hnd := isSeg_null_nodup hs
      simp only [addrs_cons, List.nodup_cons] at hnd
      obtain ⟨hp, r, hr, hds⟩ := hs
      have hl1 := lists_set_get (x := ⟨r, decSize o.size_⟩) ho
      have hds1 : IsSeg (m.heap.set c.1 none) r ds .null := isSeg_set none hnd.1 hds
      simp only [List.length_cons] at hlen
      refine ⟨_, _, EraseAfter_head_eq ho hp hr, ?_, ?_⟩
      · intro _
        refine ⟨?_, ?_, ?_, ?_, ?_⟩
        · rw [traverse_of_chain ⟨_, hl1, hds1⟩, ← hv]
          simp
        · simp only [GetSize]
          rw [getSize_eq hl1]
          simp only
          rw [hsz, decSize_of_pos (by omega) hlt]
        · simp only [BasicIterator.inc, before_begin]
          rw [nextOf_head hl1]
          rfl
        · rw [@deref_of_isSeg α ⟨m.heap.set c.1 none, m.lists.set l ⟨r, decSize o.size_⟩⟩
            r ds hds1, ← hv]
          simp
        · intro h1
          have hd0 : ds = [] := by
            apply List.eq_nil_of_length_eq_zero
            omega
          subst hd0
          exact @end_of_isSeg_nil α ⟨m.heap.set c.1 none,
            m.lists.set l ⟨r, decSize o.size_⟩⟩ l _ [] r hl1 hds1 hds1
      · intro h0
        omega
  | succ j =>
    rw [advance_before_begin_succ j ho] at hpos
    obtain ⟨pre, c, post, hsplit, hpre, hp⟩ :=
      advance_chain_index hs (by omega) hpos
    subst hp hsplit
    cases post with
    | nil =>
      obtain ⟨r, hr, hnil⟩ := isSeg_suffix hs
      simp only [IsSeg] at hnil
      subst hnil
      refine ⟨_, _, EraseAfter_heap_null_eq hr, ?_, ?_⟩
      · intro h0
        simp only [List.length_append, List.length_cons, List.length_nil] at hlen
        omega
      · intro _
        exact ⟨rfl, end_of_chain ⟨o, ho, hs⟩⟩
    | cons d post =>
      obtain ⟨t, hr, hd, hcd, -, hs1⟩ := isSeg_erase hs
      have hl1 := lists_set_get (x := ⟨o.head_next, decSize o.size_⟩) ho
      have hdc : d.1 ≠ c.1 := fun e => hcd e.symm
      have hclt := heap_get_lt hr
      have hcell : ((m.heap.set c.1 (some ⟨c.2, t⟩)).set d.1 none)[c.1]? =
          some (some ⟨c.2, t⟩) := by
        simp [List.getElem?_set, hdc, hclt]
      obtain ⟨t1, hcell1, hpost1⟩ := isSeg_suffix hs1
      rw [hcell] at hcell1
      have ht : t = t1 := by
        injection hcell1 with h1
        injection h1 with h1
        injection h1
      subst ht
      simp only [List.length_append, List.length_cons] at hlen
      refine ⟨_, _, EraseAfter_heap_eq ho hr hd hcd, ?_, ?_⟩
      · intro _
        refine ⟨?_, ?_, ?_, ?_, ?_⟩
        · rw [traverse_of_chain ⟨_, hl1, hs1⟩, ← hv, ← hpre]
          simp only [vals_append, vals_cons]
          rw [← vals_length pre, eraseIdx_succ_append]
        · simp only [GetSize]
          rw [getSize_eq hl1]
          simp only
          rw [hsz, decSize_of_pos (by omega) hlt]
        · simp only [BasicIterator.inc]
          rw [nextOf_heap hcell]
          rfl
        · rw [@deref_of_isSeg α ⟨(m.heap.set c.1 (some ⟨c.2, t⟩)).set d.1 none,
            m.lists.set l ⟨o.head_next, decSize o.size_⟩⟩ t post hpost1, ← hv, ← hpre]
          simp only [vals_append, vals_cons]
          rw [← vals_length pre, getElem?_succ_append]
          simp
        · intro h1
          have hp0 : post = [] := by
            apply List.eq_nil_of_length_eq_zero
            omega
          subst hp0
          exact @end_of_isSeg_nil α ⟨(m.heap.set c.1 (some ⟨c.2, t⟩)).set d.1 none,
            m.lists.set l ⟨o.head_next, decSize o.size_⟩⟩ l _ _ t hl1 hs1 hpost1
      · intro h0
        omega

/-- Witness of C16 on the list `{10, 20, 25, 30}`, at the iterator at 10. -/
theorem eraseAfter_spec_witness :
    ∃ it m1, EraseAfter memB 0 ⟨.heap 0⟩ = some (it, m1) ∧
      ((1 : Nat) < ([10, 20, 25, 30] : List Int).length →
        traverse m1 0 = some (([10, 20, 25, 30] : List Int).eraseIdx 1) ∧
        GetSize m1 0 = some (([10, 20, 25, 30] : List Int).length - 1) ∧
        BasicIterator.inc m1 ⟨.heap 0⟩ = some it ∧
        BasicIterator.deref m1 it = ([10, 20, 25, 30] : List Int)[1 + 1]? ∧
        (1 + 1 = ([10, 20, 25, 30] : List Int).length → end_ m1 0 = some it)) ∧
      (1 = ([10, 20, 25, 30] : List Int).length → m1 = memB ∧ end_ m1 0 = some it) :=
  (@eraseAfter_spec Int).1 memB 0 ⟨.heap 0⟩ [10, 20, 25, 30] 1 (by decide) (by decide)
    (by decide) (by decide) (by decide)

/-- C18 fails for `PopFront`: on the list `{1, 2, 3}` built by the constructor, `PopFront()`
leaves the list holding `{2, 3}` with the reachable nodes 1 and 2, but the removed first
node (address 0) is still live: the node deleted is the duplicate created at address 3.
`EraseAfter(before_begin())` and `Clear()` on the same list do release what they remove. -/
theorem popFront_leaves_node_live :
    constructFrom (Memory.empty Int) [1, 2, 3] = some (0, mem123) ∧
    begin mem123 0 = some ⟨.heap 0⟩ ∧
    (PopFront mem123 0 = some memPopped ∧ traverse memPopped 0 = some [2, 3] ∧
      reachableAddrs memPopped 0 = some [1, 2] ∧ liveNodes memPopped = [0, 1, 2] ∧
      memPopped.heap[0]? = some (some ⟨1, .heap 1⟩) ∧ memPopped.heap[3]? = some none) ∧
    (EraseAfter mem123 0 (before_begin 0) = some (⟨.heap 1⟩, memErased) ∧
      reachableAddrs memErased 0 = some [1, 2] ∧ liveNodes memErased = [1, 2]) ∧
    (Clear mem123 0 = some memCleared ∧ reachableAddrs memCleared 0 = some [] ∧
      liveNodes memCleared = []) := by
  decide

/-- Counterexample to C12: the list holding the one element `none` (a value with
`x != x`) is built by the constructor and copied by the copy constructor.  The copy has the
same element sequence and the same `GetSize()` as the original, yet `copy == original` is
false, because the loop of `operator==` returns false at the first pair with `*l != *r`. -/
theorem copy_not_equal_to_original :
    constructFrom (Memory.empty (Option Int)) [none] = some (0, memNaN) ∧
    copyConstruct memNaN 0 = some (1, memNaNCopy) ∧
    traverse memNaNCopy 0 = some [none] ∧ traverse memNaNCopy 1 = some [none] ∧
    GetSize memNaNCopy 0 = some 1 ∧ GetSize memNaNCopy 1 = some 1 ∧
    nanNe none none = true ∧
    operatorEq nanNe memNaNCopy 1 0 = some false := by
  decide

/-- C12 as amended: in a well-formed memory, for a list `a` holding `xs`: the copy
constructor succeeds and the new list holds `xs` with `GetSize()` equal to that of `a`; the
copy assignment to any other list `t` succeeds and `t` then holds `xs` with the same size;
in both cases the result compares `==` to `a` when no element of `xs` satisfies `x != x`,
and `a` still holds `xs` with its size; the self assignment leaves the memory unchanged. -/
theorem copy_spec (ne : α → α → Bool) (m : Memory α) (a : Nat) (xs : List α)
    (hwf : WellFormed m) (hx : traverse m a = some xs)
    (hirr : ∀ x, x ∈ xs → ne x x = false) :
    GetSize m a = some xs.length ∧
    (∃ c m1, copyConstruct m a = some (c, m1) ∧
      traverse m1 c = some xs ∧ GetSize m1 c = some xs.length ∧
      operatorEq ne m1 c a = some true ∧
      traverse m1 a = some xs ∧ GetSize m1 a = some xs.length) ∧
    (∀ t, t < m.lists.length → t ≠ a →
      ∃ m1, operatorAssign m t a = some m1 ∧
        traverse m1 t = some xs ∧ GetSize m1 t = some xs.length ∧
        operatorEq ne m1 t a = some true ∧
        traverse m1 a = some xs ∧ GetSize m1 a = some xs.length) ∧
    operatorAssign m a a = some m := by
  obtain ⟨own, hw⟩ := hwf
  have ha := traverse_lt hx
  obtain ⟨h1, h2⟩ := WF_observe hw ha
  rw [hx] at h1
  injection h1 with h1
  have hoa : m.lists[a]? = some m.lists[a] := List.getElem?_eq_getElem ha
  have elen : (own a).length = xs.length := by rw [h1]; simp
  refine ⟨by rw [h2, elen], ?_, ?_, operatorAssign_self hoa⟩
  · obtain ⟨m1, ds, hcopy, hw1, hvds, hlen1⟩ := copyConstruct_spec hw hoa
    have hne : a ≠ m.lists.length := by omega
    refine ⟨_, m1, hcopy, copy_observe ne hw1 (by omega) (by omega) ?_ ?_ hirr⟩
    · rw [Function.update_same, hvds, ← h1]
    · rw [Function.update_noteq hne, ← h1]
  · intro t ht hta
    obtain ⟨m1, es, hasg, hw1, hves, hlen1⟩ := operatorAssign_spec hw hta ht ha
    have hne : a ≠ t := fun e => hta e.symm
    refine ⟨m1, hasg, copy_observe ne hw1 (by omega) (by omega) ?_ ?_ hirr⟩
    · rw [Function.update_same, hves, ← h1]
    · rw [Function.update_noteq hne, ← h1]

/-- Witness of C12: copies of the list `{1, 2, 3}` of the memory `memTwo`. -/
theorem copy_spec_witness :
    GetSize memTwo 1 = some ([1, 2, 3] : List Int).length ∧
    (∃ c m1, copyConstruct memTwo 1 = some (c, m1) ∧
      traverse m1 c = some [1, 2, 3] ∧ GetSize m1 c = some ([1, 2, 3] : List Int).length ∧
      operatorEq intNe m1 c 1 = some true ∧
      traverse m1 1 = some [1, 2, 3] ∧ GetSize m1 1 = some ([1, 2, 3] : List Int).length) ∧
    (∀ t, t < memTwo.lists.length → t ≠ 1 →
      ∃ m1, operatorAssign memTwo t 1 = some m1 ∧
        traverse m1 t = some [1, 2, 3] ∧ GetSize m1 t = some ([1, 2, 3] : List Int).length ∧
        operatorEq intNe m1 t 1 = some true ∧
        traverse m1 1 = some [1, 2, 3] ∧
        GetSize m1 1 = some ([1, 2, 3] : List Int).length) ∧
    operatorAssign memTwo 1 1 = some memTwo :=
  copy_spec intNe memTwo 1 [1, 2, 3] (wellFormed_of_reachable reachable_memTwo) (by decide)
    (by intro x _; simp [intNe])

/-- C13: in a well-formed memory, let `c` be a copy of the list `a`, made by the copy
constructor or by the copy assignment to another list object.  The chains of `c` and `a`
share no node, and after any sequence of mutating operations applied to `c` the list `a`
has the element sequence and the size it had before the copy. -/
theorem deep_copy_isolation (m m1 m2 : Memory α) (a c : Nat) (hwf : WellFormed m)
    (ha : a < m.lists.length)
    (hcopy : copyConstruct m a = some (c, m1) ∨ (c ≠ a ∧ operatorAssign m c a = some m1))
    (hseq : MutatesSeq c m1 m2) :
    (∃ ra rc, reachableAddrs m1 a = some ra ∧ reachableAddrs m1 c = some rc ∧
      ∀ x, x ∈ rc → x ∉ ra) ∧
    (∃ xs, traverse m a = some xs ∧ traverse m2 a = some xs) ∧
    (∃ n, GetSize m a = some n ∧ GetSize m2 a = some n) := by
  obtain ⟨own, hw⟩ := hwf
  have hoa : m.lists[a]? = some m.lists[a] := List.getElem?_eq_getElem ha
  have key : ∃ own1, WF m1 own1 ∧ own1 a = own a ∧ a ≠ c ∧ a < m1.lists.length ∧
      c < m1.lists.length := by
    rcases hcopy with h | ⟨hca, h⟩
    · obtain ⟨m3, ds, hcopy, hw1, -, hlen1⟩ := copyConstruct_spec hw hoa
      rw [hcopy] at h
      injection h with h
      injection h with h1 h2
      subst h1 h2
      have hne : a ≠ m.lists.length := by omega
      exact ⟨_, hw1, Function.update_noteq hne _ _, hne, by omega, by omega⟩
    · have hc : c < m.lists.length := by
        by_contra hc
        have : m.lists[c]? = none := List.getElem?_eq_none (by omega)
        simp [operatorAssign, this] at h
      obtain ⟨m3, es, hasg, hw1, -, hlen1⟩ := operatorAssign_spec hw hca hc ha
      rw [hasg] at h
      injection h with h
      subst h
      have hne : a ≠ c := fun e => hca e.symm
      exact ⟨_, hw1, Function.update_noteq hne _ _, hne, by omega, by omega⟩
  obtain ⟨own1, hw1, hown1, hac, ha1, hc1⟩ := key
  obtain ⟨own2, hw2, hown2, hlen2⟩ := WF_mutatesSeq hw1 hac hseq
  obtain ⟨h1, h2⟩ := WF_observe hw ha
  obtain ⟨h3, h4⟩ := WF_observe hw2 (by omega : a < m2.lists.length)
  rw [hown2, hown1] at h3 h4
  refine ⟨⟨_, _, reachableAddrs_of_WF hw1 ha1, reachableAddrs_of_WF hw1 hc1, ?_⟩,
    ⟨_, h1, h3⟩, ⟨_, h2, h4⟩⟩
  intro x hx
  exact hw1.2 c a hc1 ha1 (fun e => hac e.symm) x hx

/-- Witness of C13: the list `{1, 2, 3}` of `memTwo` is copy-constructed, then 9 is written
through `begin()` of the copy and the copy is cleared. -/
theorem deep_copy_isolation_witness :
    (∃ ra rc, reachableAddrs memCopy 1 = some ra ∧ reachableAddrs memCopy 2 = some rc ∧
      ∀ x, x ∈ rc → x ∉ ra) ∧
    (∃ xs, traverse memTwo 1 = some xs ∧ traverse memCopyCleared 1 = some xs) ∧
    (∃ n, GetSize memTwo 1 = some n ∧ GetSize memCopyCleared 1 = some n) :=
  deep_copy_isolation memTwo memCopy memCopyCleared 1 2
    (wellFormed_of_reachable reachable_memTwo) (by decide)
    (Or.inl (by decide))
    (MutatesSeq.step
      (Mutates.write ⟨by decide, 1, by decide⟩
        (by decide : setValue memCopy (NodePtr.heap 5) 9 = some memCopyWritten))
      (MutatesSeq.step
        (Mutates.clear (by decide : Clear memCopyWritten 2 = some memCopyCleared))
        MutatesSeq.done))

/-- C14 fails in the code: in `memTwo` the list `{1, 2}` (object 0) is assigned the list
`{1, 2, 3}` (object 1).  When the construction of the second node in the loop of
`operator=` throws, the target has already been cleared and rebuilt up to that node: it
holds `{1}` with size 1 instead of `{1, 2}` with size 2.  Only a throw inside the copy
constructor of `ths_copy` leaves the target as it was. -/
theorem assign_throw_modifies_target :
    traverse memTwo 0 = some [1, 2] ∧ GetSize memTwo 0 = some 2 ∧
    traverse memTwo 1 = some [1, 2, 3] ∧
    operatorAssignThrow memTwo 0 1 (.inLoop 1) = some memThrown ∧
    traverse memThrown 0 = some [1] ∧ GetSize memThrown 0 = some 1 ∧
    (operatorAssignThrow memTwo 0 1 (.inLoop 0)).bind (fun m => traverse m 0) = some [] ∧
    (operatorAssignThrow memTwo 0 1 (.inCopy 1)).bind (fun m => traverse m 0) =
      some [1, 2] := by
  decide

end Claims

end SLL
